import Mathlib

/-!
# DirectoryFileTrees: a shallow embedding of `path.c`, `dynarray.c` and the tree managers

C strings are modelled by the list of their characters before the terminating
NUL; reading at or past the end of the list yields NUL (`deref`).  Pointers
into a string are offsets.  `malloc`, `calloc` and `realloc` are taken to
succeed, so the `MEMORY_ERROR` branches of the source do not appear.
A result `none` of a function with a loop means that the loop bound of the
model was exceeded or that the source would dereference `NULL` or read
outside the array; the theorems show that this does not happen.

`path.c` and `dynarray.c` are embedded from their sources.  The tree managers
(`bdt.c`, `dt.c`, `ft.c`) and the node modules are not among the sources and
are modelled from the specification and the headers.
-/

namespace DFT


/-! ## a4def.h -/

/-- Return statuses of `a4def.h`. -/
inductive Status where
  | SUCCESS
  | INITIALIZATION_ERROR
  | ALREADY_IN_TREE
  | NO_SUCH_PATH
  | CONFLICTING_PATH
  | BAD_PATH
  | NOT_A_DIRECTORY
  | NOT_A_FILE
  | MEMORY_ERROR
  deriving DecidableEq, Repr

open Status

/-! ## C strings -/

/-- The terminating character of a C string. -/
def NUL : Char := Char.ofNat 0

/-- The delimiter of path components. -/
def SLASH : Char := '/'

/-- A list of characters is the content of a C string when it holds no NUL. -/
def CStr (s : List Char) : Prop := NUL ∉ s

instance (s : List Char) : Decidable (CStr s) := by
  unfold CStr; exact inferInstance

/-- The character at offset `i` of the string `s`: `*(s + i)`.  The terminator
is read at the end of the list. -/
def deref (s : List Char) (i : Nat) : Char := s.getD i NUL

/-- The library function `strlen`: the number of characters before the first NUL. -/
def strlen : List Char → Nat
  | [] => 0
  | c :: cs => if c = NUL then 0 else strlen cs + 1

/-- The library function `strcpy`, as the content of the destination after
the call: the characters of the source before its first NUL. -/
def strcpy : List Char → List Char
  | [] => []
  | c :: cs => if c = NUL then [] else c :: strcpy cs

/-- The library function `strcmp`: the difference of the first pair of
differing characters, read as `unsigned char`, the terminator being 0. -/
def strcmp : List Char → List Char → Int
  | [], [] => 0
  | [], c :: _ => (NUL.toNat : Int) - c.toNat
  | c :: _, [] => (c.toNat : Int) - NUL.toNat
  | c1 :: s1, c2 :: s2 =>
    if c1 = c2 then (if c1 = NUL then 0 else strcmp s1 s2)
    else (c1.toNat : Int) - c2.toNat

/-- The library function `strcpy` into a buffer: the buffer after
`strcpy(pcBuf + off, src)`, that is the characters of `src` before its first
NUL written from offset `off` on, followed by a NUL.  `none` when the write
would run past the end of the buffer. -/
def strcpyAt (pcBuf : List Char) (off : Nat) (src : List Char) : Option (List Char) :=
  let chars := strcpy src ++ [NUL]
  if off + chars.length ≤ pcBuf.length then
    some (pcBuf.take off ++ chars ++ pcBuf.drop (off + chars.length))
  else none

/-! ## dynarray.c -/

/-- The minimum physical length of a DynArray object. -/
def MIN_PHYS_LENGTH : Nat := 2

/-- A DynArray consists of an array, along with its logical and physical
lengths.  The elements are the `void*` values stored; `default` is `NULL`. -/
structure DynArray (α : Type) where
  uLength : Nat
  uPhysLength : Nat
  ppvArray : List α
  deriving DecidableEq, Repr

/-- The invariants checked by `DynArray_isValid`; the array of the model also
has exactly `uPhysLength` cells. -/
def DynArray_isValid {α : Type} (oDynArray : DynArray α) : Bool :=
  if oDynArray.uPhysLength < MIN_PHYS_LENGTH then false
  else if oDynArray.uLength > oDynArray.uPhysLength then false
  else if oDynArray.ppvArray.length ≠ oDynArray.uPhysLength then false
  else true

/-- Increase the physical length of `oDynArray` (`realloc` succeeding); the new
cells, indeterminate in C, hold `default`. -/
def DynArray_grow {α : Type} [Inhabited α] (oDynArray : DynArray α) : DynArray α :=
  let uNewLength := 2 * oDynArray.uPhysLength
  { oDynArray with
    uPhysLength := uNewLength
    ppvArray := oDynArray.ppvArray ++
      List.replicate (uNewLength - oDynArray.ppvArray.length) default }

/-- `DynArray_new(uLength)`: `calloc` fills the cells with `NULL`. -/
def DynArray_new {α : Type} [Inhabited α] (uLength : Nat) : DynArray α :=
  let uPhysLength := if uLength > MIN_PHYS_LENGTH then uLength else MIN_PHYS_LENGTH
  { uLength := uLength
    uPhysLength := uPhysLength
    ppvArray := List.replicate uPhysLength default }

/-- `DynArray_getLength`. -/
def DynArray_getLength {α : Type} (oDynArray : DynArray α) : Nat :=
  oDynArray.uLength

/-- `DynArray_get`; the source asserts `uIndex < uLength`. -/
def DynArray_get {α : Type} [Inhabited α] (oDynArray : DynArray α) (uIndex : Nat) : α :=
  oDynArray.ppvArray.getD uIndex default

/-- `DynArray_set`: the old element and the updated array. -/
def DynArray_set {α : Type} [Inhabited α] (oDynArray : DynArray α) (uIndex : Nat)
    (pvElement : α) : α × DynArray α :=
  (oDynArray.ppvArray.getD uIndex default,
   { oDynArray with ppvArray := oDynArray.ppvArray.set uIndex pvElement })

/-- `DynArray_add` (growth succeeding): the returned int and the updated array. -/
def DynArray_add {α : Type} [Inhabited α] (oDynArray : DynArray α) (pvElement : α) :
    Int × DynArray α :=
  let a := if oDynArray.uLength = oDynArray.uPhysLength then DynArray_grow oDynArray
           else oDynArray
  (1, { a with ppvArray := a.ppvArray.set a.uLength pvElement, uLength := a.uLength + 1 })

/-- The loop of `DynArray_addAt`, `for (u = uLength; u > uIndex; u--)`, entered
with `u`; `n` is `u - uIndex`, the number of iterations left. -/
def DynArray_addAt.shift {α : Type} [Inhabited α] : Nat → Nat → List α → List α
  | 0, _, ppvArray => ppvArray
  | n + 1, u, ppvArray =>
    DynArray_addAt.shift n (u - 1) (ppvArray.set u (ppvArray.getD (u - 1) default))

/-- `DynArray_addAt` (growth succeeding): the returned int and the updated
array; the source asserts `uIndex <= uLength`. -/
def DynArray_addAt {α : Type} [Inhabited α] (oDynArray : DynArray α) (uIndex : Nat)
    (pvElement : α) : Int × DynArray α :=
  let a := if oDynArray.uLength = oDynArray.uPhysLength then DynArray_grow oDynArray
           else oDynArray
  let ppvArray := DynArray_addAt.shift (a.uLength - uIndex) a.uLength a.ppvArray
  (1, { a with ppvArray := ppvArray.set uIndex pvElement, uLength := a.uLength + 1 })

/-- The loop of `DynArray_removeAt`, `for (u = uIndex; u < uLength; u++)`,
entered with `u`; `n` is `uLength - u`, the number of iterations left. -/
def DynArray_removeAt.shift {α : Type} [Inhabited α] : Nat → Nat → List α → List α
  | 0, _, ppvArray => ppvArray
  | n + 1, u, ppvArray =>
    DynArray_removeAt.shift n (u + 1) (ppvArray.set u (ppvArray.getD (u + 1) default))

/-- `DynArray_removeAt`: the old element and the updated array; the source
asserts `uIndex < uLength`. -/
def DynArray_removeAt {α : Type} [Inhabited α] (oDynArray : DynArray α) (uIndex : Nat) :
    α × DynArray α :=
  let pvOldElement := oDynArray.ppvArray.getD uIndex default
  let uLength := oDynArray.uLength - 1
  (pvOldElement,
   { oDynArray with
     uLength := uLength
     ppvArray := DynArray_removeAt.shift (uLength - uIndex) uIndex oDynArray.ppvArray })

/-- The elements of a DynArray from the client's point of view. -/
def DynArray.toList {α : Type} (oDynArray : DynArray α) : List α :=
  oDynArray.ppvArray.take oDynArray.uLength

/-- The DynArray that holds the elements of a list: the generic container
in which a node keeps its children. -/
def DynArray.ofList {α : Type} [Inhabited α] (l : List α) : DynArray α :=
  let uPhysLength := if l.length > MIN_PHYS_LENGTH then l.length else MIN_PHYS_LENGTH
  { uLength := l.length
    uPhysLength := uPhysLength
    ppvArray := l ++ List.replicate (uPhysLength - l.length) default }

/-- The first inner loop of `DynArray_qsort`,
`while ((*pfCompare)(*ppvRight, pvPivot) < 0) ppvRight++`: the pointer at
which it stops, as an offset from the start of the array.  `none` when the
loop reads outside the array or exceeds the bound given by the first
argument. -/
def DynArray_qsort.scanRight {α : Type} [Inhabited α] (pfCompare : α → α → Int)
    (ppvArray : List α) (pvPivot : α) : Nat → Int → Option Int
  | 0, _ => none
  | fuel + 1, ppvRight =>
    if 0 ≤ ppvRight ∧ ppvRight < ppvArray.length then
      if pfCompare (ppvArray.getD ppvRight.toNat default) pvPivot < 0 then
        DynArray_qsort.scanRight pfCompare ppvArray pvPivot fuel (ppvRight + 1)
      else some ppvRight
    else none

/-- The second inner loop of `DynArray_qsort`,
`while ((*pfCompare)(pvPivot, *ppvLeft) < 0) ppvLeft--`: the pointer at which
it stops.  `none` when the loop reads outside the array or exceeds the bound
given by the first argument. -/
def DynArray_qsort.scanLeft {α : Type} [Inhabited α] (pfCompare : α → α → Int)
    (ppvArray : List α) (pvPivot : α) : Nat → Int → Option Int
  | 0, _ => none
  | fuel + 1, ppvLeft =>
    if 0 ≤ ppvLeft ∧ ppvLeft < ppvArray.length then
      if pfCompare pvPivot (ppvArray.getD ppvLeft.toNat default) < 0 then
        DynArray_qsort.scanLeft pfCompare ppvArray pvPivot fuel (ppvLeft - 1)
      else some ppvLeft
    else none

/-- The outer loop of `DynArray_qsort`, `while (ppvRight <= ppvLeft)`, entered
with the array, `ppvRight` and `ppvLeft`: the array and the two pointers when
the loop ends.  The first argument bounds the number of iterations. -/
def DynArray_qsort.loop {α : Type} [Inhabited α] (pfCompare : α → α → Int) (pvPivot : α) :
    Nat → List α → Int → Int → Option (List α × Int × Int)
  | 0, _, _, _ => none
  | fuel + 1, ppvArray, ppvRight, ppvLeft =>
    if ppvRight ≤ ppvLeft then
      match DynArray_qsort.scanRight pfCompare ppvArray pvPivot (ppvArray.length + 1)
          ppvRight with
      | none => none
      | some ppvRight =>
        match DynArray_qsort.scanLeft pfCompare ppvArray pvPivot (ppvArray.length + 1)
            ppvLeft with
        | none => none
        | some ppvLeft =>
          if ppvRight ≤ ppvLeft then
            let pvTemp := ppvArray.getD ppvRight.toNat default
            let ppvArray :=
              ppvArray.set ppvRight.toNat (ppvArray.getD ppvLeft.toNat default)
            let ppvArray := ppvArray.set ppvLeft.toNat pvTemp
            DynArray_qsort.loop pfCompare pvPivot fuel ppvArray (ppvRight + 1) (ppvLeft - 1)
          else DynArray_qsort.loop pfCompare pvPivot fuel ppvArray ppvRight ppvLeft
    else some (ppvArray, ppvRight, ppvLeft)

/-- `DynArray_qsort`: the array after the elements at the offsets `ppvLo` to
`ppvHi` were sorted.  The first argument bounds the depth of the recursion;
`none` when a bound is exceeded or the array is read outside its cells. -/
def DynArray_qsort {α : Type} [Inhabited α] (pfCompare : α → α → Int) :
    Nat → List α → Int → Int → Option (List α)
  | 0, _, _, _ => none
  | fuel + 1, ppvArray, ppvLo, ppvHi =>
    let ppvMid := ppvLo + (ppvHi - ppvLo) / 2
    if 0 ≤ ppvMid ∧ ppvMid < ppvArray.length then
      let pvPivot := ppvArray.getD ppvMid.toNat default
      match DynArray_qsort.loop pfCompare pvPivot (ppvArray.length + 2) ppvArray ppvLo ppvHi with
      | none => none
      | some (ppvArray, ppvRight, ppvLeft) =>
        match (if ppvLo < ppvLeft then DynArray_qsort pfCompare fuel ppvArray ppvLo ppvLeft
               else some ppvArray) with
        | none => none
        | some ppvArray =>
          if ppvRight < ppvHi then DynArray_qsort pfCompare fuel ppvArray ppvRight ppvHi
          else some ppvArray
    else none

/-- `DynArray_sort`: the array after the call; `none` when the model of
`DynArray_qsort` gives no result. -/
def DynArray_sort {α : Type} [Inhabited α] (oDynArray : DynArray α)
    (pfCompare : α → α → Int) : Option (DynArray α) :=
  if oDynArray.uLength < 2 then some oDynArray
  else
    match DynArray_qsort pfCompare oDynArray.uLength oDynArray.ppvArray 0
        ((oDynArray.uLength : Int) - 1) with
    | none => none
    | some ppvArray => some { oDynArray with ppvArray := ppvArray }

/-- The loop of `DynArray_search`, `for (u = 0; u < uLength; u++)`, entered with
`u`; `n` is `uLength - u`.  The result is the index at which the loop returns,
`none` when it runs to its end. -/
def DynArray_search.loop {α β : Type} [Inhabited α] (ppvArray : List α)
    (pvSoughtElement : β) (pfCompare : α → β → Int) : Nat → Nat → Option Nat
  | 0, _ => none
  | n + 1, u =>
    if pfCompare (ppvArray.getD u default) pvSoughtElement = 0 then some u
    else DynArray_search.loop ppvArray pvSoughtElement pfCompare n (u + 1)

/-- `DynArray_search`: the returned int and the value of `*puIndex` after the
call, `uIndex` being its value before the call. -/
def DynArray_search {α β : Type} [Inhabited α] (oDynArray : DynArray α)
    (pvSoughtElement : β) (uIndex : Nat) (pfCompare : α → β → Int) : Int × Nat :=
  match DynArray_search.loop oDynArray.ppvArray pvSoughtElement pfCompare
      oDynArray.uLength 0 with
  | some u => (1, u)
  | none => (0, uIndex)

/-- The outcome of `DynArray_bsearchHelp`: the pointer returned when the
element is found, or, when `NULL` is returned, the pointer stored in
`*pppvInsert`.  Pointers are offsets from `&ppvArray[0]`. -/
inductive BsearchResult where
  | found (ppvMid : Int)
  | insertAt (ppvLo : Int)
  deriving DecidableEq, Repr

/-- `DynArray_bsearchHelp`: `ppvLo` and `ppvHi` are offsets from the start of
the array; the comparator receives the element first and the sought element
second.  The first argument bounds the number of iterations. -/
def DynArray_bsearchHelp {α β : Type} [Inhabited α] (pvSoughtElement : β)
    (ppvArray : List α) (pfCompare : α → β → Int) :
    Nat → Int → Int → Option BsearchResult
  | 0, _, _ => none
  | fuel + 1, ppvLo, ppvHi =>
    if ppvLo ≤ ppvHi then
      let ppvMid := ppvLo + (ppvHi - ppvLo) / 2
      let iCompare := pfCompare (ppvArray.getD ppvMid.toNat default) pvSoughtElement
      if iCompare > 0 then
        DynArray_bsearchHelp pvSoughtElement ppvArray pfCompare fuel ppvLo (ppvMid - 1)
      else if iCompare < 0 then
        DynArray_bsearchHelp pvSoughtElement ppvArray pfCompare fuel (ppvMid + 1) ppvHi
      else some (BsearchResult.found ppvMid)
    else some (BsearchResult.insertAt ppvLo)

/-- `DynArray_bsearch`: the returned int and the index stored in `*puIndex`. -/
def DynArray_bsearch {α β : Type} [Inhabited α] (oDynArray : DynArray α)
    (pvSoughtElement : β) (pfCompare : α → β → Int) : Option (Int × Nat) :=
  if oDynArray.uLength = 0 then some (0, 0)
  else
    match DynArray_bsearchHelp pvSoughtElement oDynArray.ppvArray pfCompare
        (oDynArray.uLength + 1) 0 ((oDynArray.uLength : Int) - 1) with
    | none => none
    | some (BsearchResult.insertAt ppvInsert) => some (0, ppvInsert.toNat)
    | some (BsearchResult.found ppvElement) => some (1, ppvElement.toNat)

/-! ## path.c -/

/-- An absolute path: `struct path`. -/
structure Path where
  pcPath : List Char
  ulLength : Nat
  oDComponents : DynArray (Option (List Char))
  deriving DecidableEq, Repr

/-- The inner loop of `Path_split`: advance `pcEnd` to the end of the next
token.  The first argument bounds the number of steps. -/
def Path_split.scan (pcPath : List Char) : Nat → Nat → Nat
  | 0, pcEnd => pcEnd
  | fuel + 1, pcEnd =>
    if deref pcPath pcEnd ≠ SLASH ∧ deref pcPath pcEnd ≠ NUL then
      Path_split.scan pcPath fuel (pcEnd + 1)
    else pcEnd

/-- The copying loop of `Path_split`: the characters from `pcStart` up to
`pcEnd`, `n` being `pcEnd - pcStart`. -/
def Path_split.copy (pcPath : List Char) : Nat → Nat → List Char
  | 0, _ => []
  | n + 1, pcStart => deref pcPath pcStart :: Path_split.copy pcPath n (pcStart + 1)

/-- The outer loop of `Path_split`, entered with `pcStart`, `pcEnd` and the
substrings collected so far.  The first argument bounds the number of
iterations. -/
def Path_split.loop (pcPath : List Char) :
    Nat → Nat → Nat → DynArray (Option (List Char)) →
    Option (Status × Option (DynArray (Option (List Char))))
  | 0, _, _, _ => none
  | fuel + 1, pcStart, pcEnd, oDSubstrings =>
    if deref pcPath pcEnd ≠ NUL then
      let pcEnd := pcStart
      if deref pcPath pcEnd = SLASH then some (BAD_PATH, none)
      else
        let pcEnd := Path_split.scan pcPath (pcPath.length + 1) pcEnd
        if deref pcPath pcEnd = NUL ∧ deref pcPath (pcEnd - 1) = SLASH then
          some (BAD_PATH, none)
        else
          let pcCopy := Path_split.copy pcPath (pcEnd - pcStart) pcStart
          let oDSubstrings := (DynArray_add oDSubstrings (some pcCopy)).2
          let pcStart := pcEnd
          let pcStart := pcStart + 1
          Path_split.loop pcPath fuel pcStart pcEnd oDSubstrings
    else some (SUCCESS, some oDSubstrings)

/-- `Path_split`: the status and `*poDComponents`. -/
def Path_split (pcPath : List Char) :
    Option (Status × Option (DynArray (Option (List Char)))) :=
  if deref pcPath 0 = NUL then some (BAD_PATH, none)
  else Path_split.loop pcPath (pcPath.length + 1) 0 0 (DynArray_new 0)

/-- `Path_new`: the status and `*poPResult`. -/
def Path_new (pcPath : List Char) : Option (Status × Option Path) :=
  match Path_split pcPath with
  | none => none
  | some (iSplitResult, oDComponents) =>
    if iSplitResult ≠ SUCCESS then some (iSplitResult, none)
    else
      match oDComponents with
      | none => none
      | some oDComponents =>
        some (SUCCESS, some
          { oDComponents := oDComponents
            ulLength := strlen pcPath
            pcPath := strcpy pcPath })

/-- `Path_getPathname`. -/
def Path_getPathname (oPPath : Path) : List Char := oPPath.pcPath

/-- `Path_getStrLength`. -/
def Path_getStrLength (oPPath : Path) : Nat := oPPath.ulLength

/-- `Path_getDepth`. -/
def Path_getDepth (oPPath : Path) : Nat := DynArray_getLength oPPath.oDComponents

/-- `Path_getComponent`: `none` is `NULL`. -/
def Path_getComponent (oPPath : Path) (ulLevel : Nat) : Option (List Char) :=
  if ulLevel ≥ Path_getDepth oPPath then none
  else DynArray_get oPPath.oDComponents ulLevel

/-- `Path_comparePath`. -/
def Path_comparePath (oPPath1 oPPath2 : Path) : Int :=
  strcmp oPPath1.pcPath oPPath2.pcPath

/-- `Path_compareString`. -/
def Path_compareString (oPPath : Path) (pcStr : List Char) : Int :=
  strcmp oPPath.pcPath pcStr

/-- The state of the loop of ` Path_prefix`: the components of the new path,
the buffer `pcBuild` and `ulSum`; `pcInsert` is `pcBuild + ulSum` throughout. -/
structure PrefixState where
  oDComponents : DynArray (Option (List Char))
  pcBuild : List Char
  ulSum : Nat
  deriving DecidableEq, Repr

/-- The loop of ` Path_prefix` from `ulIndex` on, `n` being `ulDepth - ulIndex`. -/
def prefixLoop (oPPath : Path) : Nat → Nat → PrefixState → Option PrefixState
  | 0, _, st => some st
  | n + 1, ulIndex, st =>
    match Path_getComponent oPPath ulIndex with
    | none => none
    | some pcComponent =>
      let ulLength := strlen pcComponent
      let pcCopy := strcpy pcComponent
      let oDComponents := (DynArray_set st.oDComponents ulIndex (some pcCopy)).2
      match strcpyAt st.pcBuild st.ulSum pcComponent with
      | none => none
      | some pcBuild =>
        if st.ulSum + ulLength < pcBuild.length then
          let pcBuild := pcBuild.set (st.ulSum + ulLength) SLASH
          prefixLoop oPPath n (ulIndex + 1)
            { oDComponents := oDComponents
              pcBuild := pcBuild
              ulSum := st.ulSum + (ulLength + 1) }
        else none

/-- ` Path_prefix`: the status and `*poPResult`. -/
def Path_prefix (oPPath : Path) (ulDepth : Nat) : Option (Status × Option Path) :=
  if ulDepth = 0 then some (NO_SUCH_PATH, none)
  else if Path_getDepth oPPath < ulDepth then some (NO_SUCH_PATH, none)
  else
    let oDComponents : DynArray (Option (List Char)) := DynArray_new ulDepth
    let pcBuild := List.replicate (Path_getStrLength oPPath + 1) NUL
    match prefixLoop oPPath ulDepth 0
        { oDComponents := oDComponents, pcBuild := pcBuild, ulSum := 0 } with
    | none => none
    | some st =>
      let pcBuild := st.pcBuild.set (st.ulSum - 1) NUL
      let pcInsert := pcBuild.take st.ulSum
      some (SUCCESS, some
        { oDComponents := st.oDComponents
          ulLength := st.ulSum - 1
          pcPath := strcpy pcInsert })

/-- `Path_dup`. -/
def Path_dup (oPPath : Path) : Option (Status × Option Path) :=
  Path_prefix oPPath (Path_getDepth oPPath)

/-- The loop of `Path_getSharedPrefixDepth` from `i` on, `n` being `ulMin - i`. -/
def Path_getSharedPrefixDepth.loop (oPPath1 oPPath2 : Path) (ulMin : Nat) :
    Nat → Nat → Option Nat
  | 0, _ => some ulMin
  | n + 1, i =>
    match Path_getComponent oPPath1 i, Path_getComponent oPPath2 i with
    | some pc1, some pc2 =>
      if strcmp pc1 pc2 ≠ 0 then some i
      else Path_getSharedPrefixDepth.loop oPPath1 oPPath2 ulMin n (i + 1)
    | _, _ => none

/-- `Path_getSharedPrefixDepth`. -/
def Path_getSharedPrefixDepth (oPPath1 oPPath2 : Path) : Option Nat :=
  let ulDepth1 := Path_getDepth oPPath1
  let ulDepth2 := Path_getDepth oPPath2
  let ulMin := if ulDepth1 < ulDepth2 then ulDepth1 else ulDepth2
  Path_getSharedPrefixDepth.loop oPPath1 oPPath2 ulMin ulMin 0

/-! ## The tree managers

The sources `bdt.c`, `dt.c`, `ft.c` and the node modules are not part of the
repository snapshot; only their headers and clients are.  The definitions of
this section are modelled from the specification (sections 3 and 4) and the
headers `bdt.h`, `dt.h`, `ft.h`, `nodeDT.h`.  The three variants share one
engine that differs in the child lookup, the arity bound and the payload.  A
tree is a value: a failing operation returns the tree it was given. -/

/-- Modelled from the spec: the three variants of the tree manager, whose
sources are missing (binary, general, typed). -/
inductive Variant where
  | BDT
  | DT
  | FT
  deriving DecidableEq, Repr

/-- Modelled from the spec: the payload of a file of the typed variant, a
byte buffer (possibly `NULL`) with a length; the sources of the nodes are
missing. -/
structure Payload where
  pvContents : Option (List Nat)
  ulLength : Nat
  deriving DecidableEq, Repr

/-- Modelled from the spec: a node owns its path, its ordered collection of
children and, in the typed variant, a tag and the payload of a file (section
3, Node); the node module is missing from the sources.  The weak reference to
the parent is the position of the node in the tree. -/
inductive Node where
  | mk (oPPath : Path) (bIsFile : Bool) (oPayload : Payload) (oDChildren : List Node)

instance : Inhabited Node := ⟨Node.mk ⟨[], 0, ⟨0, 0, []⟩⟩ false ⟨none, 0⟩ []⟩

/-- Modelled from the spec: `Node_getPath` of `nodeDT.h`, the path of a node. -/
def Node_getPath : Node → Path
  | Node.mk oPPath _ _ _ => oPPath

/-- Modelled from the spec: the tag of a node of the typed variant (section 3). -/
def Node.isFile : Node → Bool
  | Node.mk _ bIsFile _ _ => bIsFile

/-- Modelled from the spec: the payload of a node of the typed variant (section 3). -/
def Node.payload : Node → Payload
  | Node.mk _ _ oPayload _ => oPayload

/-- Modelled from the spec: the ordered collection of children of a node
(section 3). -/
def Node.children : Node → List Node
  | Node.mk _ _ _ oDChildren => oDChildren

/-- Modelled from the spec: a node with its collection of children replaced;
stands for the updates in place of the missing node module. -/
def Node.setChildren : Node → List Node → Node
  | Node.mk oPPath bIsFile oPayload _, oDChildren => Node.mk oPPath bIsFile oPayload oDChildren

/-- Modelled from the spec: `Node_getNumChildren` of `nodeDT.h` (`childCount`). -/
def Node_getNumChildren (oNParent : Node) : Nat := oNParent.children.length

/-- Modelled from the spec: `Node_getChild` of `nodeDT.h`: the child with
identifier `ulChildID`, or `NO_SUCH_PATH` when the identifier is not valid. -/
def Node_getChild (oNParent : Node) (ulChildID : Nat) : Status × Option Node :=
  match oNParent.children[ulChildID]? with
  | some oNChild => (SUCCESS, some oNChild)
  | none => (NO_SUCH_PATH, none)

/-- Modelled from the spec: `Node_compare` of `nodeDT.h` delegates to the
comparison of paths. -/
def Node_compare (oNFirst oNSecond : Node) : Int :=
  Path_comparePath (Node_getPath oNFirst) (Node_getPath oNSecond)

/-- Modelled from the spec: `Node_toString` of `nodeDT.h`, the absolute path
of the node. -/
def Node_toString (oNNode : Node) : List Char := Path_getPathname (Node_getPath oNNode)

mutual

/-- Modelled from the spec: `Node_free` of `nodeDT.h` (`destroySubtree`): the
number of nodes of the subtree, which are all destroyed. -/
def Node_free : Node → Nat
  | Node.mk _ _ _ oDChildren => Node_freeList oDChildren + 1

/-- Modelled from the spec: the number of nodes destroyed in a collection of
children (`destroySubtree`, section 4.2). -/
def Node_freeList : List Node → Nat
  | [] => 0
  | oNChild :: rest => Node_free oNChild + Node_freeList rest
end

/-- Modelled from the spec: `Node_hasChild` of `nodeDT.h` (`hasChild`, section
4.2): whether the parent has a child with the path, and the identifier of the
child, or the identifier it would have if inserted.  The binary variant scans
its two slots, the other variants use the binary search of the container. -/
def Node_hasChild (v : Variant) (oNParent : Node) (oPPath : Path) : Option (Bool × Nat) :=
  match v with
  | Variant.BDT =>
    match oNParent.children with
    | [] => some (false, 0)
    | [oNFirst] =>
      if Path_comparePath (Node_getPath oNFirst) oPPath = 0 then some (true, 0)
      else some (false, 1)
    | oNFirst :: oNSecond :: _ =>
      if Path_comparePath (Node_getPath oNFirst) oPPath = 0 then some (true, 0)
      else if Path_comparePath (Node_getPath oNSecond) oPPath = 0 then some (true, 1)
      else some (false, 2)
  | _ =>
    match DynArray_bsearch (DynArray.ofList oNParent.children) oPPath
        (fun oNChild oPSought => Path_comparePath (Node_getPath oNChild) oPSought) with
    | none => none
    | some (iFound, ulChildID) => some (decide (iFound ≠ 0), ulChildID)

/-- Modelled from the spec: `Node_new` of `nodeDT.h` (`create`, section 4.2):
the status, the new node (without children) and the slot of the parent in
which it is registered.  The node is a file when a payload is given. -/
def Node_new (v : Variant) (oPPath : Path) (oNParent : Option Node)
    (oPayload : Option Payload) : Option (Status × Option Node × Nat) :=
  let oNNew := Node.mk oPPath oPayload.isSome (oPayload.getD ⟨none, 0⟩) []
  match oNParent with
  | some oNParent =>
    let ulParentDepth := Path_getDepth (Node_getPath oNParent)
    match Path_getSharedPrefixDepth oPPath (Node_getPath oNParent) with
    | none => none
    | some ulSharedDepth =>
      if ulSharedDepth < ulParentDepth then some (CONFLICTING_PATH, none, 0)
      else if Path_getDepth oPPath ≠ ulParentDepth + 1 then some (NO_SUCH_PATH, none, 0)
      else
        match Node_hasChild v oNParent oPPath with
        | none => none
        | some (true, _) => some (ALREADY_IN_TREE, none, 0)
        | some (false, ulIndex) => some (SUCCESS, some oNNew, ulIndex)
  | none =>
    if Path_getDepth oPPath ≠ 1 then some (NO_SUCH_PATH, none, 0)
    else some (SUCCESS, some oNNew, 0)

/-- Modelled from the spec: the state of a tree manager (section 3, Tree);
the sources of the managers are missing. -/
structure Tree where
  bIsInitialized : Bool
  oNRoot : Option Node
  ulCount : Nat

/-- Modelled from the spec: the state of a tree manager before the first
`init` (section 3, Tree: created uninitialized, without a root, count 0); the
sources of the managers are missing. -/
def Tree.uninitialized : Tree := { bIsInitialized := false, oNRoot := none, ulCount := 0 }

/-- Modelled from the spec: `init` (section 4.3; `BDT_init`, `DT_init`,
`FT_init`). -/
def Tree_init (t : Tree) : Status × Tree :=
  if t.bIsInitialized then (INITIALIZATION_ERROR, t)
  else (SUCCESS, { bIsInitialized := true, oNRoot := none, ulCount := 0 })

/-- Modelled from the spec: `destroy` (section 4.3; `BDT_destroy`,
`DT_destroy`, `FT_destroy`). -/
def Tree_destroy (t : Tree) : Status × Tree :=
  if !t.bIsInitialized then (INITIALIZATION_ERROR, t)
  else (SUCCESS, { bIsInitialized := false, oNRoot := none, ulCount := 0 })

/-- Modelled from the spec: the creation of the missing nodes of an insertion
(section 4.3, `insert`): the nodes for the levels `ulIndex` up to the depth of
the path are created one under the other, the first under `oNParent`; `n + 1`
is their number.  The result is the status, the first new node with the chain
below it, and its slot in `oNParent`. -/
def Tree_buildRest (v : Variant) (oPPath : Path) (oPayload : Option Payload) :
    Nat → Nat → Option Node → Option (Status × Option Node × Nat)
  | 0, ulIndex, oNParent =>
    match Path_prefix oPPath ulIndex with
    | some (SUCCESS, some oPPrefix) => Node_new v oPPrefix oNParent oPayload
    | some (iStatus, _) => some (iStatus, none, 0)
    | none => none
  | n + 1, ulIndex, oNParent =>
    match Path_prefix oPPath ulIndex with
    | some (SUCCESS, some oPPrefix) =>
      match Node_new v oPPrefix oNParent none with
      | some (SUCCESS, some oNNew, ulSlot) =>
        match Tree_buildRest v oPPath oPayload n (ulIndex + 1) (some oNNew) with
        | some (SUCCESS, some oNChild, ulChildSlot) =>
          some (SUCCESS,
            some (oNNew.setChildren
              (oNNew.children.take ulChildSlot ++ oNChild :: oNNew.children.drop ulChildSlot)),
            ulSlot)
        | some (iStatus, _, _) => some (iStatus, none, 0)
        | none => none
      | some (iStatus, _, _) => some (iStatus, none, 0)
      | none => none
    | some (iStatus, _) => some (iStatus, none, 0)
    | none => none

/-- Modelled from the spec: the walk of an insertion from a node that lies on
the path (section 4.3, `insert`): `oNCurr` has the prefix of depth `ulLevel`
as its path and `n` is the depth of the path minus `ulLevel`.  The result is
the status, the node after the insertion and the number of new nodes. -/
def Tree_insertFrom (v : Variant) (oPPath : Path) (oPayload : Option Payload) :
    Nat → Nat → Node → Option (Status × Node × Nat)
  | 0, _, oNCurr => some (ALREADY_IN_TREE, oNCurr, 0)
  | n + 1, ulLevel, oNCurr =>
    if oNCurr.isFile then some (NOT_A_DIRECTORY, oNCurr, 0)
    else
      match Path_prefix oPPath (ulLevel + 1) with
      | some (SUCCESS, some oPPrefix) =>
        match Node_hasChild v oNCurr oPPrefix with
        | none => none
        | some (true, ulChildID) =>
          match Node_getChild oNCurr ulChildID with
          | (SUCCESS, some oNChild) =>
            match Tree_insertFrom v oPPath oPayload n (ulLevel + 1) oNChild with
            | some (SUCCESS, oNChild, ulNewNodes) =>
              some (SUCCESS, oNCurr.setChildren (oNCurr.children.set ulChildID oNChild),
                ulNewNodes)
            | some (iStatus, _, _) => some (iStatus, oNCurr, 0)
            | none => none
          | (iStatus, _) => some (iStatus, oNCurr, 0)
        | some (false, _) =>
          if v = Variant.BDT ∧ Node_getNumChildren oNCurr ≥ 2 then
            some (CONFLICTING_PATH, oNCurr, 0)
          else
            match Tree_buildRest v oPPath oPayload n (ulLevel + 1) (some oNCurr) with
            | some (SUCCESS, some oNNew, ulSlot) =>
              some (SUCCESS,
                oNCurr.setChildren
                  (oNCurr.children.take ulSlot ++ oNNew :: oNCurr.children.drop ulSlot),
                n + 1)
            | some (iStatus, _, _) => some (iStatus, oNCurr, 0)
            | none => none
      | some (iStatus, _) => some (iStatus, oNCurr, 0)
      | none => none

/-- Modelled from the spec: `insert` (section 4.3; `BDT_insert`, `DT_insert`,
`FT_insertDir` without a payload, `FT_insertFile` with one). -/
def Tree_insert (v : Variant) (t : Tree) (pcPath : List Char) (oPayload : Option Payload) :
    Option (Status × Tree) :=
  if !t.bIsInitialized then some (INITIALIZATION_ERROR, t)
  else
    match Path_new pcPath with
    | none => none
    | some (SUCCESS, some oPPath) =>
      match t.oNRoot with
      | none =>
        if oPayload.isSome ∧ Path_getDepth oPPath = 1 then some (CONFLICTING_PATH, t)
        else
          match Tree_buildRest v oPPath oPayload (Path_getDepth oPPath - 1) 1 none with
          | some (SUCCESS, some oNNew, _) =>
            some (SUCCESS, { t with oNRoot := some oNNew,
                                    ulCount := t.ulCount + Path_getDepth oPPath })
          | some (iStatus, _, _) => some (iStatus, t)
          | none => none
      | some oNRoot =>
        match Path_prefix oPPath 1 with
        | some (SUCCESS, some oPPrefix) =>
          if Path_comparePath (Node_getPath oNRoot) oPPrefix ≠ 0 then
            some (CONFLICTING_PATH, t)
          else
            match Tree_insertFrom v oPPath oPayload (Path_getDepth oPPath - 1) 1 oNRoot with
            | some (SUCCESS, oNRoot, ulNewNodes) =>
              some (SUCCESS, { t with oNRoot := some oNRoot,
                                      ulCount := t.ulCount + ulNewNodes })
            | some (iStatus, _, _) => some (iStatus, t)
            | none => none
        | some (iStatus, _) => some (iStatus, t)
        | none => none
    | some (iStatus, _) => some (iStatus, t)

/-- Modelled from the spec: the walk of a lookup from a node that lies on the
path: the node with the exact path, if the walk reaches it. -/
def Tree_findFrom (v : Variant) (oPPath : Path) : Nat → Nat → Node → Option (Status × Option Node)
  | 0, _, oNCurr => some (SUCCESS, some oNCurr)
  | n + 1, ulLevel, oNCurr =>
    match Path_prefix oPPath (ulLevel + 1) with
    | some (SUCCESS, some oPPrefix) =>
      match Node_hasChild v oNCurr oPPrefix with
      | none => none
      | some (true, ulChildID) =>
        match Node_getChild oNCurr ulChildID with
        | (SUCCESS, some oNChild) => Tree_findFrom v oPPath n (ulLevel + 1) oNChild
        | (iStatus, _) => some (iStatus, none)
      | some (false, _) => some (NO_SUCH_PATH, none)
    | some (iStatus, _) => some (iStatus, none)
    | none => none

/-- Modelled from the spec: the lookup of the node with a path: `NO_SUCH_PATH`
without a root or without a node of that exact path, `CONFLICTING_PATH` when
the root is not a prefix of the path. -/
def Tree_findNode (v : Variant) (t : Tree) (oPPath : Path) : Option (Status × Option Node) :=
  match t.oNRoot with
  | none => some (NO_SUCH_PATH, none)
  | some oNRoot =>
    match Path_prefix oPPath 1 with
    | some (SUCCESS, some oPPrefix) =>
      if Path_comparePath (Node_getPath oNRoot) oPPrefix ≠ 0 then some (CONFLICTING_PATH, none)
      else Tree_findFrom v oPPath (Path_getDepth oPPath - 1) 1 oNRoot
    | some (iStatus, _) => some (iStatus, none)
    | none => none

/-- Modelled from the spec: `contains` (section 4.3; `BDT_contains`,
`DT_contains` without a kind, `FT_containsDir` with the kind `false`,
`FT_containsFile` with the kind `true`). -/
def Tree_contains (v : Variant) (t : Tree) (pcPath : List Char) (oKind : Option Bool) :
    Option Bool :=
  if !t.bIsInitialized then some false
  else
    match Path_new pcPath with
    | none => none
    | some (SUCCESS, some oPPath) =>
      match Tree_findNode v t oPPath with
      | none => none
      | some (SUCCESS, some oNFound) =>
        match oKind with
        | none => some true
        | some bIsFile => some (decide (oNFound.isFile = bIsFile))
      | some _ => some false
    | some _ => some false

/-- Modelled from the spec: the status of a removal for the kind of the node
found (section 4.3, `remove`). -/
def Tree_kindStatus (oNFound : Node) (oKind : Option Bool) : Status :=
  match oKind with
  | none => SUCCESS
  | some true => if oNFound.isFile then SUCCESS else NOT_A_FILE
  | some false => if oNFound.isFile then NOT_A_DIRECTORY else SUCCESS

/-- Modelled from the spec: the walk of a removal from a node that lies on the
path, above the node to remove (section 4.3, `remove`): the status, the node
after the removal and the number of nodes destroyed. -/
def Tree_rmFrom (v : Variant) (oPPath : Path) (oKind : Option Bool) :
    Nat → Nat → Node → Option (Status × Node × Nat)
  | 0, _, oNCurr => some (NO_SUCH_PATH, oNCurr, 0)
  | n + 1, ulLevel, oNCurr =>
    match Path_prefix oPPath (ulLevel + 1) with
    | some (SUCCESS, some oPPrefix) =>
      match Node_hasChild v oNCurr oPPrefix with
      | none => none
      | some (true, ulChildID) =>
        match Node_getChild oNCurr ulChildID with
        | (SUCCESS, some oNChild) =>
          if n = 0 then
            if Tree_kindStatus oNChild oKind ≠ SUCCESS then
              some (Tree_kindStatus oNChild oKind, oNCurr, 0)
            else
              some (SUCCESS, oNCurr.setChildren (oNCurr.children.eraseIdx ulChildID),
                Node_free oNChild)
          else
            match Tree_rmFrom v oPPath oKind n (ulLevel + 1) oNChild with
            | some (SUCCESS, oNChild, ulRemoved) =>
              some (SUCCESS, oNCurr.setChildren (oNCurr.children.set ulChildID oNChild),
                ulRemoved)
            | some (iStatus, _, _) => some (iStatus, oNCurr, 0)
            | none => none
        | (iStatus, _) => some (iStatus, oNCurr, 0)
      | some (false, _) => some (NO_SUCH_PATH, oNCurr, 0)
    | some (iStatus, _) => some (iStatus, oNCurr, 0)
    | none => none

/-- Modelled from the spec: `remove` (section 4.3; `BDT_rm`, `DT_rm` without a
kind, `FT_rmDir` with the kind `false`, `FT_rmFile` with the kind `true`). -/
def Tree_rm (v : Variant) (t : Tree) (pcPath : List Char) (oKind : Option Bool) :
    Option (Status × Tree) :=
  if !t.bIsInitialized then some (INITIALIZATION_ERROR, t)
  else
    match Path_new pcPath with
    | none => none
    | some (SUCCESS, some oPPath) =>
      match t.oNRoot with
      | none => some (NO_SUCH_PATH, t)
      | some oNRoot =>
        match Path_prefix oPPath 1 with
        | some (SUCCESS, some oPPrefix) =>
          if Path_comparePath (Node_getPath oNRoot) oPPrefix ≠ 0 then
            some (CONFLICTING_PATH, t)
          else if Path_getDepth oPPath = 1 then
            if Tree_kindStatus oNRoot oKind ≠ SUCCESS then
              some (Tree_kindStatus oNRoot oKind, t)
            else
              some (SUCCESS, { t with oNRoot := none,
                                      ulCount := t.ulCount - Node_free oNRoot })
          else
            match Tree_rmFrom v oPPath oKind (Path_getDepth oPPath - 1) 1 oNRoot with
            | some (SUCCESS, oNRoot, ulRemoved) =>
              some (SUCCESS, { t with oNRoot := some oNRoot,
                                      ulCount := t.ulCount - ulRemoved })
            | some (iStatus, _, _) => some (iStatus, t)
            | none => none
        | some (iStatus, _) => some (iStatus, t)
        | none => none
    | some (iStatus, _) => some (iStatus, t)

mutual

/-- Modelled from the spec: the depth-first preorder dump of a subtree, one
absolute path per line (section 4.3, `toString`); in the typed variant the
files of a level come before its directories. -/
def Tree_dump (v : Variant) : Node → List Char
  | Node.mk oPPath _ _ oDChildren =>
    Path_getPathname oPPath ++ ['\n'] ++
      (if v = Variant.FT then
        Tree_dumpList v true true oDChildren ++ Tree_dumpList v true false oDChildren
       else Tree_dumpList v false false oDChildren)

/-- Modelled from the spec: the dump of the children of a node in their
order; with `bFilter` only the children of the kind `bIsFile` are dumped. -/
def Tree_dumpList (v : Variant) (bFilter bIsFile : Bool) : List Node → List Char
  | [] => []
  | Node.mk oPPath bFile oPayload oDChildren :: rest =>
    (if bFilter ∧ bFile ≠ bIsFile then []
     else Tree_dump v (Node.mk oPPath bFile oPayload oDChildren)) ++
      Tree_dumpList v bFilter bIsFile rest
end

/-- Modelled from the spec: `toString` (section 4.3; `BDT_toString`,
`DT_toString`, `FT_toString`): `none` is `NULL`. -/
def Tree_toString (v : Variant) (t : Tree) : Option (List Char) :=
  if !t.bIsInitialized then none
  else
    match t.oNRoot with
    | none => some []
    | some oNRoot => some (Tree_dump v oNRoot)

/-! ## Vocabulary of the statements -/

/-- The paths a client can hold: those built by `Path_new` from a C string and
by ` Path_prefix` (hence `Path_dup`) from such paths. -/
inductive Path.Built : Path → Prop
  | new (s : List Char) (p : Path) :
      CStr s → Path_new s = some (SUCCESS, some p) → Path.Built p
  | pre (p : Path) (d : Nat) (q : Path) :
      Path.Built p → Path_prefix p d = some (SUCCESS, some q) → Path.Built q

/-- The tokens of a string between its delimiters, read character by
character; the reference the loop of `Path_split` is compared with. -/
def splitRef : List Char → List (List Char)
  | [] => [[]]
  | c :: cs =>
    if c = SLASH then [] :: splitRef cs
    else match splitRef cs with
      | [] => [[c]]
      | t :: ts => (c :: t) :: ts

/-- A string is not a path when it is empty, begins or ends with the
delimiter, or holds two consecutive delimiters. -/
def badPath (s : List Char) : Prop :=
  s = [] ∨ s.head? = some SLASH ∨ s.getLast? = some SLASH ∨ [SLASH, SLASH] <:+: s

/-- The component strings of a path, in order. -/
def Path.comps (p : Path) : List (List Char) := p.oDComponents.toList.reduceOption

/-- The representation invariant of a path: its array of components is valid
and holds strings only, there is at least one component, every component is a
non-empty C string without a delimiter, the pathname is the components joined
by the delimiter, and the stored length is the length of the pathname. -/
def Path.Inv (p : Path) : Prop :=
  DynArray_isValid p.oDComponents = true ∧
  p.oDComponents.toList = p.comps.map some ∧
  p.comps ≠ [] ∧
  (∀ c ∈ p.comps, c ≠ [] ∧ SLASH ∉ c ∧ NUL ∉ c) ∧
  p.pcPath = [SLASH].intercalate p.comps ∧
  p.ulLength = p.pcPath.length

instance (p : Path) : Decidable p.Inv := by
  unfold Path.Inv; exact inferInstance

/-- The pathname of the prefix of depth `k` of a path. -/
def Path.name (p : Path) (k : Nat) : List Char := [SLASH].intercalate (p.comps.take k)

/-- Byte-wise lexicographic order of strings: at the first position where the
strings differ the left one has the smaller character, or the left one is a
proper initial segment of the right one. -/
def lexLt (x y : List Char) : Prop := List.Lex (fun c d : Char => c.toNat < d.toNat) x y

/-- The shared prefix depth of the paths of two strings, `none` when one of
the strings is not a path. -/
def sharedPrefixDepthOfStrings (s1 s2 : List Char) : Option Nat :=
  match Path_new s1, Path_new s2 with
  | some (_, some a), some (_, some b) => Path_getSharedPrefixDepth a b
  | _, _ => none

/-- The pathname of a node. -/
def Node.name (oNNode : Node) : List Char := (Node_getPath oNNode).pcPath

/-- The order of the children of a node: at most two children with distinct
paths in the binary variant, strictly ascending paths in the other variants. -/
def childrenOK (v : Variant) (cs : List Node) : Prop :=
  match v with
  | Variant.BDT => cs.length ≤ 2 ∧ cs.Pairwise (fun a b => a.name ≠ b.name)
  | _ => cs.Pairwise (fun a b => lexLt a.name b.name)

/-- The invariant of a subtree: every node has a path that satisfies the
representation invariant, the children of every node are in the order of the
variant, and a file has no children. -/
inductive Node.Valid (v : Variant) : Node → Prop
  | mk (oPPath : Path) (bIsFile : Bool) (oPayload : Payload) (oDChildren : List Node) :
      oPPath.Inv → childrenOK v oDChildren →
      (∀ c, c ∈ oDChildren → Node.Valid v c) →
      (bIsFile = true → oDChildren = []) →
      Node.Valid v (Node.mk oPPath bIsFile oPayload oDChildren)

/-- The invariant of a tree: its root, if any, is a valid subtree. -/
def Tree.Valid (v : Variant) (t : Tree) : Prop :=
  ∀ r, t.oNRoot = some r → Node.Valid v r

/-- The states a tree manager of variant `v` can be in: the state before the
first `init`, and the states after any operation on such a state with C
strings as arguments. -/
inductive Reachable (v : Variant) : Tree → Prop
  | start : Reachable v Tree.uninitialized
  | init (t : Tree) : Reachable v t → Reachable v (Tree_init t).2
  | destroy (t : Tree) : Reachable v t → Reachable v (Tree_destroy t).2
  | insert (t : Tree) (pcPath : List Char) (oPayload : Option Payload) (iStatus : Status)
      (t' : Tree) : Reachable v t → CStr pcPath →
      Tree_insert v t pcPath oPayload = some (iStatus, t') → Reachable v t'
  | rm (t : Tree) (pcPath : List Char) (oKind : Option Bool) (iStatus : Status)
      (t' : Tree) : Reachable v t → CStr pcPath →
      Tree_rm v t pcPath oKind = some (iStatus, t') → Reachable v t'

mutual

/-- The nodes of a subtree in depth-first preorder: the node itself, then the
nodes of the subtrees of its children, in the order of the children. -/
def Node.preorder : Node → List Node
  | Node.mk oPPath bIsFile oPayload oDChildren =>
    Node.mk oPPath bIsFile oPayload oDChildren :: Node.preorderList oDChildren

/-- The nodes of the subtrees of a collection of children, subtree by subtree. -/
def Node.preorderList : List Node → List Node
  | [] => []
  | oNChild :: rest => Node.preorder oNChild ++ Node.preorderList rest
end

/-- A list of nodes written one absolute path per line. -/
def linesOf : List Node → List Char
  | [] => []
  | oNNode :: rest => Node_toString oNNode ++ '\n' :: linesOf rest

/-- A comparator is consistent as a total preorder: exchanging its arguments
exchanges the sign of the result, and "not greater" is transitive. -/
def CompareConsistent {α : Type} (pfCompare : α → α → Int) : Prop :=
  (∀ x y, pfCompare x y < 0 ↔ 0 < pfCompare y x) ∧
  (∀ x y z, pfCompare x y ≤ 0 → pfCompare y z ≤ 0 → pfCompare x z ≤ 0)

/-- A DynArray is sorted ascending under a comparator: no element is greater
than an element at a later index. -/
def DynArray.SortedBy {α : Type} [Inhabited α] (oDynArray : DynArray α)
    (pfCompare : α → α → Int) : Prop :=
  ∀ i j, i ≤ j → j < DynArray_getLength oDynArray →
    pfCompare (DynArray_get oDynArray i) (DynArray_get oDynArray j) ≤ 0

/-- A DynArray is sorted strictly ascending under a comparator: every element
is less than every element at a later index. -/
def DynArray.StrictSortedBy {α : Type} [Inhabited α] (oDynArray : DynArray α)
    (pfCompare : α → α → Int) : Prop :=
  ∀ i j, i < j → j < DynArray_getLength oDynArray →
    pfCompare (DynArray_get oDynArray i) (DynArray_get oDynArray j) < 0

/-- The representation invariant of a path as a client can observe it: the
pathname is not empty, neither begins nor ends with the delimiter and holds
no two consecutive delimiters; the pathname is the components joined by the
delimiter; the stored length is the length of the pathname; the depth is at
least 1. -/
def Path.WellFormed (p : Path) : Prop :=
  Path_getPathname p ≠ [] ∧
  (Path_getPathname p).head? ≠ some SLASH ∧
  (Path_getPathname p).getLast? ≠ some SLASH ∧
  ¬ [SLASH, SLASH] <:+: Path_getPathname p ∧
  (∃ comps : List (List Char),
    (List.range (Path_getDepth p)).map (Path_getComponent p) = comps.map some ∧
    Path_getPathname p = [SLASH].intercalate comps) ∧
  Path_getStrLength p = (Path_getPathname p).length ∧
  1 ≤ Path_getDepth p

/-! ## Definitions used in the proofs -/

/-- The components of a list, each followed by the delimiter: the content of
the buffer `pcBuild` of ` Path_prefix` after the components were written. -/
def joinSl : List (List Char) → List Char
  | [] => []
  | c :: cs => c ++ SLASH :: joinSl cs

/-- The state of the loop of ` Path_prefix` once the first `k` of the
components `cs` were copied: the array has logical length `d` and physical
length `P`, the buffer has `N` cells. -/
def prefixInv (cs : List (List Char)) (d P N k : Nat) : PrefixState :=
  { oDComponents :=
      { uLength := d
        uPhysLength := P
        ppvArray := (cs.take k).map some ++ List.replicate (P - k) none }
    pcBuild := joinSl (cs.take k) ++ List.replicate (N - (joinSl (cs.take k)).length) NUL
    ulSum := (joinSl (cs.take k)).length }

/-- The walk of a lookup and of an insertion along the path `Q` from the node
`cur` of level `level`: the lookup finds a node of the kind `bKind` and an
insertion reports that the path is already in the tree. -/
def Present (v : Variant) (Q : Path) (n level : Nat) (cur : Node) (bKind : Bool) : Prop :=
  (∃ node, Tree_findFrom v Q n level cur = some (SUCCESS, some node) ∧ node.isFile = bKind) ∧
  ∀ pl, Tree_insertFrom v Q pl n level cur = some (ALREADY_IN_TREE, cur, 0)

/-- The array `l'` is the array `l` with the cells at the offsets `lo` to `hi`
rearranged: the arrays are permutations of each other, agree outside these
cells, and every element of `l'` in these cells is an element of `l` in
these cells. -/
def Rearranged {α : Type} [Inhabited α] (lo hi : Int) (l l' : List α) : Prop :=
  l'.length = l.length ∧ List.Perm l' l ∧
  (∀ k : Nat, ((k : Int) < lo ∨ hi < (k : Int)) → l'.getD k default = l.getD k default) ∧
  (∀ k : Nat, lo ≤ (k : Int) → (k : Int) ≤ hi →
    ∃ k' : Nat, lo ≤ (k' : Int) ∧ (k' : Int) ≤ hi ∧ l'.getD k default = l.getD k' default)

/-! ## Example values -/

/-- The path of the string "a". -/
def examplePathA : Path := ⟨"a".toList, 1, ⟨1, 2, [some ['a'], none]⟩⟩

/-- The path of the string "a/b". -/
def examplePathAB : Path := ⟨"a/b".toList, 3, ⟨2, 2, [some ['a'], some ['b']]⟩⟩

/-- The tree after `init` on the state before the first `init`. -/
def exampleEmpty : Tree := { bIsInitialized := true, oNRoot := none, ulCount := 0 }

/-- The tree that holds the paths "a" and "a/b". -/
def exampleAB : Tree :=
  { bIsInitialized := true
    oNRoot := some (Node.mk ⟨"a".toList, 1, ⟨1, 2, [some ['a'], none]⟩⟩ false ⟨none, 0⟩
      [Node.mk ⟨"a/b".toList, 3, ⟨2, 2, [some ['a'], some ['b']]⟩⟩ false ⟨none, 0⟩ []])
    ulCount := 2 }

/-- The root of `exampleAB`: the node of "a" with the child "a/b". -/
def exampleRoot : Node :=
  Node.mk ⟨"a".toList, 1, ⟨1, 2, [some ['a'], none]⟩⟩ false ⟨none, 0⟩
    [Node.mk ⟨"a/b".toList, 3, ⟨2, 2, [some ['a'], some ['b']]⟩⟩ false ⟨none, 0⟩ []]

/-- The tree that holds the directory "a" and the file "a/f". -/
def exampleFile : Tree :=
  { bIsInitialized := true
    oNRoot := some (Node.mk ⟨"a".toList, 1, ⟨1, 2, [some ['a'], none]⟩⟩ false ⟨none, 0⟩
      [Node.mk ⟨"a/f".toList, 3, ⟨2, 2, [some ['a'], some ['f']]⟩⟩ true ⟨none, 0⟩ []])
    ulCount := 2 }

/-- The sorted array of the numbers 1, 3, 5. -/
def exampleArray : DynArray Nat := DynArray.ofList [1, 3, 5]

/-- The comparator of numbers by their difference. -/
def exampleCompare (x y : Nat) : Int := (x : Int) - (y : Int)

/-- The array of the numbers 5, 1, 4, 1, 3. -/
def exampleUnsorted : DynArray Nat := DynArray.ofList [5, 1, 4, 1, 3]

/-! # Theorems -/

/-! ## Lemmas -/

theorem deref_of_drop_cons {s : List Char} {i : Nat} {c : Char} {r : List Char}
    (h : s.drop i = c :: r) : deref s i = c ∧ s.drop (i + 1) = r ∧ i < s.length := by
  have hi : i < s.length := by
    by_contra hc
    rw [List.drop_of_length_le (by omega)] at h
    cases h
  refine ⟨?_, ?_, hi⟩
  · have := List.drop_eq_getElem_cons hi
    rw [this] at h
    injection h with h1 h2
    simp [deref, List.getD_eq_getElem?_getD, List.getElem?_eq_getElem hi, h1]
  · have := List.drop_eq_getElem_cons hi
    rw [this] at h
    injection h with h1 h2

theorem deref_of_drop_nil {s : List Char} {i : Nat} (h : s.drop i = []) :
    deref s i = NUL := by
  have hi : s.length ≤ i := by
    simpa using h
  simp [deref, List.getD_eq_getElem?_getD, List.getElem?_eq_none hi]

theorem mem_of_drop_cons {s : List Char} {i : Nat} {c : Char} {r : List Char}
    (h : s.drop i = c :: r) : c ∈ s :=
  List.mem_of_mem_drop (h ▸ List.mem_cons_self c r)

theorem NUL_ne_SLASH : NUL ≠ SLASH := by decide

theorem scan_eq (s : List Char) (hs : CStr s) :
    ∀ (fuel e : Nat), (s.drop e).length < fuel →
      Path_split.scan s fuel e =
        e + ((s.drop e).takeWhile (fun c => decide (c ≠ SLASH))).length := by
  intro fuel
  induction fuel with
  | zero => intro e h; omega
  | succ n ih =>
    intro e h
    cases hd : s.drop e with
    | nil =>
      have := deref_of_drop_nil hd
      simp [Path_split.scan, this]
    | cons c r =>
      obtain ⟨h1, h2, _⟩ := deref_of_drop_cons hd
      have hc : c ≠ NUL := fun hc => hs (hc ▸ mem_of_drop_cons hd)
      by_cases hsl : c = SLASH
      · simp [Path_split.scan, h1, hsl]
      · have hlen : (s.drop (e + 1)).length < n := by
          rw [h2]; rw [hd] at h; simp at h; omega
        simp [Path_split.scan, h1, hsl, hc, ih (e + 1) hlen, h2]
        omega

theorem copy_eq (s : List Char) :
    ∀ (n st : Nat), st + n ≤ s.length →
      Path_split.copy s n st = (s.drop st).take n := by
  intro n
  induction n with
  | zero => intro st _; simp [Path_split.copy]
  | succ n ih =>
    intro st h
    cases hd : s.drop st with
    | nil =>
      have : s.length ≤ st := by simpa using hd
      omega
    | cons c r =>
      obtain ⟨h1, h2, _⟩ := deref_of_drop_cons hd
      simp [Path_split.copy, h1, ih (st + 1) (by omega), h2]

theorem splitRef_ne_nil (s : List Char) : splitRef s ≠ [] := by
  cases s with
  | nil => simp [splitRef]
  | cons c cs =>
    simp only [splitRef]
    split
    · simp
    · split <;> simp

theorem splitRef_tok_end (tok : List Char) (h : SLASH ∉ tok) : splitRef tok = [tok] := by
  induction tok with
  | nil => rfl
  | cons c cs ih =>
    have hc : c ≠ SLASH := fun hc => h (hc ▸ List.mem_cons_self _ _)
    have hcs : SLASH ∉ cs := fun hm => h (List.mem_cons_of_mem _ hm)
    simp [splitRef, hc, ih hcs]

theorem splitRef_tok (tok r : List Char) (h : SLASH ∉ tok) :
    splitRef (tok ++ SLASH :: r) = tok :: splitRef r := by
  induction tok with
  | nil => simp [splitRef]
  | cons c cs ih =>
    have hc : c ≠ SLASH := fun hc => h (hc ▸ List.mem_cons_self _ _)
    have hcs : SLASH ∉ cs := fun hm => h (List.mem_cons_of_mem _ hm)
    simp [splitRef, hc, ih hcs]

theorem intercalate_cons_cons (sep a b : List Char) (l : List (List Char)) :
    sep.intercalate (a :: b :: l) = a ++ sep ++ sep.intercalate (b :: l) := by
  simp [List.intercalate, List.intersperse]

theorem intercalate_singleton (sep a : List Char) : sep.intercalate [a] = a := by
  simp [List.intercalate, List.intersperse]

theorem intercalate_cons_head (sep : List Char) (c : Char) (t : List Char)
    (ts : List (List Char)) :
    sep.intercalate ((c :: t) :: ts) = c :: sep.intercalate (t :: ts) := by
  cases ts with
  | nil => simp [intercalate_singleton]
  | cons b l => simp [intercalate_cons_cons]

theorem intercalate_splitRef (s : List Char) : [SLASH].intercalate (splitRef s) = s := by
  induction s with
  | nil => simp [splitRef, intercalate_singleton]
  | cons c cs ih =>
    simp only [splitRef]
    split
    · rename_i hc
      cases hsp : splitRef cs with
      | nil => exact absurd hsp (splitRef_ne_nil cs)
      | cons t ts =>
        rw [intercalate_cons_cons, ← hsp, ih, hc]; simp
    · split
      · rename_i hsp; exact absurd hsp (splitRef_ne_nil cs)
      · rename_i t ts hsp
        rw [intercalate_cons_head, ← hsp, ih]

theorem nil_mem_tail_splitRef_iff (s : List Char) :
    [] ∈ (splitRef s).tail ↔ (s.getLast? = some SLASH ∨ [SLASH, SLASH] <:+: s) := by
  induction s with
  | nil => simp [splitRef]
  | cons c cs ih =>
    simp only [splitRef]
    by_cases hc : c = SLASH
    · subst hc
      simp only [if_true, List.tail_cons]
      cases cs with
      | nil => simp [splitRef, List.infix_cons_iff, List.prefix_cons_iff]
      | cons d ds =>
        have hne := splitRef_ne_nil (d :: ds)
        cases hsp : splitRef (d :: ds) with
        | nil => exact absurd hsp hne
        | cons t ts =>
          rw [hsp] at ih
          simp only [List.tail_cons] at ih
          have ht : ([] = t) ↔ d = SLASH := by
            simp only [splitRef] at hsp
            by_cases hd : d = SLASH
            · simp [hd] at hsp; simp [hd, hsp.1]
            · simp only [hd, if_false] at hsp
              split at hsp <;> simp at hsp <;> simp [hd, ← hsp.1]
          have hp : ([SLASH, SLASH] <+: SLASH :: d :: ds) ↔ d = SLASH := by
            rw [List.cons_prefix_cons, List.cons_prefix_cons]
            constructor
            · intro h; exact h.2.1.symm
            · intro h; exact ⟨rfl, h.symm, List.nil_prefix⟩
          have e1 : [SLASH, SLASH] <:+: SLASH :: d :: ds ↔
              d = SLASH ∨ [SLASH, SLASH] <:+: d :: ds := by
            rw [List.infix_cons_iff, hp]
          rw [List.mem_cons, ih, List.getLast?_cons_cons, e1, ht]
          tauto
    · simp only [hc, if_false]
      have hne := splitRef_ne_nil cs
      cases hsp : splitRef cs with
      | nil => exact absurd hsp hne
      | cons t ts =>
        rw [hsp] at ih
        simp only [List.tail_cons] at ih ⊢
        rw [ih, List.infix_cons_iff]
        have hp : ¬ ([SLASH, SLASH] <+: c :: cs) := by
          rw [List.cons_prefix_cons]; intro h; exact hc h.1.symm
        cases cs with
        | nil => simp [hp, List.getLast?_singleton, hc]
        | cons d ds => simp [hp, List.getLast?_cons_cons]

theorem nil_mem_splitRef_iff (s : List Char) : [] ∈ splitRef s ↔ badPath s := by
  have h := nil_mem_tail_splitRef_iff s
  unfold badPath
  cases s with
  | nil => simp [splitRef]
  | cons c cs =>
    have hne := splitRef_ne_nil cs
    simp only [splitRef] at h ⊢
    by_cases hc : c = SLASH
    · simp [hc]
    · simp only [hc, if_false] at h ⊢
      cases hsp : splitRef cs with
      | nil => exact absurd hsp hne
      | cons t ts =>
        rw [hsp] at h
        simp only [List.tail_cons] at h
        simp only [List.mem_cons, h]
        simp [hc]

theorem take_succ_set {α : Type} (e : α) :
    ∀ (l : List α) (n : Nat), n < l.length → (l.set n e).take (n + 1) = l.take n ++ [e] := by
  intro l
  induction l with
  | nil => intro n h; simp at h
  | cons a l ih =>
    intro n h
    cases n with
    | zero => simp
    | succ n =>
      simp only [List.length_cons] at h
      simp [ih n (by omega)]

theorem DynArray_add_spec {α : Type} [Inhabited α] (a : DynArray α) (e : α)
    (hv : DynArray_isValid a = true) :
    DynArray_isValid (DynArray_add a e).2 = true ∧
    (DynArray_add a e).2.toList = a.toList ++ [e] ∧
    (DynArray_add a e).2.uLength = a.uLength + 1 := by
  simp only [DynArray_isValid, MIN_PHYS_LENGTH] at hv
  split at hv
  · simp at hv
  split at hv
  · simp at hv
  split at hv
  · simp at hv
  rename_i h1 h2 h3
  simp only [ne_eq, not_not] at h3
  by_cases hfull : a.uLength = a.uPhysLength
  · have hlt : a.uLength < (DynArray_grow a).ppvArray.length := by
      simp [DynArray_grow]; omega
    refine ⟨?_, ?_, ?_⟩
    · simp [DynArray_add, hfull, DynArray_isValid, MIN_PHYS_LENGTH, DynArray_grow]
      omega
    · simp only [DynArray_add, hfull, if_true, DynArray.toList]
      have : (DynArray_grow a).uLength = a.uLength := rfl
      rw [this, take_succ_set e _ _ hlt]
      simp only [DynArray_grow]
      rw [← hfull, List.take_append_of_le_length (by omega)]
    · simp [DynArray_add, hfull, DynArray_grow]
  · have hlt : a.uLength < a.ppvArray.length := by omega
    refine ⟨?_, ?_, ?_⟩
    · simp [DynArray_add, hfull, DynArray_isValid, MIN_PHYS_LENGTH]
      omega
    · simp only [DynArray_add, hfull, if_false, DynArray.toList]
      rw [take_succ_set e _ _ hlt]
    · simp [DynArray_add, hfull]

theorem DynArray_new_zero_spec {α : Type} [Inhabited α] :
    DynArray_isValid (DynArray_new 0 : DynArray α) = true ∧
    (DynArray_new 0 : DynArray α).toList = [] := by
  simp [DynArray_new, DynArray_isValid, DynArray.toList, MIN_PHYS_LENGTH]

theorem token_decomp (c : Char) (r1 : List Char) (hc : c ≠ SLASH) :
    ∃ tok rest, c :: r1 = tok ++ rest ∧ tok ≠ [] ∧ SLASH ∉ tok ∧
      (rest = [] ∨ ∃ r2, rest = SLASH :: r2) ∧
      (c :: r1).takeWhile (fun c => decide (c ≠ SLASH)) = tok := by
  refine ⟨(c :: r1).takeWhile (fun c => decide (c ≠ SLASH)),
    (c :: r1).dropWhile (fun c => decide (c ≠ SLASH)), ?_, ?_, ?_, ?_, rfl⟩
  · exact (List.takeWhile_append_dropWhile _ _).symm
  · simp [List.takeWhile_cons, hc]
  · intro hm
    have := List.mem_takeWhile_imp hm
    simp at this
  · cases hd : (c :: r1).dropWhile (fun c => decide (c ≠ SLASH)) with
    | nil => exact Or.inl rfl
    | cons c2 r2 =>
      right
      have h := List.head?_dropWhile_not (fun c => decide (c ≠ SLASH)) (c :: r1)
      rw [hd] at h
      simp at h
      exact ⟨r2, by rw [h]⟩

theorem drop_add_of_drop_append {s tok rest : List Char} {a : Nat}
    (h : s.drop a = tok ++ rest) : s.drop (a + tok.length) = rest := by
  rw [← List.drop_drop, h, List.drop_left]

theorem deref_last_token {s tok rest : List Char} {a : Nat}
    (h : s.drop a = tok ++ rest) (hne : tok ≠ []) :
    deref s (a + tok.length - 1) ∈ tok := by
  obtain ⟨t0, c, rfl⟩ : ∃ t0 c, tok = t0 ++ [c] := by
    rcases List.eq_nil_or_concat tok with h | ⟨l, b, h⟩
    · exact absurd h hne
    · exact ⟨l, b, by simpa using h⟩
  have h2 : s.drop (a + t0.length) = c :: rest := by
    apply @drop_add_of_drop_append s t0 (c :: rest) a
    simpa using h
  have := (deref_of_drop_cons h2).1
  have e : a + (t0 ++ [c]).length - 1 = a + t0.length := by simp
  rw [e, this]
  simp

theorem loop_spec (s : List Char) (hs : CStr s) :
    ∀ (fuel pcStart pcEnd : Nat) (acc : DynArray (Option (List Char))),
      DynArray_isValid acc = true →
      (s.drop pcStart).length < fuel →
      ((pcStart = 0 ∧ pcEnd = 0 ∧ s ≠ []) ∨ (pcStart = pcEnd + 1 ∧ deref s pcEnd = SLASH)) →
      ([] ∈ splitRef (s.drop pcStart) →
        Path_split.loop s fuel pcStart pcEnd acc = some (BAD_PATH, none)) ∧
      ([] ∉ splitRef (s.drop pcStart) →
        ∃ d, Path_split.loop s fuel pcStart pcEnd acc = some (SUCCESS, some d) ∧
          DynArray_isValid d = true ∧
          d.toList = acc.toList ++ (splitRef (s.drop pcStart)).map some) := by
  intro fuel
  induction fuel with
  | zero => intro pcStart pcEnd acc _ h; omega
  | succ n ih =>
    intro pcStart pcEnd acc hacc hfuel hpre
    have hcond : deref s pcEnd ≠ NUL := by
      rcases hpre with ⟨_, h2, h3⟩ | ⟨_, h2⟩
      · subst h2
        cases s with
        | nil => exact absurd rfl h3
        | cons c cs =>
          have : deref (c :: cs) 0 = c := by simp [deref]
          rw [this]
          intro hc
          exact hs (hc ▸ List.mem_cons_self _ _)
      · rw [h2]; exact fun h => NUL_ne_SLASH h.symm
    cases hd : s.drop pcStart with
    | nil =>
      have h1 := deref_of_drop_nil hd
      have hscan := scan_eq s hs (s.length + 1) pcStart (by rw [hd]; simp)
      rw [hd] at hscan
      simp only [List.takeWhile_nil, List.length_nil, Nat.add_zero] at hscan
      have hprev : deref s (pcStart - 1) = SLASH := by
        rcases hpre with ⟨h1, _, h3⟩ | ⟨h1, h2⟩
        · subst h1; simp at hd; exact absurd hd h3
        · subst h1; simpa using h2
      constructor
      · intro _
        simp [Path_split.loop, hcond, h1, NUL_ne_SLASH, hscan, hprev]
      · intro h; simp [splitRef] at h
    | cons c r1 =>
      obtain ⟨h1, h2, hlt⟩ := deref_of_drop_cons hd
      by_cases hc : c = SLASH
      · constructor
        · intro _
          simp [Path_split.loop, hcond, h1, hc]
        · intro h; simp [splitRef, hc] at h
      · obtain ⟨tok, rest, hdec, htne, hntok, hrest, htw⟩ := token_decomp c r1 hc
        have hscan := scan_eq s hs (s.length + 1) pcStart (by simp; omega)
        rw [hd, htw] at hscan
        have hdrop : s.drop pcStart = tok ++ rest := by rw [hd, hdec]
        have hrestd := drop_add_of_drop_append hdrop
        have hlast : deref s (pcStart + tok.length - 1) ≠ SLASH := by
          intro h
          exact hntok (h ▸ deref_last_token hdrop htne)
        have htlen : pcStart + tok.length ≤ s.length := by
          have := congrArg List.length hdrop
          simp at this; omega
        have hcopy : Path_split.copy s (pcStart + tok.length - pcStart) pcStart = tok := by
          rw [copy_eq s _ _ (by omega), hdrop]
          have : pcStart + tok.length - pcStart = tok.length := by omega
          rw [this, List.take_left]
        obtain ⟨hv', hl', _⟩ := DynArray_add_spec acc (some tok) hacc
        have hstep : Path_split.loop s (n + 1) pcStart pcEnd acc =
            Path_split.loop s n (pcStart + tok.length + 1) (pcStart + tok.length)
              (DynArray_add acc (some tok)).2 := by
          rw [Path_split.loop]
          simp only [hcond, ne_eq, not_false_eq_true, if_true, h1, hc, if_false, hscan,
            hlast, and_false, hcopy]
        rw [hstep]
        have hn : 0 < n := by
          rw [hd] at hfuel
          simp at hfuel
          have := congrArg List.length hdec
          simp at this
          have : 0 < tok.length := List.length_pos.mpr htne
          omega
        rcases hrest with hrest | ⟨r2, hrest⟩
        · subst hrest
          have hnul := deref_of_drop_nil hrestd
          simp only [List.append_nil] at hdec
          rw [hdec, splitRef_tok_end tok hntok]
          obtain ⟨m, rfl⟩ : ∃ m, n = m + 1 := ⟨n - 1, by omega⟩
          constructor
          · intro h; simp at h; exact absurd h htne
          · intro _
            refine ⟨_, ?_, hv', ?_⟩
            · simp [Path_split.loop, hnul]
            · simp [hl']
        · subst hrest
          have hsl := (deref_of_drop_cons hrestd).1
          have hr2 := (deref_of_drop_cons hrestd).2.1
          have hlen2 : (s.drop (pcStart + tok.length + 1)).length < n := by
            rw [hr2]
            rw [hd] at hfuel
            have := congrArg List.length hdec
            simp at this hfuel
            omega
          have := ih (pcStart + tok.length + 1) (pcStart + tok.length) _ hv' hlen2
            (Or.inr ⟨rfl, hsl⟩)
          rw [hr2] at this
          rw [hdec, splitRef_tok tok r2 hntok]
          constructor
          · intro h
            apply this.1
            simp at h
            rcases h with h | h
            · exact absurd h htne
            · exact h
          · intro h
            have h' : [] ∉ splitRef r2 := fun hm => h (List.mem_cons_of_mem _ hm)
            obtain ⟨d, hd1, hd2, hd3⟩ := this.2 h'
            exact ⟨d, hd1, hd2, by simp [hd3, hl']⟩

theorem Path_split_spec (s : List Char) (hs : CStr s) :
    ([] ∈ splitRef s → Path_split s = some (BAD_PATH, none)) ∧
    ([] ∉ splitRef s →
      ∃ d, Path_split s = some (SUCCESS, some d) ∧ DynArray_isValid d = true ∧
        d.toList = (splitRef s).map some) := by
  cases s with
  | nil =>
    constructor
    · intro _; simp [Path_split, deref]
    · intro h; simp [splitRef] at h
  | cons c cs =>
    have hc : c ≠ NUL := fun hc => hs (hc ▸ List.mem_cons_self _ _)
    have h0 : deref (c :: cs) 0 = c := by simp [deref]
    have hnew := (DynArray_new_zero_spec : _ ∧
      (DynArray_new 0 : DynArray (Option (List Char))).toList = [])
    have := loop_spec (c :: cs) hs ((c :: cs).length + 1) 0 0 (DynArray_new 0) hnew.1
      (by simp) (Or.inl ⟨rfl, rfl, by simp⟩)
    simp only [List.drop_zero] at this
    constructor
    · intro h
      simp only [Path_split, h0, hc, if_false]
      exact this.1 h
    · intro h
      obtain ⟨d, hd1, hd2, hd3⟩ := this.2 h
      refine ⟨d, ?_, hd2, ?_⟩
      · simp only [Path_split, h0, hc, if_false]; exact hd1
      · simpa [hnew.2] using hd3

theorem strcpy_of_CStr (s : List Char) (hs : CStr s) : strcpy s = s := by
  induction s with
  | nil => rfl
  | cons c cs ih =>
    have hc : c ≠ NUL := fun hc => hs (hc ▸ List.mem_cons_self _ _)
    have hcs : CStr cs := fun hm => hs (List.mem_cons_of_mem _ hm)
    simp [strcpy, hc, ih hcs]

theorem strlen_of_CStr (s : List Char) (hs : CStr s) : strlen s = s.length := by
  induction s with
  | nil => rfl
  | cons c cs ih =>
    have hc : c ≠ NUL := fun hc => hs (hc ▸ List.mem_cons_self _ _)
    have hcs : CStr cs := fun hm => hs (List.mem_cons_of_mem _ hm)
    simp [strlen, hc, ih hcs]

theorem splitRef_mem_subset (s : List Char) :
    ∀ t ∈ splitRef s, ∀ c ∈ t, c ∈ s ∧ c ≠ SLASH := by
  induction s with
  | nil => intro t ht c hc; simp [splitRef] at ht; subst ht; simp at hc
  | cons a cs ih =>
    intro t ht c hc
    simp only [splitRef] at ht
    by_cases ha : a = SLASH
    · simp only [ha, if_true, List.mem_cons] at ht
      rcases ht with ht | ht
      · subst ht; simp at hc
      · have := ih t ht c hc
        exact ⟨List.mem_cons_of_mem _ this.1, this.2⟩
    · simp only [ha, if_false] at ht
      cases hsp : splitRef cs with
      | nil => exact absurd hsp (splitRef_ne_nil cs)
      | cons t0 ts =>
        rw [hsp] at ht ih
        simp only [List.mem_cons] at ht
        rcases ht with ht | ht
        · subst ht
          simp only [List.mem_cons] at hc
          rcases hc with hc | hc
          · subst hc; exact ⟨List.mem_cons_self _ _, ha⟩
          · have := ih t0 (List.mem_cons_self _ _) c hc
            exact ⟨List.mem_cons_of_mem _ this.1, this.2⟩
        · have := ih t (List.mem_cons_of_mem _ ht) c hc
          exact ⟨List.mem_cons_of_mem _ this.1, this.2⟩

theorem reduceOption_map_some {α : Type} (l : List α) : (l.map some).reduceOption = l := by
  induction l with
  | nil => rfl
  | cons a l ih => simp [List.reduceOption_cons_of_some, ih]

theorem Path_new_spec (s : List Char) (hs : CStr s) :
    (badPath s → Path_new s = some (BAD_PATH, none)) ∧
    (¬ badPath s → ∃ p, Path_new s = some (SUCCESS, some p) ∧ p.Inv ∧
      p.comps = splitRef s ∧ p.pcPath = s) := by
  obtain ⟨h1, h2⟩ := Path_split_spec s hs
  rw [nil_mem_splitRef_iff] at h1 h2
  constructor
  · intro h
    simp [Path_new, h1 h]
  · intro h
    obtain ⟨d, hd1, hd2, hd3⟩ := h2 h
    have hc : Path.comps ⟨strcpy s, strlen s, d⟩ = splitRef s := by
      simp [Path.comps, hd3, reduceOption_map_some]
    refine ⟨⟨strcpy s, strlen s, d⟩, ?_, ⟨hd2, ?_, ?_, ?_, ?_, ?_⟩, hc, strcpy_of_CStr s hs⟩
    · simp [Path_new, hd1]
    · rw [hc]; exact hd3
    · rw [hc]; exact splitRef_ne_nil s
    · rw [hc]
      intro c hcm
      refine ⟨?_, ?_, ?_⟩
      · intro hnil
        subst hnil
        exact h ((nil_mem_splitRef_iff s).mp hcm)
      · intro hm; exact (splitRef_mem_subset s c hcm _ hm).2 rfl
      · intro hm; exact hs (splitRef_mem_subset s c hcm _ hm).1
    · rw [hc, intercalate_splitRef]; exact strcpy_of_CStr s hs
    · show strlen s = (strcpy s).length
      rw [strcpy_of_CStr s hs, strlen_of_CStr s hs]

theorem Path_new_total (s : List Char) (hs : CStr s) :
    Path_new s = some (BAD_PATH, none) ∨ ∃ p, Path_new s = some (SUCCESS, some p) := by
  by_cases h : badPath s
  · exact Or.inl ((Path_new_spec s hs).1 h)
  · obtain ⟨p, hp, _⟩ := (Path_new_spec s hs).2 h
    exact Or.inr ⟨p, hp⟩

theorem Path_new_success (s : List Char) (hs : CStr s) (p : Path)
    (h : Path_new s = some (SUCCESS, some p)) :
    ¬ badPath s ∧ p.Inv ∧ p.comps = splitRef s ∧ p.pcPath = s := by
  have hb : ¬ badPath s := by
    intro hb
    rw [(Path_new_spec s hs).1 hb] at h
    simp at h
  obtain ⟨q, hq, h1, h2, h3⟩ := (Path_new_spec s hs).2 hb
  rw [hq] at h
  simp at h
  subst h
  exact ⟨hb, h1, h2, h3⟩

theorem range_map_getComponent (p : Path) (hv : DynArray_isValid p.oDComponents = true) :
    (List.range (Path_getDepth p)).map (Path_getComponent p) = p.oDComponents.toList := by
  simp only [DynArray_isValid, MIN_PHYS_LENGTH] at hv
  split at hv
  · simp at hv
  split at hv
  · simp at hv
  split at hv
  · simp at hv
  rename_i h1 h2 h3
  simp only [ne_eq, not_not] at h3
  apply List.ext_getElem
  · simp [Path_getDepth, DynArray_getLength, DynArray.toList]; omega
  · intro n hn1 hn2
    simp only [List.length_map, List.length_range] at hn1
    simp only [Path_getDepth, DynArray_getLength] at hn1
    have hn3 : n < p.oDComponents.ppvArray.length := by omega
    simp [Path_getComponent, Path_getDepth, DynArray_getLength, DynArray_get, DynArray.toList,
      hn1, List.getElem?_eq_getElem hn3]

theorem joinSl_append (l1 l2 : List (List Char)) :
    joinSl (l1 ++ l2) = joinSl l1 ++ joinSl l2 := by
  induction l1 with
  | nil => rfl
  | cons c cs ih => simp [joinSl, ih]

theorem joinSl_eq_intercalate (l : List (List Char)) (h : l ≠ []) :
    joinSl l = [SLASH].intercalate l ++ [SLASH] := by
  induction l with
  | nil => exact absurd rfl h
  | cons c cs ih =>
    cases cs with
    | nil => simp [joinSl, intercalate_singleton]
    | cons b l =>
      rw [intercalate_cons_cons, joinSl, ih (by simp)]
      simp

theorem set_append_length {α : Type} (A : List α) (x y : α) (R : List α) :
    (A ++ x :: R).set A.length y = A ++ y :: R := by
  induction A with
  | nil => rfl
  | cons a A ih => simp [ih]

theorem set_append_of_length {α : Type} (A : List α) (x y : α) (R : List α) (k : Nat)
    (h : A.length = k) : (A ++ x :: R).set k y = A ++ y :: R := by
  subst h; exact set_append_length A x y R

theorem CStr_intercalate (l : List (List Char)) (h : ∀ c ∈ l, CStr c) :
    CStr ([SLASH].intercalate l) := by
  induction l with
  | nil => simp [CStr, List.intercalate]
  | cons c cs ih =>
    have hc := h c (List.mem_cons_self _ _)
    have hcs : ∀ c ∈ cs, CStr c := fun x hx => h x (List.mem_cons_of_mem _ hx)
    cases cs with
    | nil => rw [intercalate_singleton]; exact hc
    | cons b l =>
      rw [intercalate_cons_cons]
      have := ih hcs
      unfold CStr at *
      simp only [List.mem_append, List.mem_singleton, not_or]
      exact ⟨⟨hc, NUL_ne_SLASH⟩, this⟩

theorem strcpy_append_NUL (s r : List Char) (hs : CStr s) : strcpy (s ++ NUL :: r) = s := by
  induction s with
  | nil => simp [strcpy]
  | cons c cs ih =>
    have hc : c ≠ NUL := fun hc => hs (hc ▸ List.mem_cons_self _ _)
    have hcs : CStr cs := fun hm => hs (List.mem_cons_of_mem _ hm)
    simp [strcpy, hc, ih hcs]

theorem strcpyAt_step (J c : List Char) (m : Nat) (hm : c.length + 1 ≤ m) (hc : CStr c) :
    strcpyAt (J ++ List.replicate m NUL) J.length c =
      some (J ++ c ++ NUL :: List.replicate (m - (c.length + 1)) NUL) := by
  have hlen : J.length + (c.length + 1) ≤ (J ++ List.replicate m NUL).length := by
    simp; omega
  simp only [strcpyAt, strcpy_of_CStr c hc, List.length_append, List.length_singleton, hlen,
    if_true, List.take_left]
  rw [List.drop_append_eq_append_drop]
  simp
  omega

theorem Path_depth_eq (p : Path) (h : p.Inv) : Path_getDepth p = p.comps.length := by
  obtain ⟨hv, hl, _⟩ := h
  have := congrArg List.length hl
  simp only [DynArray_isValid, MIN_PHYS_LENGTH] at hv
  split at hv
  · simp at hv
  split at hv
  · simp at hv
  split at hv
  · simp at hv
  rename_i h1 h2 h3
  simp only [ne_eq, not_not] at h3
  simp [DynArray.toList] at this
  simp [Path_getDepth, DynArray_getLength]
  omega

theorem Path_getComponent_eq (p : Path) (h : p.Inv) (i : Nat) :
    Path_getComponent p i = p.comps[i]? := by
  have hd := Path_depth_eq p h
  have hr := range_map_getComponent p h.1
  rw [h.2.1] at hr
  by_cases hi : i < p.comps.length
  · have := congrArg (fun l => l[i]?) hr
    simp only [List.getElem?_map, List.getElem?_range (hd ▸ hi), Option.map_some'] at this
    rw [List.getElem?_eq_getElem hi] at this ⊢
    simpa using this
  · rw [List.getElem?_eq_none (by omega)]
    simp [Path_getComponent, hd]; omega

theorem joinSl_take_succ (cs : List (List Char)) (k : Nat) (hk : k < cs.length) :
    joinSl (cs.take (k + 1)) = joinSl (cs.take k) ++ cs[k] ++ [SLASH] := by
  rw [List.take_succ, List.getElem?_eq_getElem hk, joinSl_append]
  simp [joinSl]

theorem joinSl_take_length_le (cs : List (List Char)) (k : Nat) :
    (joinSl (cs.take k)).length ≤ (joinSl cs).length := by
  conv_rhs => rw [← List.take_append_drop k cs, joinSl_append]
  simp

theorem prefixLoop_step (p : Path) (hinv : p.Inv) (d P n k : Nat)
    (hk : k < d) (hd : d ≤ p.comps.length) (hP : d ≤ P) :
    prefixLoop p (n + 1) k (prefixInv p.comps d P (joinSl p.comps).length k) =
      prefixLoop p n (k + 1) (prefixInv p.comps d P (joinSl p.comps).length (k + 1)) := by
  have hkl : k < p.comps.length := by omega
  have hc := hinv.2.2.2.1 _ (List.getElem_mem hkl)
  have hcs : CStr p.comps[k] := hc.2.2
  have hj := joinSl_take_succ p.comps k hkl
  have hle := joinSl_take_length_le p.comps (k + 1)
  have hjl : (joinSl (p.comps.take (k + 1))).length =
      (joinSl (p.comps.take k)).length + (p.comps[k].length + 1) := by
    rw [hj]; simp
  rw [prefixLoop, Path_getComponent_eq p hinv, List.getElem?_eq_getElem hkl]
  simp only [prefixInv, strlen_of_CStr _ hcs, strcpy_of_CStr _ hcs]
  rw [strcpyAt_step _ _ _ (by omega) hcs]
  simp only
  have hlt : (joinSl (p.comps.take k)).length + p.comps[k].length <
      (joinSl (List.take k p.comps) ++ p.comps[k] ++
        NUL :: List.replicate ((joinSl p.comps).length - (joinSl (List.take k p.comps)).length -
          (p.comps[k].length + 1)) NUL).length := by
    simp
  rw [if_pos hlt]
  congr 2
  · simp only [DynArray_set]
    congr 1
    have hlen : ((p.comps.take k).map some).length = k := by
      simp; omega
    have hrep : List.replicate (P - k) (none : Option (List Char)) =
        none :: List.replicate (P - (k + 1)) none := by
      have : P - k = (P - (k + 1)) + 1 := by omega
      rw [this, List.replicate_succ]
    have htk : p.comps.take (k + 1) = p.comps.take k ++ [p.comps[k]] := by
      rw [List.take_succ, List.getElem?_eq_getElem hkl]; rfl
    rw [hrep, set_append_of_length _ _ _ _ _ hlen, htk]
    simp only [List.map_append, List.map_cons, List.map_nil, List.append_assoc,
      List.singleton_append]
  · rw [set_append_of_length _ _ _ _ _ (by simp), hj]
    have e : (joinSl p.comps).length - (joinSl (List.take k p.comps)).length -
        (p.comps[k].length + 1) =
        (joinSl p.comps).length -
          (joinSl (List.take k p.comps) ++ p.comps[k] ++ [SLASH]).length := by
      simp; omega
    rw [e]
    simp
  · exact hjl.symm

theorem prefixLoop_spec (p : Path) (hinv : p.Inv) (d P : Nat)
    (hd : d ≤ p.comps.length) (hP : d ≤ P) :
    ∀ (n k : Nat), k + n = d →
      prefixLoop p n k (prefixInv p.comps d P (joinSl p.comps).length k) =
        some (prefixInv p.comps d P (joinSl p.comps).length d) := by
  intro n
  induction n with
  | zero => intro k hk; simp at hk; subst hk; rfl
  | succ n ih =>
    intro k hk
    rw [prefixLoop_step p hinv d P n k (by omega) hd hP]
    exact ih (k + 1) (by omega)

theorem Path_prefix_spec (p : Path) (hinv : p.Inv) (d : Nat) (h1 : 1 ≤ d)
    (h2 : d ≤ Path_getDepth p) :
    ∃ q, Path_prefix p d = some (SUCCESS, some q) ∧ q.Inv ∧ q.comps = p.comps.take d := by
  have hdep := Path_depth_eq p hinv
  have hd : d ≤ p.comps.length := by omega
  have hpos : 0 < p.comps.length := List.length_pos.mpr hinv.2.2.1
  have hne : p.comps.take d ≠ [] := by
    intro h
    have := congrArg List.length h
    rw [List.length_take, List.length_nil] at this
    omega
  have hJ := joinSl_eq_intercalate _ hne
  have hN : (joinSl p.comps).length = Path_getStrLength p + 1 := by
    rw [joinSl_eq_intercalate _ hinv.2.2.1, ← hinv.2.2.2.2.1]
    simp [Path_getStrLength, hinv.2.2.2.2.2]
  have hcstr : CStr ([SLASH].intercalate (p.comps.take d)) :=
    CStr_intercalate _ (fun c hc => (hinv.2.2.2.1 c (List.mem_of_mem_take hc)).2.2)
  have hloop := prefixLoop_spec p hinv d (if d > MIN_PHYS_LENGTH then d else MIN_PHYS_LENGTH)
    hd (by split <;> simp [MIN_PHYS_LENGTH] at * <;> omega) d 0 (by omega)
  have hinit : prefixInv p.comps d (if d > MIN_PHYS_LENGTH then d else MIN_PHYS_LENGTH)
      (joinSl p.comps).length 0 =
      { oDComponents := DynArray_new d
        pcBuild := List.replicate (Path_getStrLength p + 1) NUL
        ulSum := 0 } := by
    have hdflt : (default : Option (List Char)) = none := rfl
    simp [prefixInv, joinSl, DynArray_new, hN, hdflt]
  rw [hinit] at hloop
  have hP : d ≤ (if d > MIN_PHYS_LENGTH then d else MIN_PHYS_LENGTH) := by
    split <;> simp [MIN_PHYS_LENGTH] at * <;> omega
  have hP2 : 2 ≤ (if d > MIN_PHYS_LENGTH then d else MIN_PHYS_LENGTH) := by
    split <;> simp [MIN_PHYS_LENGTH] at * <;> omega
  generalize (if d > MIN_PHYS_LENGTH then d else MIN_PHYS_LENGTH) = P at hloop hP hP2
  have hlenmap : ((p.comps.take d).map some).length = d := by simp; omega
  have htoList : DynArray.toList (α := Option (List Char))
      { uLength := d, uPhysLength := P,
        ppvArray := (p.comps.take d).map some ++ List.replicate (P - d) none } =
      (p.comps.take d).map some := by
    simp only [DynArray.toList]
    rw [List.take_append_of_le_length (by omega), List.take_of_length_le (by omega)]
  have hpath : strcpy (List.take (joinSl (p.comps.take d)).length
      ((joinSl (p.comps.take d) ++
        List.replicate ((joinSl p.comps).length - (joinSl (p.comps.take d)).length) NUL).set
          ((joinSl (p.comps.take d)).length - 1) NUL)) =
      [SLASH].intercalate (p.comps.take d) := by
    rw [hJ]
    have e1 : ([SLASH].intercalate (p.comps.take d) ++ [SLASH]).length - 1 =
        ([SLASH].intercalate (p.comps.take d)).length := by simp
    rw [e1, List.append_assoc, List.singleton_append, set_append_length]
    have e2 : ([SLASH].intercalate (p.comps.take d) ++ [SLASH]).length =
        ([SLASH].intercalate (p.comps.take d) ++ [NUL]).length := by simp
    rw [e2]
    have e3 : [SLASH].intercalate (p.comps.take d) ++ NUL :: List.replicate
        ((joinSl p.comps).length - ([SLASH].intercalate (p.comps.take d) ++ [NUL]).length) NUL =
        ([SLASH].intercalate (p.comps.take d) ++ [NUL]) ++ List.replicate
        ((joinSl p.comps).length - ([SLASH].intercalate (p.comps.take d) ++ [NUL]).length) NUL := by
      simp
    rw [e3, List.take_left]
    have e4 : [SLASH].intercalate (p.comps.take d) ++ [NUL] =
        [SLASH].intercalate (p.comps.take d) ++ NUL :: [] := rfl
    rw [e4, strcpy_append_NUL _ _ hcstr]
  refine ⟨{ oDComponents := (prefixInv p.comps d P (joinSl p.comps).length d).oDComponents
            ulLength := (joinSl (p.comps.take d)).length - 1
            pcPath := [SLASH].intercalate (p.comps.take d) }, ?_, ?_, ?_⟩
  · have hd0 : d ≠ 0 := by omega
    have hd1 : ¬ Path_getDepth p < d := by omega
    simp only [ Path_prefix, hd0, hd1, if_false, hloop]
    simp only [prefixInv, hpath]
  · have hc : Path.comps
        { oDComponents := (prefixInv p.comps d P (joinSl p.comps).length d).oDComponents
          ulLength := (joinSl (p.comps.take d)).length - 1
          pcPath := [SLASH].intercalate (p.comps.take d) } = p.comps.take d := by
      change (DynArray.toList
        (prefixInv p.comps d P (joinSl p.comps).length d).oDComponents).reduceOption = _
      simp only [prefixInv]
      rw [htoList, reduceOption_map_some]
    refine ⟨?_, ?_, ?_, ?_, ?_, ?_⟩
    · simp only [prefixInv, DynArray_isValid, MIN_PHYS_LENGTH]
      have : ¬ P < 2 := by omega
      have h3 : ¬ d > P := by omega
      simp [this, h3]
      omega
    · rw [hc]; simp only [prefixInv]; exact htoList
    · rw [hc]; exact hne
    · rw [hc]; intro c hcm; exact hinv.2.2.2.1 c (List.mem_of_mem_take hcm)
    · rw [hc]
    · simp [hJ]
  · change (DynArray.toList
      (prefixInv p.comps d P (joinSl p.comps).length d).oDComponents).reduceOption = _
    simp only [prefixInv]
    rw [htoList, reduceOption_map_some]

theorem Path_prefix_success (p : Path) (hinv : p.Inv) (d : Nat) (q : Path)
    (h : Path_prefix p d = some (SUCCESS, some q)) :
    1 ≤ d ∧ d ≤ Path_getDepth p ∧ q.Inv ∧ q.comps = p.comps.take d := by
  have h1 : 1 ≤ d := by
    by_contra hc
    have : d = 0 := by omega
    simp [ Path_prefix, this] at h
  have h2 : d ≤ Path_getDepth p := by
    by_contra hc
    have hd0 : d ≠ 0 := by omega
    have : Path_getDepth p < d := by omega
    simp [ Path_prefix, hd0, this] at h
  obtain ⟨q', hq, hi, hc⟩ := Path_prefix_spec p hinv d h1 h2
  rw [hq] at h
  simp at h
  subst h
  exact ⟨h1, h2, hi, hc⟩

theorem Path.Built.toInv {p : Path} (h : p.Built) : p.Inv := by
  induction h with
  | new s p hs hp => exact (Path_new_success s hs p hp).2.1
  | pre p d q _ hq ih => exact (Path_prefix_success p ih d q hq).2.2.1

theorem Char_toNat_pos_of_ne_NUL (c : Char) (h : c ≠ NUL) : 0 < c.toNat := by
  rcases Nat.eq_zero_or_pos c.toNat with h0 | h0
  · exfalso
    apply h
    apply Char.ext
    apply UInt32.ext
    simpa [Char.toNat, NUL] using h0
  · exact h0

theorem Char_eq_of_toNat_eq (c1 c2 : Char) (h : c1.toNat = c2.toNat) : c1 = c2 := by
  apply Char.ext
  apply UInt32.ext
  simpa [Char.toNat] using h

theorem lexLt_cons_iff (c1 c2 : Char) (s1 s2 : List Char) :
    lexLt (c1 :: s1) (c2 :: s2) ↔ c1.toNat < c2.toNat ∨ (c1 = c2 ∧ lexLt s1 s2) := by
  unfold lexLt
  constructor
  · intro h
    cases h with
    | rel h => exact Or.inl h
    | cons h => exact Or.inr ⟨rfl, h⟩
  · intro h
    rcases h with h | ⟨h1, h2⟩
    · exact List.Lex.rel h
    · subst h1
      exact List.Lex.cons h2

theorem lexLt_nil_cons (c : Char) (s : List Char) : lexLt [] (c :: s) := List.Lex.nil

theorem not_lexLt_nil (x : List Char) : ¬ lexLt x [] := by
  intro h; cases h

theorem strcmp_sign : ∀ (x y : List Char), CStr x → CStr y →
    (strcmp x y < 0 ↔ lexLt x y) ∧ (strcmp x y = 0 ↔ x = y) ∧ (0 < strcmp x y ↔ lexLt y x) := by
  intro x
  induction x with
  | nil =>
    intro y _ hy
    cases y with
    | nil =>
      simp only [strcmp]
      refine ⟨?_, ?_, ?_⟩
      · constructor
        · intro h; omega
        · intro h; exact absurd h (not_lexLt_nil _)
      · simp
      · constructor
        · intro h; omega
        · intro h; exact absurd h (not_lexLt_nil _)
    | cons c cs =>
      have hc : c ≠ NUL := fun hc => hy (hc ▸ List.mem_cons_self _ _)
      have := Char_toNat_pos_of_ne_NUL c hc
      have h0 : NUL.toNat = 0 := rfl
      simp only [strcmp, h0]
      refine ⟨?_, ?_, ?_⟩
      · constructor
        · intro _; exact lexLt_nil_cons _ _
        · intro _; omega
      · constructor
        · intro h; omega
        · intro h; cases h
      · constructor
        · intro h; omega
        · intro h; exact absurd h (not_lexLt_nil _)
  | cons c1 s1 ih =>
    intro y hx hy
    have hc1 : c1 ≠ NUL := fun hc => hx (hc ▸ List.mem_cons_self _ _)
    have hs1 : CStr s1 := fun hm => hx (List.mem_cons_of_mem _ hm)
    have h0 : NUL.toNat = 0 := rfl
    cases y with
    | nil =>
      have := Char_toNat_pos_of_ne_NUL c1 hc1
      simp only [strcmp, h0]
      refine ⟨?_, ?_, ?_⟩
      · constructor
        · intro h; omega
        · intro h; exact absurd h (not_lexLt_nil _)
      · constructor
        · intro h; omega
        · intro h; cases h
      · constructor
        · intro _; exact lexLt_nil_cons _ _
        · intro _; omega
    | cons c2 s2 =>
      have hs2 : CStr s2 := fun hm => hy (List.mem_cons_of_mem _ hm)
      by_cases hc : c1 = c2
      · subst hc
        obtain ⟨i1, i2, i3⟩ := ih s2 hs1 hs2
        simp only [strcmp, if_true, hc1, if_false, lexLt_cons_iff, Nat.lt_irrefl, false_or,
          true_and, List.cons.injEq]
        exact ⟨i1, i2, i3⟩
      · have hne : c1.toNat ≠ c2.toNat := fun h => hc (Char_eq_of_toNat_eq _ _ h)
        simp only [strcmp, hc, if_false, lexLt_cons_iff, false_and, or_false,
          List.cons.injEq, Ne.symm hc]
        refine ⟨?_, ?_, ?_⟩
        · constructor <;> intro h <;> omega
        · constructor
          · intro h; omega
          · intro h; exact h.elim
        · constructor <;> intro h <;> omega

theorem sharedLoop_spec (a b : Path) (ha : a.Inv) (hb : b.Inv) (m : Nat)
    (hma : m ≤ a.comps.length) (hmb : m ≤ b.comps.length) :
    ∀ (n i : Nat), i + n = m →
      ∃ k, Path_getSharedPrefixDepth.loop a b m n i = some k ∧ i ≤ k ∧ k ≤ m ∧
        (∀ j, i ≤ j → j < k → a.comps[j]? = b.comps[j]?) ∧
        (k < m → a.comps[k]? ≠ b.comps[k]?) := by
  intro n
  induction n with
  | zero =>
    intro i hi
    refine ⟨m, rfl, by omega, le_refl _, ?_, ?_⟩
    · intro j h1 h2; omega
    · intro h; omega
  | succ n ih =>
    intro i hi
    have hia : i < a.comps.length := by omega
    have hib : i < b.comps.length := by omega
    have hca := (ha.2.2.2.1 _ (List.getElem_mem hia)).2.2
    have hcb := (hb.2.2.2.1 _ (List.getElem_mem hib)).2.2
    have hz := (strcmp_sign _ _ hca hcb).2.1
    rw [Path_getSharedPrefixDepth.loop, Path_getComponent_eq a ha, Path_getComponent_eq b hb,
      List.getElem?_eq_getElem hia, List.getElem?_eq_getElem hib]
    simp only
    by_cases hcmp : strcmp a.comps[i] b.comps[i] = 0
    · obtain ⟨k, hk1, hk2, hk3, hk4, hk5⟩ := ih (i + 1) (by omega)
      refine ⟨k, ?_, by omega, hk3, ?_, hk5⟩
      · simp [hcmp, hk1]
      · intro j h1 h2
        rcases Nat.eq_or_lt_of_le h1 with h | h
        · subst h
          rw [List.getElem?_eq_getElem hia, List.getElem?_eq_getElem hib, hz.mp hcmp]
        · exact hk4 j (by omega) h2
    · refine ⟨i, ?_, le_refl _, by omega, ?_, ?_⟩
      · simp [hcmp]
      · intro j h1 h2; omega
      · intro _
        rw [List.getElem?_eq_getElem hia, List.getElem?_eq_getElem hib]
        intro h
        apply hcmp
        apply hz.mpr
        simpa using h

theorem bsearchHelp_spec {α β : Type} [Inhabited α] (e : β) (l : List α)
    (cmp : α → β → Int) (n : Nat)
    (hmono1 : ∀ i j, i ≤ j → j < n → 0 < cmp (l.getD i default) e → 0 < cmp (l.getD j default) e)
    (hmono2 : ∀ i j, i ≤ j → j < n → cmp (l.getD j default) e < 0 → cmp (l.getD i default) e < 0) :
    ∀ (fuel : Nat) (lo hi : Int), 0 ≤ lo → hi < n → lo ≤ hi + 1 → hi - lo + 1 < fuel →
      (∀ i : Nat, (i : Int) < lo → cmp (l.getD i default) e < 0) →
      (∀ i : Nat, hi < (i : Int) → i < n → 0 < cmp (l.getD i default) e) →
      (∃ mid : Nat, DynArray_bsearchHelp e l cmp fuel lo hi = some (BsearchResult.found mid) ∧
          mid < n ∧ cmp (l.getD mid default) e = 0) ∨
      (∃ k : Nat, DynArray_bsearchHelp e l cmp fuel lo hi = some (BsearchResult.insertAt k) ∧
          k ≤ n ∧ (∀ i : Nat, i < k → cmp (l.getD i default) e < 0) ∧
          (∀ i : Nat, k ≤ i → i < n → 0 < cmp (l.getD i default) e)) := by
  intro fuel
  induction fuel with
  | zero => intro lo hi _ _ _ h; omega
  | succ f ih =>
    intro lo hi hlo hhi hle hfuel hlt hgt
    rw [DynArray_bsearchHelp]
    by_cases hc : lo ≤ hi
    · simp only [hc, if_true]
      have hm1 : lo ≤ lo + (hi - lo) / 2 := by omega
      have hm2 : lo + (hi - lo) / 2 ≤ hi := by omega
      obtain ⟨m, hm⟩ : ∃ m : Nat, (m : Int) = lo + (hi - lo) / 2 :=
        ⟨(lo + (hi - lo) / 2).toNat, by omega⟩
      have hmt : (lo + (hi - lo) / 2).toNat = m := by omega
      rw [hmt]
      have hmn : m < n := by omega
      by_cases h1 : cmp (l.getD m default) e > 0
      · simp only [h1, if_true]
        apply ih lo (lo + (hi - lo) / 2 - 1) hlo (by omega) (by omega) (by omega) hlt
        intro i hi1 hi2
        exact hmono1 m i (by omega) hi2 h1
      · simp only [h1, if_false]
        by_cases h2 : cmp (l.getD m default) e < 0
        · simp only [h2, if_true]
          apply ih (lo + (hi - lo) / 2 + 1) hi (by omega) hhi (by omega) (by omega) _ hgt
          intro i hi1
          exact hmono2 i m (by omega) hmn h2
        · simp only [h2, if_false]
          left
          exact ⟨m, by rw [← hm], hmn, by omega⟩
    · simp only [hc, if_false]
      right
      obtain ⟨k, hk⟩ : ∃ k : Nat, (k : Int) = lo := ⟨lo.toNat, by omega⟩
      refine ⟨k, by rw [hk], by omega, ?_, ?_⟩
      · intro i hi1; exact hlt i (by omega)
      · intro i hi1 hi2; exact hgt i (by omega) hi2

theorem DynArray_bsearch_spec {α β : Type} [Inhabited α] (a : DynArray α) (e : β)
    (cmp : α → β → Int)
    (hmono1 : ∀ i j, i ≤ j → j < a.uLength →
      0 < cmp (a.ppvArray.getD i default) e → 0 < cmp (a.ppvArray.getD j default) e)
    (hmono2 : ∀ i j, i ≤ j → j < a.uLength →
      cmp (a.ppvArray.getD j default) e < 0 → cmp (a.ppvArray.getD i default) e < 0) :
    (∃ mid : Nat, DynArray_bsearch a e cmp = some (1, mid) ∧
        mid < a.uLength ∧ cmp (a.ppvArray.getD mid default) e = 0) ∨
    (∃ k : Nat, DynArray_bsearch a e cmp = some (0, k) ∧
        k ≤ a.uLength ∧ (∀ i : Nat, i < k → cmp (a.ppvArray.getD i default) e < 0) ∧
        (∀ i : Nat, k ≤ i → i < a.uLength → 0 < cmp (a.ppvArray.getD i default) e)) := by
  by_cases h0 : a.uLength = 0
  · right
    refine ⟨0, by simp [DynArray_bsearch, h0], by omega, ?_, ?_⟩
    · intro i hi; omega
    · intro i _ hi; omega
  · have := bsearchHelp_spec e a.ppvArray cmp a.uLength hmono1 hmono2 (a.uLength + 1) 0
      ((a.uLength : Int) - 1) (le_refl _) (by omega) (by omega) (by omega)
      (by intro i hi; omega) (by intro i h1 h2; omega)
    rcases this with ⟨mid, h1, h2, h3⟩ | ⟨k, h1, h2, h3, h4⟩
    · left
      exact ⟨mid, by simp [DynArray_bsearch, h0, h1], h2, h3⟩
    · right
      exact ⟨k, by simp [DynArray_bsearch, h0, h1], h2, h3, h4⟩

theorem lexLt_irrefl (x : List Char) : ¬ lexLt x x := by
  induction x with
  | nil => exact not_lexLt_nil _
  | cons c cs ih =>
    rw [lexLt_cons_iff]
    intro h
    rcases h with h | ⟨_, h⟩
    · omega
    · exact ih h

theorem lexLt_trans : ∀ (x y z : List Char), lexLt x y → lexLt y z → lexLt x z := by
  intro x
  induction x with
  | nil =>
    intro y z h1 h2
    cases z with
    | nil => exact absurd h2 (not_lexLt_nil _)
    | cons c cs => exact lexLt_nil_cons _ _
  | cons a as ih =>
    intro y z h1 h2
    cases y with
    | nil => exact absurd h1 (not_lexLt_nil _)
    | cons b bs =>
      cases z with
      | nil => exact absurd h2 (not_lexLt_nil _)
      | cons c cs =>
        rw [lexLt_cons_iff] at h1 h2 ⊢
        rcases h1 with h1 | ⟨e1, h1⟩
        · rcases h2 with h2 | ⟨e2, h2⟩
          · left; omega
          · left; rw [← e2]; exact h1
        · rcases h2 with h2 | ⟨e2, h2⟩
          · left; rw [e1]; exact h2
          · right; exact ⟨e1.trans e2, ih bs cs h1 h2⟩

theorem Node.Valid.parts {v : Variant} {n : Node} (h : Node.Valid v n) :
    (Node_getPath n).Inv ∧ childrenOK v n.children ∧ ∀ c, c ∈ n.children → Node.Valid v c := by
  cases h with
  | mk p f pl cs h1 h2 h3 _ => exact ⟨h1, h2, h3⟩

theorem Node.Valid.leaf {v : Variant} {n : Node} (h : Node.Valid v n) :
    n.isFile = true → n.children = [] := by
  cases h with
  | mk p f pl cs _ _ _ h4 => exact h4

theorem Path.Inv.pathCStr {p : Path} (h : p.Inv) : CStr p.pcPath := by
  rw [h.2.2.2.2.1]
  exact CStr_intercalate _ (fun c hc => (h.2.2.2.1 c hc).2.2)

theorem Node.Valid.nameCStr {v : Variant} {n : Node} (h : Node.Valid v n) : CStr n.name :=
  h.parts.1.pathCStr

theorem ofList_getD {α : Type} [Inhabited α] (l : List α) (i : Nat) (hi : i < l.length) :
    (DynArray.ofList l).ppvArray.getD i default = l[i] := by
  simp [DynArray.ofList, List.getD_eq_getElem?_getD, List.getElem?_append_left hi,
    List.getElem?_eq_getElem hi]

theorem comparePath_sign (c : Node) (q : Path) (hc : CStr c.name) (hq : CStr q.pcPath) :
    (Path_comparePath (Node_getPath c) q < 0 ↔ lexLt c.name q.pcPath) ∧
    (Path_comparePath (Node_getPath c) q = 0 ↔ c.name = q.pcPath) ∧
    (0 < Path_comparePath (Node_getPath c) q ↔ lexLt q.pcPath c.name) :=
  strcmp_sign _ _ hc hq

theorem pairwise_getElem {α : Type} {r : α → α → Prop} {l : List α} (h : l.Pairwise r)
    (i j : Nat) (hij : i < j) (hj : j < l.length) (hi : i < l.length) : r l[i] l[j] :=
  (List.pairwise_iff_getElem.mp h) i j hi hj hij

theorem bsearch_children (cs : List Node) (q : Path)
    (hsorted : cs.Pairwise (fun a b => lexLt a.name b.name))
    (hcs : ∀ c, c ∈ cs → CStr c.name) (hq : CStr q.pcPath) :
    (∃ (mid : Nat) (hm : mid < cs.length),
      DynArray_bsearch (DynArray.ofList cs) q
        (fun oNChild oPSought => Path_comparePath (Node_getPath oNChild) oPSought) =
          some (1, mid) ∧ cs[mid].name = q.pcPath) ∨
    (∃ k : Nat,
      DynArray_bsearch (DynArray.ofList cs) q
        (fun oNChild oPSought => Path_comparePath (Node_getPath oNChild) oPSought) =
          some (0, k) ∧ k ≤ cs.length ∧
      (∀ (i : Nat) (hi : i < cs.length), i < k → lexLt cs[i].name q.pcPath) ∧
      (∀ (i : Nat) (hi : i < cs.length), k ≤ i → lexLt q.pcPath cs[i].name)) := by
  have hlen : (DynArray.ofList cs).uLength = cs.length := rfl
  have hsign : ∀ (i : Nat) (hi : i < cs.length), _ :=
    fun i hi => comparePath_sign cs[i] q (hcs _ (List.getElem_mem hi)) hq
  have hspec := DynArray_bsearch_spec (DynArray.ofList cs) q
    (fun oNChild oPSought => Path_comparePath (Node_getPath oNChild) oPSought)
    (by
      intro i j hij hj h
      rw [hlen] at hj
      have hi : i < cs.length := by omega
      rw [ofList_getD cs i hi] at h
      rw [ofList_getD cs j hj]
      rcases Nat.eq_or_lt_of_le hij with e | hlt
      · subst e; exact h
      · have h1 := (hsign i hi).2.2.mp h
        have h2 := pairwise_getElem hsorted i j hlt hj hi
        exact (hsign j hj).2.2.mpr (lexLt_trans _ _ _ h1 h2))
    (by
      intro i j hij hj h
      rw [hlen] at hj
      have hi : i < cs.length := by omega
      rw [ofList_getD cs j hj] at h
      rw [ofList_getD cs i hi]
      rcases Nat.eq_or_lt_of_le hij with e | hlt
      · subst e; exact h
      · have h1 := (hsign j hj).1.mp h
        have h2 := pairwise_getElem hsorted i j hlt hj hi
        exact (hsign i hi).1.mpr (lexLt_trans _ _ _ h2 h1))
  rcases hspec with ⟨mid, h1, h2, h3⟩ | ⟨k, h1, h2, h3, h4⟩
  · rw [hlen] at h2
    rw [ofList_getD cs mid h2] at h3
    left
    exact ⟨mid, h2, h1, (hsign mid h2).2.1.mp h3⟩
  · rw [hlen] at h2
    right
    refine ⟨k, h1, h2, ?_, ?_⟩
    · intro i hi hik
      have := h3 i hik
      rw [ofList_getD cs i hi] at this
      exact (hsign i hi).1.mp this
    · intro i hi hik
      have := h4 i hik (by rw [hlen]; exact hi)
      rw [ofList_getD cs i hi] at this
      exact (hsign i hi).2.2.mp this

theorem Node_hasChild_of_not_BDT (v : Variant) (hv : v ≠ Variant.BDT) (node : Node) (q : Path) :
    Node_hasChild v node q =
      match DynArray_bsearch (DynArray.ofList node.children) q
          (fun oNChild oPSought => Path_comparePath (Node_getPath oNChild) oPSought) with
      | none => none
      | some (iFound, ulChildID) => some (decide (iFound ≠ 0), ulChildID) := by
  cases v with
  | BDT => exact absurd rfl hv
  | DT => rfl
  | FT => rfl

theorem childrenOK_of_not_BDT (v : Variant) (hv : v ≠ Variant.BDT) (cs : List Node) :
    childrenOK v cs ↔ cs.Pairwise (fun a b => lexLt a.name b.name) := by
  cases v with
  | BDT => exact absurd rfl hv
  | DT => rfl
  | FT => rfl

theorem Node_hasChild_found (v : Variant) (node : Node) (q : Path)
    (hok : childrenOK v node.children) (hcs : ∀ c, c ∈ node.children → CStr c.name)
    (hq : CStr q.pcPath) (i : Nat) (hi : i < node.children.length)
    (heq : node.children[i].name = q.pcPath) :
    Node_hasChild v node q = some (true, i) := by
  by_cases hv : v = Variant.BDT
  · subst hv
    obtain ⟨hlen, hpw⟩ := hok
    simp only [Node_hasChild]
    match hch : node.children, hi, heq, hlen, hpw, hcs with
    | [], hi, _, _, _, _ => simp at hi
    | [a], hi, heq, _, _, hcs =>
      have : i = 0 := by simp at hi; omega
      subst this
      simp only [List.getElem_cons_zero] at heq
      have := (comparePath_sign a q (hcs a (by simp)) hq).2.1.mpr heq
      simp [this]
    | [a, b], hi, heq, _, hpw, hcs =>
      have hab : a.name ≠ b.name := by
        simpa using hpw
      have sa := (comparePath_sign a q (hcs a (by simp)) hq).2.1
      have sb := (comparePath_sign b q (hcs b (by simp)) hq).2.1
      have : i = 0 ∨ i = 1 := by simp at hi; omega
      rcases this with e | e
      · subst e
        simp only [List.getElem_cons_zero] at heq
        simp [sa.mpr heq]
      · subst e
        simp only [List.getElem_cons_succ, List.getElem_cons_zero] at heq
        have hna : ¬ Path_comparePath (Node_getPath a) q = 0 := by
          intro h; exact hab ((sa.mp h).trans heq.symm)
        simp [hna, sb.mpr heq]
    | _ :: _ :: _ :: _, _, _, hlen, _, _ => simp at hlen
  · rw [Node_hasChild_of_not_BDT v hv]
    rw [childrenOK_of_not_BDT v hv] at hok
    rcases bsearch_children node.children q hok hcs hq with ⟨mid, hm, h1, h2⟩ | ⟨k, h1, _, h3, h4⟩
    · have hmi : mid = i := by
        rcases Nat.lt_trichotomy mid i with h | h | h
        · have := pairwise_getElem hok mid i h hi hm
          rw [h2, heq] at this
          exact absurd this (lexLt_irrefl _)
        · exact h
        · have := pairwise_getElem hok i mid h hm hi
          rw [h2, heq] at this
          exact absurd this (lexLt_irrefl _)
      subst hmi
      simp [h1]
    · exfalso
      by_cases hik : i < k
      · have := h3 i hi hik
        rw [heq] at this
        exact lexLt_irrefl _ this
      · have := h4 i hi (by omega)
        rw [heq] at this
        exact lexLt_irrefl _ this

theorem mem_take_lt {α : Type} (l : List α) (k : Nat) (a : α) (h : a ∈ l.take k) :
    ∃ (i : Nat) (hi : i < l.length), i < k ∧ l[i] = a := by
  obtain ⟨i, hi, e⟩ := List.mem_iff_getElem.mp h
  have hi' : i < k ∧ i < l.length := by
    simpa [List.length_take] using hi
  refine ⟨i, hi'.2, hi'.1, ?_⟩
  rw [← e, List.getElem_take]

theorem mem_drop_ge {α : Type} (l : List α) (k : Nat) (a : α) (h : a ∈ l.drop k) :
    ∃ (i : Nat) (hi : i < l.length), k ≤ i ∧ l[i] = a := by
  obtain ⟨i, hi, e⟩ := List.mem_iff_getElem.mp h
  have hi' : k + i < l.length := by
    simp [List.length_drop] at hi; omega
  refine ⟨k + i, hi', by omega, ?_⟩
  rw [← e, List.getElem_drop]

theorem Node_hasChild_absent (v : Variant) (node : Node) (q : Path)
    (hok : childrenOK v node.children) (hcs : ∀ c, c ∈ node.children → CStr c.name)
    (hq : CStr q.pcPath) (habs : ∀ c, c ∈ node.children → c.name ≠ q.pcPath) :
    ∃ slot, Node_hasChild v node q = some (false, slot) ∧ slot ≤ node.children.length ∧
      ∀ nd : Node, nd.name = q.pcPath →
        (v = Variant.BDT → node.children.length < 2) →
        childrenOK v (node.children.take slot ++ nd :: node.children.drop slot) := by
  by_cases hv : v = Variant.BDT
  · subst hv
    obtain ⟨hlen, hpw⟩ := hok
    have hins : ∀ nd : Node, nd.name = q.pcPath → node.children.length < 2 →
        childrenOK Variant.BDT (node.children.take node.children.length ++
          nd :: node.children.drop node.children.length) := by
      intro nd hnd hl
      rw [List.take_length, List.drop_length]
      refine ⟨by simp; omega, ?_⟩
      rw [List.pairwise_append]
      refine ⟨hpw, by simp, ?_⟩
      intro a ha b hb
      simp only [List.mem_singleton] at hb
      subst hb
      rw [hnd]
      exact habs a ha
    refine ⟨node.children.length, ?_, le_refl _, fun nd hnd hl => hins nd hnd (hl rfl)⟩
    simp only [Node_hasChild]
    match hch : node.children, hlen, habs, hcs with
    | [], _, _, _ => rfl
    | [a], _, habs, hcs =>
      have sa := (comparePath_sign a q (hcs a (by simp)) hq).2.1
      have hna : ¬ Path_comparePath (Node_getPath a) q = 0 :=
        fun h => habs a (by simp) (sa.mp h)
      simp [hna]
    | [a, b], _, habs, hcs =>
      have sa := (comparePath_sign a q (hcs a (by simp)) hq).2.1
      have sb := (comparePath_sign b q (hcs b (by simp)) hq).2.1
      have hna : ¬ Path_comparePath (Node_getPath a) q = 0 :=
        fun h => habs a (by simp) (sa.mp h)
      have hnb : ¬ Path_comparePath (Node_getPath b) q = 0 :=
        fun h => habs b (by simp) (sb.mp h)
      simp [hna, hnb]
    | _ :: _ :: _ :: _, hlen, _, _ => simp at hlen
  · rw [Node_hasChild_of_not_BDT v hv]
    rw [childrenOK_of_not_BDT v hv] at hok
    rcases bsearch_children node.children q hok hcs hq with ⟨mid, hm, _, h2⟩ | ⟨k, h1, h2, h3, h4⟩
    · exact absurd h2 (habs _ (List.getElem_mem hm))
    · refine ⟨k, by simp [h1], h2, ?_⟩
      intro nd hnd _
      rw [childrenOK_of_not_BDT v hv]
      have hsplit : (node.children.take k ++ node.children.drop k).Pairwise
          (fun a b => lexLt a.name b.name) := by
        rw [List.take_append_drop]; exact hok
      rw [List.pairwise_append] at hsplit ⊢
      obtain ⟨p1, p2, p3⟩ := hsplit
      refine ⟨p1, ?_, ?_⟩
      · rw [List.pairwise_cons]
        refine ⟨?_, p2⟩
        intro b hb
        obtain ⟨i, hi, hki, e⟩ := mem_drop_ge _ _ _ hb
        rw [hnd, ← e]
        exact h4 i hi hki
      · intro a ha b hb
        rw [List.mem_cons] at hb
        rcases hb with hb | hb
        · subst hb
          obtain ⟨i, hi, hki, e⟩ := mem_take_lt _ _ _ ha
          rw [hnd, ← e]
          exact h3 i hi hki
        · exact p3 a ha b hb

theorem Node_hasChild_cases (v : Variant) (node : Node) (q : Path)
    (hok : childrenOK v node.children) (hcs : ∀ c, c ∈ node.children → CStr c.name)
    (hq : CStr q.pcPath) :
    (∃ (i : Nat) (hi : i < node.children.length),
      Node_hasChild v node q = some (true, i) ∧ node.children[i].name = q.pcPath) ∨
    (∃ slot, Node_hasChild v node q = some (false, slot) ∧ slot ≤ node.children.length ∧
      (∀ c, c ∈ node.children → c.name ≠ q.pcPath) ∧
      ∀ nd : Node, nd.name = q.pcPath →
        (v = Variant.BDT → node.children.length < 2) →
        childrenOK v (node.children.take slot ++ nd :: node.children.drop slot)) := by
  by_cases h : ∃ (i : Nat) (hi : i < node.children.length), node.children[i].name = q.pcPath
  · obtain ⟨i, hi, heq⟩ := h
    left
    exact ⟨i, hi, Node_hasChild_found v node q hok hcs hq i hi heq, heq⟩
  · right
    have habs : ∀ c, c ∈ node.children → c.name ≠ q.pcPath := by
      intro c hc heq
      obtain ⟨i, hi, e⟩ := List.mem_iff_getElem.mp hc
      exact h ⟨i, hi, by rw [e]; exact heq⟩
    obtain ⟨slot, h1, h2, h3⟩ := Node_hasChild_absent v node q hok hcs hq habs
    exact ⟨slot, h1, h2, habs, h3⟩

theorem Path_prefix_name (p : Path) (h : p.Inv) (k : Nat) (h1 : 1 ≤ k)
    (h2 : k ≤ p.comps.length) :
    ∃ q, Path_prefix p k = some (SUCCESS, some q) ∧ q.Inv ∧ q.comps = p.comps.take k ∧
      q.pcPath = p.name k := by
  obtain ⟨q, hq, hi, hc⟩ := Path_prefix_spec p h k h1 (by rw [Path_depth_eq p h]; exact h2)
  exact ⟨q, hq, hi, hc, by rw [hi.2.2.2.2.1, hc]; rfl⟩

theorem Path_name_take (p : Path) (j k : Nat) (hk : k ≤ j) (Q : Path)
    (hQ : Q.comps = p.comps.take j) : Q.name k = p.name k := by
  simp only [Path.name, hQ, List.take_take]
  congr 2
  omega

theorem Node_name_setChildren (n : Node) (cs : List Node) : (n.setChildren cs).name = n.name := by
  cases n; rfl

theorem Node_isFile_setChildren (n : Node) (cs : List Node) :
    (n.setChildren cs).isFile = n.isFile := by
  cases n; rfl

theorem Node_children_setChildren (n : Node) (cs : List Node) :
    (n.setChildren cs).children = cs := by
  cases n; rfl

theorem Node_getPath_setChildren (n : Node) (cs : List Node) :
    Node_getPath (n.setChildren cs) = Node_getPath n := by
  cases n; rfl

theorem Node.Valid.withChildren {v : Variant} {n : Node} (h : Node.Valid v n) (cs : List Node)
    (hok : childrenOK v cs) (hcs : ∀ c, c ∈ cs → Node.Valid v c)
    (hdir : n.isFile = false) :
    Node.Valid v (n.setChildren cs) := by
  cases n with
  | mk p f pl old =>
    exact Node.Valid.mk p f pl cs h.parts.1 hok hcs
      (fun hf => by simp [Node.isFile] at hdir; rw [hdir] at hf; cases hf)

theorem childrenOK_congr (v : Variant) (cs cs' : List Node)
    (h : cs.map Node.name = cs'.map Node.name) (hok : childrenOK v cs) : childrenOK v cs' := by
  have hlen : cs.length = cs'.length := by
    have := congrArg List.length h
    simpa using this
  have hpw : ∀ (R : List Char → List Char → Prop),
      cs.Pairwise (fun a b => R a.name b.name) → cs'.Pairwise (fun a b => R a.name b.name) := by
    intro R hp
    have h1 : (cs.map Node.name).Pairwise R := List.pairwise_map.mpr hp
    rw [h] at h1
    exact List.pairwise_map.mp h1
  cases v with
  | BDT => exact ⟨hlen ▸ hok.1, hpw _ hok.2⟩
  | DT => exact hpw _ hok
  | FT => exact hpw _ hok

theorem lexLt_ne {x y : List Char} (h : lexLt x y) : x ≠ y := by
  intro e
  rw [e] at h
  exact lexLt_irrefl _ h

theorem childrenOK_distinct (v : Variant) (cs : List Node) (hok : childrenOK v cs) :
    cs.Pairwise (fun a b => a.name ≠ b.name) := by
  cases v with
  | BDT => exact hok.2
  | DT =>
    have h : cs.Pairwise (fun a b => lexLt a.name b.name) := hok
    exact h.imp (fun h => lexLt_ne h)
  | FT =>
    have h : cs.Pairwise (fun a b => lexLt a.name b.name) := hok
    exact h.imp (fun h => lexLt_ne h)

theorem childrenOK_sublist (v : Variant) (cs cs' : List Node) (hs : cs'.Sublist cs)
    (hok : childrenOK v cs) : childrenOK v cs' := by
  cases v with
  | BDT => exact ⟨le_trans hs.length_le hok.1, hok.2.sublist hs⟩
  | DT => exact List.Pairwise.sublist hs hok
  | FT => exact List.Pairwise.sublist hs hok

theorem map_name_set (cs : List Node) (i : Nat) (hi : i < cs.length) (c : Node)
    (hc : c.name = cs[i].name) : (cs.set i c).map Node.name = cs.map Node.name := by
  apply List.ext_getElem
  · simp
  · intro n h1 h2
    simp only [List.getElem_map, List.getElem_set]
    split
    · rename_i e; subst e; exact hc
    · rfl

theorem Node_getChild_eq (node : Node) (i : Nat) (hi : i < node.children.length) :
    Node_getChild node i = (SUCCESS, some node.children[i]) := by
  simp [Node_getChild, List.getElem?_eq_getElem hi]

theorem Present_zero (v : Variant) (Q : Path) (level : Nat) (cur : Node) :
    Present v Q 0 level cur cur.isFile :=
  ⟨⟨cur, rfl, rfl⟩, fun _ => rfl⟩

theorem findFrom_step (v : Variant) (Q : Path) (hQ : Q.Inv) (n level : Nat) (cur : Node)
    (hl : level + 1 ≤ Q.comps.length) (hval : Node.Valid v cur)
    (i : Nat) (hi : i < cur.children.length)
    (hname : cur.children[i].name = Q.name (level + 1)) :
    Tree_findFrom v Q (n + 1) level cur = Tree_findFrom v Q n (level + 1) cur.children[i] := by
  obtain ⟨q, hq, hqi, _, hqn⟩ := Path_prefix_name Q hQ (level + 1) (by omega) hl
  have hh := Node_hasChild_found v cur q hval.parts.2.1
    (fun c hc => (hval.parts.2.2 c hc).nameCStr) hqi.pathCStr i hi (by rw [hname, hqn])
  rw [Tree_findFrom]
  simp only [hq, hh, Node_getChild_eq cur i hi]

theorem findFrom_absent (v : Variant) (Q : Path) (hQ : Q.Inv) (n level : Nat) (cur : Node)
    (hl : level + 1 ≤ Q.comps.length) (hval : Node.Valid v cur)
    (habs : ∀ c, c ∈ cur.children → c.name ≠ Q.name (level + 1)) :
    Tree_findFrom v Q (n + 1) level cur = some (NO_SUCH_PATH, none) := by
  obtain ⟨q, hq, hqi, _, hqn⟩ := Path_prefix_name Q hQ (level + 1) (by omega) hl
  obtain ⟨slot, hh, _⟩ := Node_hasChild_absent v cur q hval.parts.2.1
    (fun c hc => (hval.parts.2.2 c hc).nameCStr) hqi.pathCStr (by rw [hqn]; exact habs)
  rw [Tree_findFrom]
  simp only [hq, hh]

theorem Present_step (v : Variant) (Q : Path) (hQ : Q.Inv) (n level : Nat) (cur : Node)
    (hl : level + 1 ≤ Q.comps.length) (hval : Node.Valid v cur) (hdir : cur.isFile = false)
    (i : Nat) (hi : i < cur.children.length)
    (hname : cur.children[i].name = Q.name (level + 1)) (bKind : Bool)
    (hp : Present v Q n (level + 1) cur.children[i] bKind) :
    Present v Q (n + 1) level cur bKind := by
  obtain ⟨q, hq, hqi, _, hqn⟩ := Path_prefix_name Q hQ (level + 1) (by omega) hl
  have hh := Node_hasChild_found v cur q hval.parts.2.1
    (fun c hc => (hval.parts.2.2 c hc).nameCStr) hqi.pathCStr i hi (by rw [hname, hqn])
  constructor
  · rw [findFrom_step v Q hQ n level cur hl hval i hi hname]
    exact hp.1
  · intro pl
    rw [Tree_insertFrom]
    simp only [hdir, hq, hh, Node_getChild_eq cur i hi, hp.2 pl]
    simp

theorem Node_new_success (v : Variant) (q : Path) (par : Option Node) (pl : Option Payload)
    (nd : Node) (slot : Nat) (h : Node_new v q par pl = some (SUCCESS, some nd, slot)) :
    nd = Node.mk q pl.isSome (pl.getD ⟨none, 0⟩) [] ∧
    ∀ P, par = some P → Node_hasChild v P q = some (false, slot) := by
  cases par with
  | none =>
    simp only [Node_new] at h
    split at h
    · simp at h
    · simp at h
      exact ⟨h.1.symm, fun P hP => by simp at hP⟩
  | some P =>
    simp only [Node_new] at h
    split at h
    · simp at h
    · split at h
      · simp at h
      · split at h
        · simp at h
        · split at h
          · simp at h
          · simp at h
          · rename_i hh
            simp at h
            refine ⟨h.1.symm, fun P' hP' => ?_⟩
            simp at hP'
            subst hP'
            rw [hh, h.2]

theorem childrenOK_nil (v : Variant) : childrenOK v [] := by
  cases v with
  | BDT => exact ⟨by simp, List.Pairwise.nil⟩
  | DT => exact List.Pairwise.nil
  | FT => exact List.Pairwise.nil

theorem childrenOK_singleton (v : Variant) (c : Node) : childrenOK v [c] := by
  cases v with
  | BDT => exact ⟨by simp, List.pairwise_singleton _ _⟩
  | DT => exact List.pairwise_singleton _ _
  | FT => exact List.pairwise_singleton _ _

theorem buildRest_spec (v : Variant) (p : Path) (hp : p.Inv) (pl : Option Payload) :
    ∀ (n idx : Nat) (par : Option Node) (nd : Node) (slot : Nat),
      idx + n = p.comps.length → 1 ≤ idx →
      Tree_buildRest v p pl n idx par = some (SUCCESS, some nd, slot) →
      Node.Valid v nd ∧ nd.name = p.name idx ∧
      (∀ P q, par = some P → Path_prefix p idx = some (SUCCESS, some q) →
        Node_hasChild v P q = some (false, slot)) ∧
      ∀ j Q, idx ≤ j → j ≤ p.comps.length → Q.Inv → Q.comps = p.comps.take j →
        Present v Q (j - idx) idx nd (decide (j = p.comps.length) && pl.isSome) := by
  intro n
  induction n with
  | zero =>
    intro idx par nd slot hidx h1 h
    obtain ⟨q, hq, hqi, hqc, hqn⟩ := Path_prefix_name p hp idx h1 (by omega)
    simp only [Tree_buildRest, hq] at h
    obtain ⟨hnd, hslot⟩ := Node_new_success v q par pl nd slot h
    subst hnd
    refine ⟨Node.Valid.mk _ _ _ _ hqi (childrenOK_nil v) (by simp) (fun _ => rfl), hqn, ?_, ?_⟩
    · intro P q' hP hq'
      rw [hq] at hq'
      simp at hq'
      subst hq'
      exact hslot P hP
    · intro j Q hj1 hj2 _ _
      have hj : j = idx := by omega
      subst hj
      have hD : j = p.comps.length := by omega
      simp only [Nat.sub_self, hD, decide_True, Bool.true_and]
      exact Present_zero v Q _ _
  | succ n ih =>
    intro idx par nd slot hidx h1 h
    obtain ⟨q, hq, hqi, hqc, hqn⟩ := Path_prefix_name p hp idx h1 (by omega)
    simp only [Tree_buildRest, hq] at h
    split at h
    · rename_i oNNew ulSlot hnew
      obtain ⟨hnd, hslot⟩ := Node_new_success v q par none oNNew ulSlot hnew
      split at h
      · rename_i oNChild ulChildSlot hrest
        simp at h
        obtain ⟨h2, h3⟩ := h
        subst h3
        obtain ⟨cv, cn, _, cp⟩ := ih (idx + 1) (some oNNew) oNChild ulChildSlot (by omega)
          (by omega) hrest
        have hch : oNNew.children = [] := by rw [hnd]; rfl
        rw [hch] at h2
        simp only [List.take_nil, List.drop_nil, List.nil_append] at h2
        have hndv : Node.Valid v nd := by
          rw [← h2, hnd]
          exact Node.Valid.mk _ _ _ _ hqi (childrenOK_singleton v _)
            (by intro c hc; simp at hc; subst hc; exact cv) (by simp)
        have hndc : nd.children = [oNChild] := by rw [← h2, hnd]; rfl
        have hndf : nd.isFile = false := by rw [← h2, hnd]; rfl
        refine ⟨hndv, by rw [← h2, hnd]; exact hqn, ?_, ?_⟩
        · intro P q' hP hq'
          rw [hq] at hq'
          simp at hq'
          subst hq'
          exact hslot P hP
        · intro j Q hj1 hj2 hQi hQc
          rcases Nat.eq_or_lt_of_le hj1 with e | hlt
          · subst e
            have hD : ¬ idx = p.comps.length := by omega
            simp only [Nat.sub_self, hD, decide_False, Bool.false_and]
            rw [← hndf]
            exact Present_zero v Q _ _
          · have hQl : Q.comps.length = j := by
              rw [hQc, List.length_take]; omega
            have e : j - idx = (j - (idx + 1)) + 1 := by omega
            rw [e]
            have h0 : 0 < nd.children.length := by rw [hndc]; simp
            apply Present_step v Q hQi _ idx nd (by omega) hndv hndf 0 h0
            · simp only [hndc, List.getElem_cons_zero]
              rw [cn, Path_name_take p j (idx + 1) (by omega) Q hQc]
            · simp only [hndc, List.getElem_cons_zero]
              exact cp j Q (by omega) hj2 hQi hQc
      · simp at h
      · simp at h
    · simp at h
    · simp at h

theorem Node_new_success_some (v : Variant) (q : Path) (par : Option Node)
    (pl : Option Payload) (x : Option Node) (slot : Nat)
    (h : Node_new v q par pl = some (SUCCESS, x, slot)) : ∃ nd, x = some nd := by
  cases par with
  | none =>
    simp only [Node_new] at h
    split at h
    · simp at h
    · simp at h
      exact ⟨_, h.1.symm⟩
  | some P =>
    simp only [Node_new] at h
    split at h
    · simp at h
    · split at h
      · simp at h
      · split at h
        · simp at h
        · split at h
          · simp at h
          · simp at h
          · simp at h
            exact ⟨_, h.1.symm⟩

theorem buildRest_success_some (v : Variant) (p : Path) (hp : p.Inv) (pl : Option Payload) :
    ∀ (n idx : Nat) (par : Option Node) (x : Option Node) (slot : Nat),
      idx + n = p.comps.length → 1 ≤ idx →
      Tree_buildRest v p pl n idx par = some (SUCCESS, x, slot) → ∃ nd, x = some nd := by
  intro n
  induction n with
  | zero =>
    intro idx par x slot hidx h1 h
    obtain ⟨q, hq, _⟩ := Path_prefix_name p hp idx h1 (by omega)
    simp only [Tree_buildRest, hq] at h
    exact Node_new_success_some v q par pl x slot h
  | succ n ih =>
    intro idx par x slot hidx h1 h
    obtain ⟨q, hq, _⟩ := Path_prefix_name p hp idx h1 (by omega)
    simp only [Tree_buildRest, hq] at h
    split at h
    · split at h
      · simp at h
        exact ⟨_, h.1.symm⟩
      · rename_i hne heq
        simp at h
        obtain ⟨h2, h3, _⟩ := h
        subst h2
        obtain ⟨nd, hnd⟩ := ih _ _ _ _ (by omega) (by omega) heq
        exact (hne nd rfl hnd).elim
      · simp at h
    · rename_i hne heq
      simp at h
      obtain ⟨h2, h3, _⟩ := h
      subst h2
      obtain ⟨nd, hnd⟩ := Node_new_success_some _ _ _ _ _ _ heq
      exact (hne nd rfl hnd).elim
    · simp at h

theorem getElem_insert_at {α : Type} (l : List α) (k : Nat) (x : α) (hk : k ≤ l.length)
    (h : k < (l.take k ++ x :: l.drop k).length) : (l.take k ++ x :: l.drop k)[k] = x := by
  have hl : (l.take k).length = k := by simp; omega
  rw [List.getElem_append_right (by omega)]
  simp [hl]

theorem mem_insert_at {α : Type} (l : List α) (k : Nat) (x c : α)
    (h : c ∈ l.take k ++ x :: l.drop k) : c = x ∨ c ∈ l := by
  rw [List.mem_append, List.mem_cons] at h
  rcases h with h | h | h
  · exact Or.inr (List.mem_of_mem_take h)
  · exact Or.inl h
  · exact Or.inr (List.mem_of_mem_drop h)

theorem insertFrom_spec (v : Variant) (p : Path) (hp : p.Inv) (pl : Option Payload) :
    ∀ (n level : Nat) (cur cur' : Node) (cnt : Nat),
      level + n = p.comps.length → 1 ≤ level → Node.Valid v cur →
      Tree_insertFrom v p pl n level cur = some (SUCCESS, cur', cnt) →
      Node.Valid v cur' ∧ cur'.name = cur.name ∧
      ∀ j Q, level ≤ j → j ≤ p.comps.length → Q.Inv → Q.comps = p.comps.take j →
        Present v Q (j - level) level cur' (decide (j = p.comps.length) && pl.isSome) := by
  intro n
  induction n with
  | zero =>
    intro level cur cur' cnt _ _ _ h
    simp [Tree_insertFrom] at h
  | succ n ih =>
    intro level cur cur' cnt hlev h1 hval h
    obtain ⟨q, hq, hqi, hqc, hqn⟩ := Path_prefix_name p hp (level + 1) (by omega) (by omega)
    rw [Tree_insertFrom] at h
    by_cases hfile : cur.isFile = true
    · simp [hfile] at h
    · have hdir : cur.isFile = false := by simpa using hfile
      simp only [hdir, hq, Bool.false_eq_true, if_false] at h
      have hzero : ∀ (c' : Node) (Q : Path), c'.isFile = false →
          Present v Q (level - level) level c'
            (decide (level = p.comps.length) && pl.isSome) := by
        intro c' Q hc'
        have hD : ¬ level = p.comps.length := by omega
        simp only [Nat.sub_self, hD, decide_False, Bool.false_and]
        rw [← hc']
        exact Present_zero v Q _ _
      rcases Node_hasChild_cases v cur q hval.parts.2.1
          (fun c hc => (hval.parts.2.2 c hc).nameCStr) hqi.pathCStr with
        ⟨i, hi, hh, hname⟩ | ⟨slot, hh, hslot, habs, hins⟩
      · simp only [hh, Node_getChild_eq cur i hi] at h
        split at h
        · rename_i oNChild ulNewNodes hrec
          simp at h
          obtain ⟨h2, _⟩ := h
          obtain ⟨cv, cn, cp⟩ := ih (level + 1) cur.children[i] oNChild ulNewNodes (by omega)
            (by omega) (hval.parts.2.2 _ (List.getElem_mem hi)) hrec
          have hv' : Node.Valid v cur' := by
            rw [← h2]
            apply hval.withChildren
            · exact childrenOK_congr v _ _ (map_name_set _ i hi _ cn).symm hval.parts.2.1
            · intro c hc
              rcases List.mem_or_eq_of_mem_set hc with hc | hc
              · exact hval.parts.2.2 c hc
              · rw [hc]; exact cv
            · exact hdir
          have hch : cur'.children = cur.children.set i oNChild := by
            rw [← h2, Node_children_setChildren]
          have hf' : cur'.isFile = false := by
            rw [← h2, Node_isFile_setChildren]; exact hdir
          refine ⟨hv', by rw [← h2, Node_name_setChildren], ?_⟩
          intro j Q hj1 hj2 hQi hQc
          rcases Nat.eq_or_lt_of_le hj1 with e | hlt
          · subst e
            exact hzero cur' Q hf'
          · have hQl : Q.comps.length = j := by
              rw [hQc, List.length_take]; omega
            have e : j - level = (j - (level + 1)) + 1 := by omega
            rw [e]
            have hi' : i < cur'.children.length := by rw [hch]; simpa using hi
            have hget : cur'.children[i] = oNChild := by
              simp only [hch, List.getElem_set_self]
            apply Present_step v Q hQi _ level cur' (by omega) hv' hf' i hi'
            · rw [hget, cn, hname, hqn, Path_name_take p j (level + 1) (by omega) Q hQc]
            · rw [hget]
              exact cp j Q (by omega) hj2 hQi hQc
        · rename_i hne heq
          simp at h
          exact absurd h.1 hne
        · simp at h
      · simp only [hh] at h
        split at h
        · simp at h
        · rename_i harity
          split at h
          · rename_i oNNew ulSlot hbuild
            simp at h
            obtain ⟨h2, _⟩ := h
            obtain ⟨bv, bn, bs, bp⟩ := buildRest_spec v p hp pl n (level + 1) (some cur)
              oNNew ulSlot (by omega) (by omega) hbuild
            have hs := bs cur q rfl hq
            rw [hh] at hs
            simp at hs
            subst hs
            have hok := hins oNNew (by rw [bn, hqn]) (by
              intro hv
              have : ¬ Node_getNumChildren cur ≥ 2 := fun h2 => harity ⟨hv, h2⟩
              simp only [Node_getNumChildren] at this
              omega)
            have hv' : Node.Valid v cur' := by
              rw [← h2]
              apply hval.withChildren _ hok _ hdir
              intro c hc
              rcases mem_insert_at _ _ _ _ hc with hc | hc
              · rw [hc]; exact bv
              · exact hval.parts.2.2 c hc
            have hch : cur'.children =
                cur.children.take slot ++ oNNew :: cur.children.drop slot := by
              rw [← h2, Node_children_setChildren]
            have hf' : cur'.isFile = false := by
              rw [← h2, Node_isFile_setChildren]; exact hdir
            refine ⟨hv', by rw [← h2, Node_name_setChildren], ?_⟩
            intro j Q hj1 hj2 hQi hQc
            rcases Nat.eq_or_lt_of_le hj1 with e | hlt
            · subst e
              exact hzero cur' Q hf'
            · have hQl : Q.comps.length = j := by
                rw [hQc, List.length_take]; omega
              have e : j - level = (j - (level + 1)) + 1 := by omega
              rw [e]
              have hi' : slot < cur'.children.length := by
                rw [hch]; simp; omega
              have hget : cur'.children[slot] = oNNew := by
                simp only [hch]
                exact getElem_insert_at _ _ _ hslot _
              apply Present_step v Q hQi _ level cur' (by omega) hv' hf' slot hi'
              · rw [hget, bn, Path_name_take p j (level + 1) (by omega) Q hQc]
              · rw [hget]
                exact bp j Q (by omega) hj2 hQi hQc
          · rename_i hne heq
            simp at h
            obtain ⟨hs, _⟩ := h
            subst hs
            obtain ⟨nd, hnd⟩ := buildRest_success_some v p hp pl n (level + 1) (some cur) _ _
              (by omega) (by omega) heq
            exact (hne nd rfl hnd).elim
          · simp at h

theorem Path_name_of_take_eq (p Q : Path) (D k : Nat) (hk : k ≤ D)
    (hQ : Q.comps.take D = p.comps) : Q.name k = p.name k := by
  simp only [Path.name, ← hQ, List.take_take]
  congr 2
  omega

theorem name_ne_of_mem_eraseIdx (cs : List Node)
    (hd : cs.Pairwise (fun a b => a.name ≠ b.name)) (i : Nat) (hi : i < cs.length)
    (c : Node) (hc : c ∈ cs.eraseIdx i) : c.name ≠ cs[i].name := by
  obtain ⟨j, hne, hj⟩ := List.mem_eraseIdx_iff_getElem?.mp hc
  have hjl : j < cs.length := by
    by_contra h
    rw [List.getElem?_eq_none (by omega)] at hj
    simp at hj
  rw [List.getElem?_eq_getElem hjl] at hj
  simp at hj
  subst hj
  rcases Nat.lt_or_gt_of_ne hne with h | h
  · exact pairwise_getElem hd j i h hi hjl
  · exact fun e => pairwise_getElem hd i j h hjl hi e.symm

theorem rmFrom_spec (v : Variant) (p : Path) (hp : p.Inv) (k : Option Bool) :
    ∀ (n level : Nat) (cur cur' : Node) (cnt : Nat),
      level + n = p.comps.length → 1 ≤ level → Node.Valid v cur →
      Tree_rmFrom v p k n level cur = some (SUCCESS, cur', cnt) →
      Node.Valid v cur' ∧ cur'.name = cur.name ∧
      ∀ Q : Path, Q.Inv → p.comps.length ≤ Q.comps.length →
        Q.comps.take p.comps.length = p.comps →
        Tree_findFrom v Q (Q.comps.length - level) level cur' = some (NO_SUCH_PATH, none) := by
  intro n
  induction n with
  | zero =>
    intro level cur cur' cnt _ _ _ h
    simp [Tree_rmFrom] at h
  | succ n ih =>
    intro level cur cur' cnt hlev h1 hval h
    obtain ⟨q, hq, hqi, hqc, hqn⟩ := Path_prefix_name p hp (level + 1) (by omega) (by omega)
    rw [Tree_rmFrom] at h
    simp only [hq] at h
    rcases Node_hasChild_cases v cur q hval.parts.2.1
        (fun c hc => (hval.parts.2.2 c hc).nameCStr) hqi.pathCStr with
      ⟨i, hi, hh, hname⟩ | ⟨slot, hh, hslot, habs, hins⟩
    · simp only [hh, Node_getChild_eq cur i hi] at h
      have hdir : cur.isFile = false := by
        cases hf : cur.isFile with
        | false => rfl
        | true =>
          have := hval.leaf hf
          rw [this] at hi
          simp at hi
      by_cases hn : n = 0
      · subst hn
        simp only [if_true] at h
        split at h
        · rename_i hks
          simp at h
          exact absurd h.1 hks
        · simp at h
          obtain ⟨h2, _⟩ := h
          have hv' : Node.Valid v cur' := by
            rw [← h2]
            apply hval.withChildren
            · exact childrenOK_sublist v _ _ (List.eraseIdx_sublist _ _) hval.parts.2.1
            · intro c hc
              exact hval.parts.2.2 c (List.mem_of_mem_eraseIdx hc)
            · exact hdir
          refine ⟨hv', by rw [← h2, Node_name_setChildren], ?_⟩
          intro Q hQi hQl hQc
          have e : Q.comps.length - level = (Q.comps.length - (level + 1)) + 1 := by omega
          rw [e]
          apply findFrom_absent v Q hQi _ level cur' (by omega) hv'
          intro c hc
          rw [← h2, Node_children_setChildren] at hc
          rw [Path_name_of_take_eq p Q _ (level + 1) (by omega) hQc, ← hqn, ← hname]
          exact name_ne_of_mem_eraseIdx _ (childrenOK_distinct v _ hval.parts.2.1) i hi c hc
      · simp only [hn, if_false] at h
        split at h
        · rename_i oNChild ulRemoved hrec
          simp at h
          obtain ⟨h2, _⟩ := h
          obtain ⟨cv, cn, cp⟩ := ih (level + 1) cur.children[i] oNChild ulRemoved (by omega)
            (by omega) (hval.parts.2.2 _ (List.getElem_mem hi)) hrec
          have hv' : Node.Valid v cur' := by
            rw [← h2]
            apply hval.withChildren
            · exact childrenOK_congr v _ _ (map_name_set _ i hi _ cn).symm hval.parts.2.1
            · intro c hc
              rcases List.mem_or_eq_of_mem_set hc with hc | hc
              · exact hval.parts.2.2 c hc
              · rw [hc]; exact cv
            · exact hdir
          have hch : cur'.children = cur.children.set i oNChild := by
            rw [← h2, Node_children_setChildren]
          refine ⟨hv', by rw [← h2, Node_name_setChildren], ?_⟩
          intro Q hQi hQl hQc
          have e : Q.comps.length - level = (Q.comps.length - (level + 1)) + 1 := by omega
          rw [e]
          have hi' : i < cur'.children.length := by rw [hch]; simpa using hi
          have hget : cur'.children[i] = oNChild := by
            simp only [hch, List.getElem_set_self]
          rw [findFrom_step v Q hQi _ level cur' (by omega) hv' i hi'
            (by rw [hget, cn, hname, hqn, Path_name_of_take_eq p Q _ (level + 1) (by omega) hQc]),
            hget]
          exact cp Q hQi hQl hQc
        · rename_i hne heq
          simp at h
          exact absurd h.1 hne
        · simp at h
    · simp [hh] at h

theorem splitRef_intercalate (cs : List (List Char)) (hne : cs ≠ [])
    (h : ∀ c, c ∈ cs → SLASH ∉ c) : splitRef ([SLASH].intercalate cs) = cs := by
  induction cs with
  | nil => exact absurd rfl hne
  | cons c rest ih =>
    cases rest with
    | nil =>
      rw [intercalate_singleton]
      exact splitRef_tok_end c (h c (by simp))
    | cons b l =>
      rw [intercalate_cons_cons]
      have : c ++ [SLASH] ++ [SLASH].intercalate (b :: l) =
          c ++ SLASH :: [SLASH].intercalate (b :: l) := by simp
      rw [this, splitRef_tok c _ (h c (by simp)), ih (by simp)
        (fun x hx => h x (List.mem_cons_of_mem _ hx))]

theorem Path.Inv.splitRef_eq {p : Path} (h : p.Inv) : splitRef p.pcPath = p.comps := by
  rw [h.2.2.2.2.1]
  exact splitRef_intercalate _ h.2.2.1 (fun c hc => (h.2.2.2.1 c hc).2.1)

theorem Path_new_of_Inv (q : Path) (h : q.Inv) :
    ∃ Q, Path_new q.pcPath = some (SUCCESS, some Q) ∧ Q.Inv ∧ Q.comps = q.comps ∧
      Q.pcPath = q.pcPath := by
  have hnb : ¬ badPath q.pcPath := by
    rw [← nil_mem_splitRef_iff, h.splitRef_eq]
    intro hm
    exact (h.2.2.2.1 [] hm).1 rfl
  obtain ⟨Q, h1, h2, h3, h4⟩ := (Path_new_spec q.pcPath h.pathCStr).2 hnb
  exact ⟨Q, h1, h2, by rw [h3, h.splitRef_eq], h4⟩

theorem comparePath_root (r : Node) (q : Path) (hr : CStr r.name) (hq : CStr q.pcPath) :
    Path_comparePath (Node_getPath r) q = 0 ↔ r.name = q.pcPath :=
  (comparePath_sign r q hr hq).2.1

theorem Tree_insert_spec (v : Variant) (t : Tree) (s : List Char) (pl : Option Payload)
    (t' : Tree) (hs : CStr s) (hv : Tree.Valid v t)
    (h : Tree_insert v t s pl = some (SUCCESS, t')) :
    t.bIsInitialized = true ∧ t'.bIsInitialized = true ∧ Tree.Valid v t' ∧
    ∃ p, Path_new s = some (SUCCESS, some p) ∧ p.Inv ∧
      ∃ r', t'.oNRoot = some r' ∧ r'.name = p.name 1 ∧ Node.Valid v r' ∧
        ∀ j Q, 1 ≤ j → j ≤ p.comps.length → Q.Inv → Q.comps = p.comps.take j →
          Present v Q (j - 1) 1 r' (decide (j = p.comps.length) && pl.isSome) := by
  unfold Tree_insert at h
  by_cases hinit : t.bIsInitialized = true
  · simp only [hinit, Bool.not_true, Bool.false_eq_true, if_false] at h
    rcases Path_new_total s hs with hbad | ⟨p, hp⟩
    · simp [hbad] at h
    · obtain ⟨_, hpi, _, _⟩ := Path_new_success s hs p hp
      have hdep := Path_depth_eq p hpi
      have hpos : 0 < p.comps.length := List.length_pos.mpr hpi.2.2.1
      simp only [hp] at h
      cases hroot : t.oNRoot with
      | none =>
        simp only [hroot] at h
        split at h
        · simp at h
        · split at h
          · rename_i oNNew ulSlot hbuild
            simp at h
            subst h
            obtain ⟨bv, bn, _, bp⟩ := buildRest_spec v p hpi pl (Path_getDepth p - 1) 1 none
              oNNew ulSlot (by omega) (le_refl _) hbuild
            refine ⟨hinit, rfl, ?_, p, hp, hpi, oNNew, rfl, bn, bv, bp⟩
            intro r hr
            simp at hr
            subst hr
            exact bv
          · rename_i hne heq
            simp at h
            obtain ⟨hst, _⟩ := h
            subst hst
            obtain ⟨nd, hnd⟩ := buildRest_success_some v p hpi pl _ 1 none _ _ (by omega)
              (le_refl _) heq
            exact (hne nd rfl hnd).elim
          · simp at h
      | some r =>
        have hrv := hv r hroot
        obtain ⟨q1, hq1, hq1i, _, hq1n⟩ := Path_prefix_name p hpi 1 (le_refl _) (by omega)
        simp only [hroot, hq1] at h
        split at h
        · simp at h
        · rename_i hcmp
          have hname : r.name = q1.pcPath :=
            (comparePath_root r q1 hrv.nameCStr hq1i.pathCStr).mp (by simpa using hcmp)
          split at h
          · rename_i oNRoot ulNewNodes hins
            simp at h
            subst h
            obtain ⟨iv, iname, ip⟩ := insertFrom_spec v p hpi pl (Path_getDepth p - 1) 1 r
              oNRoot ulNewNodes (by omega) (le_refl _) hrv hins
            refine ⟨hinit, rfl, ?_, p, hp, hpi, oNRoot, rfl, ?_, iv, ip⟩
            · intro r2 hr2
              simp at hr2
              subst hr2
              exact iv
            · rw [iname, hname, hq1n]
          · rename_i hne heq
            simp at h
            exact absurd h.1 hne
          · simp at h
  · simp [hinit] at h

theorem Tree_insert_fail (v : Variant) (t : Tree) (s : List Char) (pl : Option Payload)
    (st : Status) (t' : Tree) (h : Tree_insert v t s pl = some (st, t'))
    (hne : st ≠ SUCCESS) : t' = t := by
  unfold Tree_insert at h
  repeat' split at h
  all_goals simp at h
  all_goals first
    | exact h.2.symm
    | exact absurd h.1.symm hne

theorem Tree_rm_fail (v : Variant) (t : Tree) (s : List Char) (k : Option Bool)
    (st : Status) (t' : Tree) (h : Tree_rm v t s k = some (st, t'))
    (hne : st ≠ SUCCESS) : t' = t := by
  unfold Tree_rm at h
  repeat' split at h
  all_goals simp at h
  all_goals first
    | exact h.2.symm
    | exact absurd h.1.symm hne

theorem Tree_findNode_root (v : Variant) (t : Tree) (r : Node) (Q : Path) (hr : t.oNRoot = some r)
    (hrv : Node.Valid v r) (hQ : Q.Inv) (hname : r.name = Q.name 1) :
    Tree_findNode v t Q = Tree_findFrom v Q (Q.comps.length - 1) 1 r := by
  have hpos : 0 < Q.comps.length := List.length_pos.mpr hQ.2.2.1
  obtain ⟨q1, hq1, hq1i, _, hq1n⟩ := Path_prefix_name Q hQ 1 (le_refl _) (by omega)
  have hcmp : Path_comparePath (Node_getPath r) q1 = 0 :=
    (comparePath_root r q1 hrv.nameCStr hq1i.pathCStr).mpr (by rw [hname, hq1n])
  simp only [Tree_findNode, hr, hq1, hcmp, Path_depth_eq Q hQ]
  simp

theorem Tree_rm_spec (v : Variant) (t : Tree) (s : List Char) (k : Option Bool)
    (t' : Tree) (hs : CStr s) (hv : Tree.Valid v t)
    (h : Tree_rm v t s k = some (SUCCESS, t')) :
    t.bIsInitialized = true ∧ t'.bIsInitialized = true ∧ Tree.Valid v t' ∧
    ∃ p, Path_new s = some (SUCCESS, some p) ∧ p.Inv ∧
      ∀ Q : Path, Q.Inv → p.comps.length ≤ Q.comps.length →
        Q.comps.take p.comps.length = p.comps →
        Tree_findNode v t' Q = some (NO_SUCH_PATH, none) := by
  unfold Tree_rm at h
  by_cases hinit : t.bIsInitialized = true
  · simp only [hinit, Bool.not_true, Bool.false_eq_true, if_false] at h
    rcases Path_new_total s hs with hbad | ⟨p, hp⟩
    · simp [hbad] at h
    · obtain ⟨_, hpi, _, _⟩ := Path_new_success s hs p hp
      have hdep := Path_depth_eq p hpi
      have hpos : 0 < p.comps.length := List.length_pos.mpr hpi.2.2.1
      simp only [hp] at h
      cases hroot : t.oNRoot with
      | none => simp [hroot] at h
      | some r =>
        have hrv := hv r hroot
        obtain ⟨q1, hq1, hq1i, _, hq1n⟩ := Path_prefix_name p hpi 1 (le_refl _) (by omega)
        simp only [hroot, hq1] at h
        split at h
        · simp at h
        · rename_i hcmp
          have hname : r.name = q1.pcPath :=
            (comparePath_root r q1 hrv.nameCStr hq1i.pathCStr).mp (by simpa using hcmp)
          split at h
          · split at h
            · rename_i hks
              simp at h
              exact absurd h.1 hks
            · simp at h
              subst h
              refine ⟨hinit, rfl, ?_, p, hp, hpi, ?_⟩
              · intro r2 hr2; simp at hr2
              · intro Q _ _ _
                simp [Tree_findNode]
          · rename_i hd1
            split at h
            · rename_i oNRoot ulRemoved hrm
              simp at h
              subst h
              obtain ⟨rv, rname, rp⟩ := rmFrom_spec v p hpi k (Path_getDepth p - 1) 1 r
                oNRoot ulRemoved (by omega) (le_refl _) hrv hrm
              refine ⟨hinit, rfl, ?_, p, hp, hpi, ?_⟩
              · intro r2 hr2
                simp at hr2
                subst hr2
                exact rv
              · intro Q hQi hQl hQc
                rw [Tree_findNode_root v _ oNRoot Q rfl rv hQi
                  (by rw [rname, hname, hq1n,
                    Path_name_of_take_eq p Q _ 1 (by omega) hQc])]
                exact rp Q hQi hQl hQc
            · rename_i hne heq
              simp at h
              exact absurd h.1 hne
            · simp at h
  · simp [hinit] at h

theorem Reachable.valid {v : Variant} {t : Tree} (h : Reachable v t) : Tree.Valid v t := by
  induction h with
  | start => intro r hr; simp [Tree.uninitialized] at hr
  | init t _ ih =>
    intro r hr
    simp only [Tree_init] at hr
    split at hr
    · exact ih r hr
    · simp at hr
  | destroy t _ ih =>
    intro r hr
    simp only [Tree_destroy] at hr
    split at hr
    · exact ih r hr
    · simp at hr
  | insert t s pl st t' _ hs hins ih =>
    by_cases hst : st = SUCCESS
    · subst hst
      exact (Tree_insert_spec v t s pl t' hs ih hins).2.2.1
    · rw [Tree_insert_fail v t s pl st t' hins hst]
      exact ih
  | rm t s k st t' _ hs hrm ih =>
    by_cases hst : st = SUCCESS
    · subst hst
      exact (Tree_rm_spec v t s k t' hs ih hrm).2.2.1
    · rw [Tree_rm_fail v t s k st t' hrm hst]
      exact ih

theorem Tree_contains_of_find (v : Variant) (t : Tree) (q Q : Path)
    (hinit : t.bIsInitialized = true)
    (hQ : Path_new q.pcPath = some (SUCCESS, some Q)) (node : Node)
    (hf : Tree_findNode v t Q = some (SUCCESS, some node)) (k : Option Bool)
    (hk : ∀ b, k = some b → node.isFile = b) :
    Tree_contains v t (Path_getPathname q) k = some true := by
  simp only [Tree_contains, hinit, Path_getPathname, hQ, hf]
  cases k with
  | none => simp
  | some b => simp [hk b rfl]

theorem exampleEmpty_reachable (v : Variant) : Reachable v exampleEmpty :=
  Reachable.init Tree.uninitialized Reachable.start

theorem exampleAB_insert (v : Variant) :
    Tree_insert v exampleEmpty "a/b".toList none = some (SUCCESS, exampleAB) := by
  cases v <;> rfl

theorem exampleAB_reachable (v : Variant) : Reachable v exampleAB :=
  Reachable.insert exampleEmpty "a/b".toList none SUCCESS exampleAB (exampleEmpty_reachable v)
    (by decide) (exampleAB_insert v)

theorem exampleEmpty_rm (v : Variant) :
    Tree_rm v exampleAB "a".toList none = some (SUCCESS, exampleEmpty) := by
  cases v <;> rfl

theorem findFrom_insertFrom (v : Variant) (Q : Path) (hQ : Q.Inv) :
    ∀ (n level : Nat) (cur node : Node),
      level + n = Q.comps.length → 1 ≤ level → Node.Valid v cur →
      Tree_findFrom v Q n level cur = some (SUCCESS, some node) →
      ∀ pl, Tree_insertFrom v Q pl n level cur = some (ALREADY_IN_TREE, cur, 0) := by
  intro n
  induction n with
  | zero => intro level cur node _ _ _ _ pl; rfl
  | succ n ih =>
    intro level cur node hlev h1 hval h pl
    obtain ⟨q, hq, hqi, _, hqn⟩ := Path_prefix_name Q hQ (level + 1) (by omega) (by omega)
    rcases Node_hasChild_cases v cur q hval.parts.2.1
        (fun c hc => (hval.parts.2.2 c hc).nameCStr) hqi.pathCStr with
      ⟨i, hi, hh, hname⟩ | ⟨slot, hh, _, _, _⟩
    · have hdir : cur.isFile = false := by
        cases hf : cur.isFile with
        | false => rfl
        | true =>
          have := hval.leaf hf
          rw [this] at hi
          simp at hi
      rw [Tree_findFrom] at h
      simp only [hq, hh, Node_getChild_eq cur i hi] at h
      have := ih (level + 1) cur.children[i] node (by omega) (by omega)
        (hval.parts.2.2 _ (List.getElem_mem hi)) h pl
      rw [Tree_insertFrom]
      simp only [hdir, hq, hh, Node_getChild_eq cur i hi, this]
      simp
    · rw [Tree_findFrom] at h
      simp [hq, hh] at h

theorem Tree_insert_of_contains (v : Variant) (t : Tree) (hv : Tree.Valid v t)
    (s : List Char) (hs : CStr s) (h : Tree_contains v t s none = some true)
    (pl : Option Payload) : Tree_insert v t s pl = some (ALREADY_IN_TREE, t) := by
  unfold Tree_contains at h
  by_cases hinit : t.bIsInitialized = true
  · simp only [hinit, Bool.not_true, Bool.false_eq_true, if_false] at h
    rcases Path_new_total s hs with hbad | ⟨Q, hQ⟩
    · simp [hbad] at h
    · obtain ⟨_, hQi, _, _⟩ := Path_new_success s hs Q hQ
      have hpos : 0 < Q.comps.length := List.length_pos.mpr hQi.2.2.1
      simp only [hQ] at h
      cases hroot : t.oNRoot with
      | none => simp [Tree_findNode, hroot] at h
      | some r =>
        have hrv := hv r hroot
        obtain ⟨q1, hq1, hq1i, _, hq1n⟩ := Path_prefix_name Q hQi 1 (le_refl _) (by omega)
        by_cases hcmp : Path_comparePath (Node_getPath r) q1 = 0
        · have hfn : Tree_findNode v t Q =
              Tree_findFrom v Q (Path_getDepth Q - 1) 1 r := by
            simp [Tree_findNode, hroot, hq1, hcmp]
          rw [hfn] at h
          cases hff : Tree_findFrom v Q (Path_getDepth Q - 1) 1 r with
          | none => simp [hff] at h
          | some res =>
            obtain ⟨st, onode⟩ := res
            cases onode with
            | none =>
              rw [hff] at h
              cases st <;> simp at h
            | some node =>
              rw [hff] at h
              cases st <;> simp at h
              have hdep := Path_depth_eq Q hQi
              have := findFrom_insertFrom v Q hQi (Path_getDepth Q - 1) 1 r node (by omega)
                (le_refl _) hrv hff pl
              simp only [Tree_insert, hinit, hQ, hroot, hq1, hcmp, this]
              simp
        · simp [Tree_findNode, hroot, hq1, hcmp] at h
  · simp [hinit] at h

theorem splitRef_length (s : List Char) : (splitRef s).length = s.count SLASH + 1 := by
  induction s with
  | nil => rfl
  | cons c cs ih =>
    unfold splitRef
    by_cases hc : c = SLASH
    · subst hc
      simp [ih]
    · simp only [hc, if_false]
      have hne := splitRef_ne_nil cs
      cases hsp : splitRef cs with
      | nil => exact absurd hsp hne
      | cons t ts =>
        rw [hsp] at ih
        have : ¬ (c == SLASH) = true := by simpa using hc
        simp [List.count_cons, this] at ih ⊢
        omega

theorem Path.Inv.depth_pos {p : Path} (h : p.Inv) : 1 ≤ Path_getDepth p := by
  rw [Path_depth_eq p h]
  have := h.2.2.1
  cases hc : p.comps with
  | nil => exact absurd hc this
  | cons a l => simp

theorem CompareConsistent.signMono {α : Type} [Inhabited α] {cmp : α → α → Int}
    (hc : CompareConsistent cmp) {a : DynArray α} (hs : a.SortedBy cmp) (e : α) :
    (∀ i j, i ≤ j → j < a.uLength →
      0 < cmp (a.ppvArray.getD i default) e → 0 < cmp (a.ppvArray.getD j default) e) ∧
    (∀ i j, i ≤ j → j < a.uLength →
      cmp (a.ppvArray.getD j default) e < 0 → cmp (a.ppvArray.getD i default) e < 0) := by
  constructor
  · intro i j hij hj hpos
    by_contra hneg
    have h1 := hs i j hij hj
    have := hc.2 _ _ _ h1 (not_lt.mp hneg)
    simp only [DynArray_get] at this
    omega
  · intro i j hij hj hneg
    by_contra hpos
    have h1 := hs i j hij hj
    simp only [DynArray_get] at h1
    have h2 : cmp e (a.ppvArray.getD i default) ≤ 0 := by
      by_contra h
      have := (hc.1 _ _).mpr (not_le.mp h)
      omega
    have h3 := hc.2 _ _ _ h2 h1
    have h4 := (hc.1 _ _).mp hneg
    omega

theorem exampleCompare_consistent : CompareConsistent exampleCompare := by
  constructor
  · intro x y; simp only [exampleCompare]; omega
  · intro x y z; simp only [exampleCompare]; omega

theorem exampleArray_sorted : exampleArray.SortedBy exampleCompare := by
  intro i j hij hj
  have hj3 : j < 3 := hj
  interval_cases j <;> interval_cases i <;> decide

theorem walk_under_file (v : Variant) (p Q : Path) (hp : p.Inv) (hQ : Q.Inv) (d m : Nat)
    (hQc : Q.comps = p.comps.take d) (hd : d + (m + 1) = p.comps.length) :
    ∀ (n level : Nat) (cur node : Node),
      level + n = d → 1 ≤ level → Node.Valid v cur →
      Tree_findFrom v Q n level cur = some (SUCCESS, some node) → node.isFile = true →
      (∀ pl, Tree_insertFrom v p pl (n + (m + 1)) level cur = some (NOT_A_DIRECTORY, cur, 0)) ∧
      Tree_findFrom v p (n + (m + 1)) level cur = some (NO_SUCH_PATH, none) := by
  have hQlen : Q.comps.length = d := by rw [hQc, List.length_take]; omega
  intro n
  induction n with
  | zero =>
    intro level cur node hlev h1 hval h hfile
    simp only [Tree_findFrom, Option.some.injEq, Prod.mk.injEq, true_and] at h
    subst h
    constructor
    · intro pl
      rw [Nat.zero_add, Tree_insertFrom]
      simp [hfile]
    · rw [Nat.zero_add]
      apply findFrom_absent v p hp m level cur (by omega) hval
      intro c hc
      rw [hval.leaf hfile] at hc
      simp at hc
  | succ n ih =>
    intro level cur node hlev h1 hval h hfile
    obtain ⟨q, hq, hqi, _, hqn⟩ := Path_prefix_name Q hQ (level + 1) (by omega) (by omega)
    obtain ⟨q', hq', hqi', _, hqn'⟩ := Path_prefix_name p hp (level + 1) (by omega) (by omega)
    have hnames : Q.name (level + 1) = p.name (level + 1) :=
      Path_name_take p d (level + 1) (by omega) Q hQc
    have hstep : n + 1 + (m + 1) = (n + (m + 1)) + 1 := by omega
    rcases Node_hasChild_cases v cur q hval.parts.2.1
        (fun c hc => (hval.parts.2.2 c hc).nameCStr) hqi.pathCStr with
      ⟨i, hi, hh, hname⟩ | ⟨slot, hh, _, _, _⟩
    · rw [Tree_findFrom] at h
      simp only [hq, hh, Node_getChild_eq cur i hi] at h
      obtain ⟨ih1, ih2⟩ := ih (level + 1) cur.children[i] node (by omega) (by omega)
        (hval.parts.2.2 _ (List.getElem_mem hi)) h hfile
      have hname' : cur.children[i].name = p.name (level + 1) := by
        rw [hname, hqn, hnames]
      have hh' := Node_hasChild_found v cur q' hval.parts.2.1
        (fun c hc => (hval.parts.2.2 c hc).nameCStr) hqi'.pathCStr i hi (by rw [hname', hqn'])
      constructor
      · intro pl
        rw [hstep, Tree_insertFrom]
        cases hf : cur.isFile with
        | true => simp
        | false =>
          simp only [hq', hh', Node_getChild_eq cur i hi, ih1 pl]
          simp
      · rw [hstep, findFrom_step v p hp _ level cur (by omega) hval i hi hname']
        exact ih2
    · rw [Tree_findFrom] at h
      simp [hq, hh] at h

theorem Tree_insert_under_file (v : Variant) (t : Tree) (hv : Tree.Valid v t)
    (s : List Char) (hs : CStr s) (p : Path) (hp : Path_new s = some (SUCCESS, some p))
    (d : Nat) (hd : d < Path_getDepth p) (q : Path)
    (hq : Path_prefix p d = some (SUCCESS, some q))
    (hfile : Tree_contains v t (Path_getPathname q) (some true) = some true) :
    (∀ pl, Tree_insert v t s pl = some (NOT_A_DIRECTORY, t)) ∧
    ∀ k, Tree_contains v t s k = some false := by
  obtain ⟨_, hpi, _, _⟩ := Path_new_success s hs p hp
  obtain ⟨hd1, _, hqi, hqc⟩ := Path_prefix_success p hpi d q hq
  obtain ⟨Q, hQ, hQi, hQc, hQp⟩ := Path_new_of_Inv q hqi
  have hdep := Path_depth_eq p hpi
  have hQc' : Q.comps = p.comps.take d := by rw [hQc, hqc]
  have hQlen : Q.comps.length = d := by rw [hQc', List.length_take]; omega
  have hQdep := Path_depth_eq Q hQi
  unfold Tree_contains at hfile
  by_cases hinit : t.bIsInitialized = true
  · simp only [hinit, Bool.not_true, Bool.false_eq_true, if_false, Path_getPathname, hQ] at hfile
    cases hroot : t.oNRoot with
    | none => simp [Tree_findNode, hroot] at hfile
    | some r =>
      have hrv := hv r hroot
      obtain ⟨q1, hq1, hq1i, _, hq1n⟩ := Path_prefix_name Q hQi 1 (le_refl _) (by omega)
      obtain ⟨p1, hp1, hp1i, _, hp1n⟩ := Path_prefix_name p hpi 1 (le_refl _) (by omega)
      have hn1 : Q.name 1 = p.name 1 := Path_name_take p d 1 hd1 Q hQc'
      by_cases hcmp : Path_comparePath (Node_getPath r) q1 = 0
      · have hcmp' : Path_comparePath (Node_getPath r) p1 = 0 := by
          simp only [Path_comparePath] at hcmp ⊢
          rw [hp1n, ← hn1, ← hq1n]; exact hcmp
        have hfn : Tree_findNode v t Q = Tree_findFrom v Q (Path_getDepth Q - 1) 1 r := by
          simp [Tree_findNode, hroot, hq1, hcmp]
        rw [hfn] at hfile
        cases hff : Tree_findFrom v Q (Path_getDepth Q - 1) 1 r with
        | none => simp [hff] at hfile
        | some res =>
          obtain ⟨st, onode⟩ := res
          cases onode with
          | none =>
            rw [hff] at hfile
            cases st <;> simp at hfile
          | some node =>
            rw [hff] at hfile
            cases st <;> simp at hfile
            obtain ⟨m, hm⟩ : ∃ m, d + (m + 1) = p.comps.length :=
              ⟨p.comps.length - d - 1, by omega⟩
            obtain ⟨w1, w2⟩ := walk_under_file v p Q hpi hQi d m hQc' hm
              (Path_getDepth Q - 1) 1 r node (by omega) (le_refl _) hrv hff hfile
            have hcnt : Path_getDepth p - 1 = Path_getDepth Q - 1 + (m + 1) := by omega
            constructor
            · intro pl
              simp only [Tree_insert, hinit, hp, hroot, hp1, hcmp', hcnt, w1 pl]
              simp
            · intro k
              have hfn' : Tree_findNode v t p = some (NO_SUCH_PATH, none) := by
                simp [Tree_findNode, hroot, hp1, hcmp', hcnt, w2]
              simp [Tree_contains, hinit, hp, hfn']
      · simp [Tree_findNode, hroot, hq1, hcmp] at hfile
  · simp [hinit] at hfile

theorem linesOf_append (a b : List Node) : linesOf (a ++ b) = linesOf a ++ linesOf b := by
  induction a with
  | nil => rfl
  | cons x a ih => simp [linesOf, ih]

theorem Node_free_le_freeList (cs : List Node) : ∀ c, c ∈ cs → Node_free c ≤ Node_freeList cs := by
  induction cs with
  | nil => intro c hc; simp at hc
  | cons a l ih =>
    intro c hc
    rw [Node_freeList]
    rcases List.mem_cons.mp hc with h | h
    · subst h; omega
    · have := ih c h; omega

theorem Node.induct (P : Node → Prop)
    (h : ∀ p f pl cs, (∀ c, c ∈ cs → P c) → P (Node.mk p f pl cs)) : ∀ n, P n := by
  have aux : ∀ k n, Node_free n ≤ k → P n := by
    intro k
    induction k with
    | zero =>
      intro n hn
      cases n with
      | mk p f pl cs => rw [Node_free] at hn; omega
    | succ k ih =>
      intro n hn
      cases n with
      | mk p f pl cs =>
        rw [Node_free] at hn
        apply h
        intro c hc
        have := Node_free_le_freeList cs c hc
        exact ih c (by omega)
  intro n
  exact aux (Node_free n) n (le_refl _)

theorem preorder_eq (n : Node) : n.preorder = n :: Node.preorderList n.children := by
  cases n with
  | mk p f pl cs => rw [Node.preorder]; rfl

theorem preorderList_cons (c : Node) (rest : List Node) :
    Node.preorderList (c :: rest) = c.preorder ++ Node.preorderList rest := by
  rw [Node.preorderList]

theorem preorderList_append (a b : List Node) :
    Node.preorderList (a ++ b) = Node.preorderList a ++ Node.preorderList b := by
  induction a with
  | nil => simp [Node.preorderList]
  | cons x a ih => simp [preorderList_cons, ih]

theorem dumpList_cons (v : Variant) (c : Node) (rest : List Node) :
    Tree_dumpList v false false (c :: rest) =
      Tree_dump v c ++ Tree_dumpList v false false rest := by
  cases c with
  | mk p f pl cs => rw [Tree_dumpList]; simp

theorem dumpList_append (v : Variant) (a b : List Node) :
    Tree_dumpList v false false (a ++ b) =
      Tree_dumpList v false false a ++ Tree_dumpList v false false b := by
  induction a with
  | nil => simp [Tree_dumpList]
  | cons x a ih => simp [dumpList_cons, ih]

theorem dump_eq (v : Variant) (hv : v ≠ Variant.FT) (n : Node) :
    Tree_dump v n = Node_toString n ++ '\n' :: Tree_dumpList v false false n.children := by
  cases n with
  | mk p f pl cs =>
    rw [Tree_dump]
    simp [hv, Node_toString, Node_getPath, Node.children]

theorem dump_preorder (v : Variant) (hv : v ≠ Variant.FT) :
    ∀ n : Node, Tree_dump v n = linesOf n.preorder := by
  apply Node.induct
  intro p f pl cs ih
  rw [dump_eq v hv, preorder_eq, linesOf]
  congr 2
  simp only [Node.children]
  induction cs with
  | nil => simp [Tree_dumpList, Node.preorderList, linesOf]
  | cons c rest ihl =>
    rw [dumpList_cons, preorderList_cons, linesOf_append, ih c (List.mem_cons_self _ _),
      ihl (fun c hc => ih c (List.mem_cons_of_mem _ hc))]

theorem mem_preorderList {n : Node} {cs : List Node} (h : n ∈ Node.preorderList cs) :
    ∃ c, c ∈ cs ∧ n ∈ c.preorder := by
  induction cs with
  | nil => simp [Node.preorderList] at h
  | cons c rest ih =>
    rw [preorderList_cons, List.mem_append] at h
    rcases h with h | h
    · exact ⟨c, List.mem_cons_self _ _, h⟩
    · obtain ⟨c', hc', hn⟩ := ih h
      exact ⟨c', List.mem_cons_of_mem _ hc', hn⟩

theorem mem_preorder_self (n : Node) : n ∈ n.preorder := by
  rw [preorder_eq]; exact List.mem_cons_self _ _

theorem mem_preorder_of_child {n c m : Node} (hc : c ∈ n.children) (hm : m ∈ c.preorder) :
    m ∈ n.preorder := by
  rw [preorder_eq]
  apply List.mem_cons_of_mem
  obtain ⟨a, b, hab⟩ := List.append_of_mem hc
  rw [hab, preorderList_append, preorderList_cons]
  simp [hm]

theorem Node.Valid.ofPreorder {v : Variant} : ∀ r : Node, Node.Valid v r →
    ∀ n, n ∈ r.preorder → Node.Valid v n := by
  apply Node.induct
  intro p f pl cs ih hval n hn
  rw [preorder_eq] at hn
  rcases List.mem_cons.mp hn with h | h
  · subst h; exact hval
  · obtain ⟨c, hc, hnc⟩ := mem_preorderList h
    exact ih c hc (hval.parts.2.2 c hc) n hnc

theorem Node_hasChild_BDT_slot (node : Node) (q : Path) (slot : Nat)
    (h : Node_hasChild Variant.BDT node q = some (false, slot))
    (hlen : node.children.length ≤ 2) : slot = node.children.length := by
  unfold Node_hasChild at h
  simp only at h
  cases hc : node.children with
  | nil =>
    rw [hc] at h
    simp at h
    simp [h]
  | cons a l =>
    cases l with
    | nil =>
      rw [hc] at h
      simp only at h
      split at h <;> simp at h
      simp [h]
    | cons b l2 =>
      rw [hc] at h hlen
      simp only at h
      split at h
      · simp at h
      · split at h <;> simp at h
        simp at hlen
        subst hlen
        simp [h]

theorem insertFrom_inv (v : Variant) (p : Path) (hp : p.Inv) (pl : Option Payload)
    (n level : Nat) (cur cur' : Node) (cnt : Nat)
    (hlev : level + (n + 1) = p.comps.length) (h1 : 1 ≤ level) (hval : Node.Valid v cur)
    (h : Tree_insertFrom v p pl (n + 1) level cur = some (SUCCESS, cur', cnt)) :
    cur.isFile = false ∧
    ((∃ (i : Nat) (hi : i < cur.children.length) (c' : Node) (cnt' : Nat),
        cur.children[i].name = p.name (level + 1) ∧
        Tree_insertFrom v p pl n (level + 1) cur.children[i] = some (SUCCESS, c', cnt') ∧
        cur' = cur.setChildren (cur.children.set i c')) ∨
     (∃ (slot : Nat) (N : Node),
        (∀ c, c ∈ cur.children → c.name ≠ p.name (level + 1)) ∧
        slot ≤ cur.children.length ∧
        (v = Variant.BDT → slot = cur.children.length) ∧
        Tree_buildRest v p pl n (level + 1) (some cur) = some (SUCCESS, some N, slot) ∧
        N.name = p.name (level + 1) ∧
        cur' = cur.setChildren (cur.children.take slot ++ N :: cur.children.drop slot))) := by
  obtain ⟨q, hq, hqi, hqc, hqn⟩ := Path_prefix_name p hp (level + 1) (by omega) (by omega)
  rw [Tree_insertFrom] at h
  by_cases hfile : cur.isFile = true
  · simp [hfile] at h
  · have hdir : cur.isFile = false := by simpa using hfile
    refine ⟨hdir, ?_⟩
    simp only [hdir, hq, Bool.false_eq_true, if_false] at h
    rcases Node_hasChild_cases v cur q hval.parts.2.1
        (fun c hc => (hval.parts.2.2 c hc).nameCStr) hqi.pathCStr with
      ⟨i, hi, hh, hname⟩ | ⟨slot, hh, hslot, habs, hins⟩
    · left
      simp only [hh, Node_getChild_eq cur i hi] at h
      split at h
      · rename_i oNChild ulNewNodes hrec
        simp at h
        exact ⟨i, hi, oNChild, ulNewNodes, by rw [hname, hqn], hrec, h.1.symm⟩
      · rename_i hne heq
        simp at h
        exact absurd h.1 hne
      · simp at h
    · right
      simp only [hh] at h
      split at h
      · simp at h
      · rename_i harity
        split at h
        · rename_i oNNew ulSlot hbuild
          simp at h
          obtain ⟨h2, _⟩ := h
          obtain ⟨bv, bn, bs, bp⟩ := buildRest_spec v p hp pl n (level + 1) (some cur)
            oNNew ulSlot (by omega) (by omega) hbuild
          have hs := bs cur q rfl hq
          rw [hh] at hs
          simp at hs
          subst hs
          refine ⟨slot, oNNew, ?_, hslot, ?_, hbuild, bn, h2.symm⟩
          · intro c hc; rw [← hqn]; exact habs c hc
          · intro hv
            subst hv
            have hlen : cur.children.length ≤ 2 := hval.parts.2.1.1
            exact Node_hasChild_BDT_slot cur q slot hh hlen
        · rename_i hne heq
          simp at h
          obtain ⟨hs, _⟩ := h
          subst hs
          obtain ⟨nd, hnd⟩ := buildRest_success_some v p hp pl n (level + 1) (some cur) _ _
            (by omega) (by omega) heq
          exact (hne nd rfl hnd).elim
        · simp at h

theorem rmFrom_inv (v : Variant) (p : Path) (hp : p.Inv) (k : Option Bool)
    (n level : Nat) (cur cur' : Node) (cnt : Nat)
    (hlev : level + (n + 1) = p.comps.length) (h1 : 1 ≤ level) (hval : Node.Valid v cur)
    (h : Tree_rmFrom v p k (n + 1) level cur = some (SUCCESS, cur', cnt)) :
    ∃ (i : Nat) (hi : i < cur.children.length),
      cur.children[i].name = p.name (level + 1) ∧
      ((n = 0 ∧ Tree_kindStatus cur.children[i] k = SUCCESS ∧
          cur' = cur.setChildren (cur.children.eraseIdx i)) ∨
       (n ≠ 0 ∧ ∃ (c' : Node) (cnt' : Nat),
          Tree_rmFrom v p k n (level + 1) cur.children[i] = some (SUCCESS, c', cnt') ∧
          cur' = cur.setChildren (cur.children.set i c'))) := by
  obtain ⟨q, hq, hqi, hqc, hqn⟩ := Path_prefix_name p hp (level + 1) (by omega) (by omega)
  rw [Tree_rmFrom] at h
  simp only [hq] at h
  rcases Node_hasChild_cases v cur q hval.parts.2.1
      (fun c hc => (hval.parts.2.2 c hc).nameCStr) hqi.pathCStr with
    ⟨i, hi, hh, hname⟩ | ⟨slot, hh, hslot, habs, hins⟩
  · simp only [hh, Node_getChild_eq cur i hi] at h
    refine ⟨i, hi, by rw [hname, hqn], ?_⟩
    by_cases hn : n = 0
    · left
      subst hn
      simp only [if_true] at h
      split at h
      · rename_i hks
        simp at h
        exact absurd h.1 hks
      · rename_i hks
        simp at h
        exact ⟨rfl, by simpa using hks, h.1.symm⟩
    · right
      simp only [hn, if_false] at h
      split at h
      · rename_i oNChild ulRemoved hrec
        simp at h
        exact ⟨hn, oNChild, ulRemoved, hrec, h.1.symm⟩
      · rename_i hne heq
        simp at h
        exact absurd h.1 hne
      · simp at h
  · simp [hh] at h

theorem Node_toString_setChildren (n : Node) (cs : List Node) :
    Node_toString (n.setChildren cs) = Node_toString n := by
  simp [Node_toString, Node_getPath_setChildren]

theorem dump_setChildren (v : Variant) (hv : v ≠ Variant.FT) (n : Node) (cs : List Node) :
    Tree_dump v (n.setChildren cs) = Node_toString n ++ '\n' :: Tree_dumpList v false false cs := by
  rw [dump_eq v hv, Node_toString_setChildren, Node_children_setChildren]

theorem dumpList_split (v : Variant) (cs : List Node) (i : Nat) (hi : i < cs.length) :
    Tree_dumpList v false false cs =
      Tree_dumpList v false false (cs.take i) ++ Tree_dump v cs[i] ++
        Tree_dumpList v false false (cs.drop (i + 1)) := by
  conv_lhs => rw [← List.take_append_drop i cs, List.drop_eq_getElem_cons hi]
  rw [dumpList_append, dumpList_cons]
  simp

theorem dumpList_set (v : Variant) (cs : List Node) (i : Nat) (hi : i < cs.length) (c : Node) :
    Tree_dumpList v false false (cs.set i c) =
      Tree_dumpList v false false (cs.take i) ++ Tree_dump v c ++
        Tree_dumpList v false false (cs.drop (i + 1)) := by
  rw [List.set_eq_take_append_cons_drop, if_pos hi, dumpList_append, dumpList_cons]
  simp

theorem dumpList_eraseIdx (v : Variant) (cs : List Node) (i : Nat) :
    Tree_dumpList v false false (cs.eraseIdx i) =
      Tree_dumpList v false false (cs.take i) ++
        Tree_dumpList v false false (cs.drop (i + 1)) := by
  rw [List.eraseIdx_eq_take_drop_succ, dumpList_append]

theorem Tree_insert_inv (v : Variant) (t : Tree) (s : List Char) (pl : Option Payload)
    (t' : Tree) (hs : CStr s) (hv : Tree.Valid v t)
    (h : Tree_insert v t s pl = some (SUCCESS, t')) :
    t.bIsInitialized = true ∧
    ∃ p, Path_new s = some (SUCCESS, some p) ∧ p.Inv ∧
      ((t.oNRoot = none ∧ ∃ (N : Node) (slot : Nat),
          Tree_buildRest v p pl (Path_getDepth p - 1) 1 none = some (SUCCESS, some N, slot) ∧
          t' = { t with oNRoot := some N, ulCount := t.ulCount + Path_getDepth p }) ∨
       (∃ (r r' : Node) (cnt : Nat), t.oNRoot = some r ∧ r.name = p.name 1 ∧
          Tree_insertFrom v p pl (Path_getDepth p - 1) 1 r = some (SUCCESS, r', cnt) ∧
          t' = { t with oNRoot := some r', ulCount := t.ulCount + cnt })) := by
  unfold Tree_insert at h
  by_cases hinit : t.bIsInitialized = true
  · simp only [hinit, Bool.not_true, Bool.false_eq_true, if_false] at h
    refine ⟨hinit, ?_⟩
    rcases Path_new_total s hs with hbad | ⟨p, hp⟩
    · simp [hbad] at h
    · obtain ⟨_, hpi, _, _⟩ := Path_new_success s hs p hp
      have hdep := Path_depth_eq p hpi
      have hpos : 0 < p.comps.length := List.length_pos.mpr hpi.2.2.1
      simp only [hp] at h
      refine ⟨p, hp, hpi, ?_⟩
      cases hroot : t.oNRoot with
      | none =>
        left
        simp only [hroot] at h
        split at h
        · simp at h
        · split at h
          · rename_i oNNew ulSlot hbuild
            simp at h
            exact ⟨rfl, oNNew, ulSlot, hbuild, by rw [hinit]; exact h.symm⟩
          · rename_i hne heq
            simp at h
            obtain ⟨hst, _⟩ := h
            subst hst
            obtain ⟨nd, hnd⟩ := buildRest_success_some v p hpi pl _ 1 none _ _ (by omega)
              (le_refl _) heq
            exact (hne nd rfl hnd).elim
          · simp at h
      | some r =>
        right
        have hrv := hv r hroot
        obtain ⟨q1, hq1, hq1i, _, hq1n⟩ := Path_prefix_name p hpi 1 (le_refl _) (by omega)
        simp only [hroot, hq1] at h
        split at h
        · simp at h
        · rename_i hcmp
          have hname : r.name = q1.pcPath :=
            (comparePath_root r q1 hrv.nameCStr hq1i.pathCStr).mp (by simpa using hcmp)
          split at h
          · rename_i oNRoot ulNewNodes hins
            simp at h
            exact ⟨r, oNRoot, ulNewNodes, rfl, by rw [hname, hq1n], hins, by rw [hinit]; exact h.symm⟩
          · rename_i hne heq
            simp at h
            exact absurd h.1 hne
          · simp at h
  · simp [hinit] at h

theorem Tree_rm_inv (v : Variant) (t : Tree) (s : List Char) (k : Option Bool)
    (t' : Tree) (hs : CStr s) (hv : Tree.Valid v t)
    (h : Tree_rm v t s k = some (SUCCESS, t')) :
    t.bIsInitialized = true ∧
    ∃ (p : Path) (r : Node), Path_new s = some (SUCCESS, some p) ∧ p.Inv ∧
      t.oNRoot = some r ∧ r.name = p.name 1 ∧
      ((Path_getDepth p = 1 ∧ Tree_kindStatus r k = SUCCESS ∧
          t' = { t with oNRoot := none, ulCount := t.ulCount - Node_free r }) ∨
       (Path_getDepth p ≠ 1 ∧ ∃ (r' : Node) (cnt : Nat),
          Tree_rmFrom v p k (Path_getDepth p - 1) 1 r = some (SUCCESS, r', cnt) ∧
          t' = { t with oNRoot := some r', ulCount := t.ulCount - cnt })) := by
  unfold Tree_rm at h
  by_cases hinit : t.bIsInitialized = true
  · simp only [hinit, Bool.not_true, Bool.false_eq_true, if_false] at h
    refine ⟨hinit, ?_⟩
    rcases Path_new_total s hs with hbad | ⟨p, hp⟩
    · simp [hbad] at h
    · obtain ⟨_, hpi, _, _⟩ := Path_new_success s hs p hp
      have hdep := Path_depth_eq p hpi
      have hpos : 0 < p.comps.length := List.length_pos.mpr hpi.2.2.1
      simp only [hp] at h
      cases hroot : t.oNRoot with
      | none => simp [hroot] at h
      | some r =>
        have hrv := hv r hroot
        obtain ⟨q1, hq1, hq1i, _, hq1n⟩ := Path_prefix_name p hpi 1 (le_refl _) (by omega)
        simp only [hroot, hq1] at h
        refine ⟨p, r, hp, hpi, rfl, ?_⟩
        split at h
        · simp at h
        · rename_i hcmp
          have hname : r.name = q1.pcPath :=
            (comparePath_root r q1 hrv.nameCStr hq1i.pathCStr).mp (by simpa using hcmp)
          refine ⟨by rw [hname, hq1n], ?_⟩
          split at h
          · rename_i hd1
            split at h
            · rename_i hks
              simp at h
              exact absurd h.1 hks
            · rename_i hks
              simp at h
              exact Or.inl ⟨hd1, by simpa using hks, by rw [hinit]; exact h.symm⟩
          · rename_i hd1
            split at h
            · rename_i oNRoot ulRemoved hrm
              simp at h
              exact Or.inr ⟨hd1, oNRoot, ulRemoved, hrm, by rw [hinit]; exact h.symm⟩
            · rename_i hne heq
              simp at h
              exact absurd h.1 hne
            · simp at h
  · simp [hinit] at h

theorem insertFrom_dump (p : Path) (hp : p.Inv) (pl : Option Payload) :
    ∀ (n level : Nat) (cur cur' : Node) (cnt : Nat),
      level + n = p.comps.length → 1 ≤ level → Node.Valid Variant.BDT cur →
      cur.name = p.name level →
      Tree_insertFrom Variant.BDT p pl n level cur = some (SUCCESS, cur', cnt) →
      ∃ (X Y : List Char) (P N : Node) (j : Nat),
        Tree_dump Variant.BDT cur = X ++ Tree_dump Variant.BDT P ++ Y ∧
        Tree_dump Variant.BDT cur' =
          X ++ Tree_dump Variant.BDT P ++ Tree_dump Variant.BDT N ++ Y ∧
        P ∈ cur.preorder ∧ level ≤ j ∧ j < p.comps.length ∧
        P.name = p.name j ∧ N.name = p.name (j + 1) := by
  have hv : Variant.BDT ≠ Variant.FT := by decide
  intro n
  induction n with
  | zero =>
    intro level cur cur' cnt _ _ _ _ h
    simp [Tree_insertFrom] at h
  | succ n ih =>
    intro level cur cur' cnt hlev h1 hval hname h
    obtain ⟨hdir, hcase⟩ := insertFrom_inv Variant.BDT p hp pl n level cur cur' cnt
      (by omega) h1 hval h
    rcases hcase with ⟨i, hi, c', cnt', hcn, hrec, hcur'⟩ | ⟨slot, N, habs, hslot, hbdt, hbuild, hN, hcur'⟩
    · obtain ⟨X, Y, P, N, j, d1, d2, hP, hj1, hj2, hPn, hNn⟩ :=
        ih (level + 1) cur.children[i] c' cnt' (by omega) (by omega)
          (hval.parts.2.2 _ (List.getElem_mem hi)) hcn hrec
      refine ⟨Node_toString cur ++ '\n' ::
          (Tree_dumpList Variant.BDT false false (cur.children.take i) ++ X),
        Y ++ Tree_dumpList Variant.BDT false false (cur.children.drop (i + 1)),
        P, N, j, ?_, ?_, mem_preorder_of_child (List.getElem_mem hi) hP, by omega, hj2, hPn, hNn⟩
      · rw [dump_eq Variant.BDT hv cur, dumpList_split Variant.BDT cur.children i hi, d1]
        simp
      · rw [hcur', dump_setChildren Variant.BDT hv, dumpList_set Variant.BDT cur.children i hi, d2]
        simp
    · have hs := hbdt rfl
      subst hs
      refine ⟨[], [], cur, N, level, by simp, ?_, mem_preorder_self cur, le_refl _, by omega,
        hname, hN⟩
      rw [hcur', dump_setChildren Variant.BDT hv, dump_eq Variant.BDT hv cur]
      simp [dumpList_append, dumpList_cons, Tree_dumpList]

theorem rmFrom_dump (v : Variant) (hv : v ≠ Variant.FT) (p : Path) (hp : p.Inv)
    (k : Option Bool) :
    ∀ (n level : Nat) (cur cur' : Node) (cnt : Nat),
      level + n = p.comps.length → 1 ≤ level → Node.Valid v cur →
      Tree_rmFrom v p k n level cur = some (SUCCESS, cur', cnt) →
      ∃ (X Y : List Char) (R : Node),
        Tree_dump v cur = X ++ Tree_dump v R ++ Y ∧ Tree_dump v cur' = X ++ Y ∧
        R ∈ cur.preorder ∧ R.name = p.name p.comps.length := by
  intro n
  induction n with
  | zero =>
    intro level cur cur' cnt _ _ _ h
    simp [Tree_rmFrom] at h
  | succ n ih =>
    intro level cur cur' cnt hlev h1 hval h
    obtain ⟨i, hi, hcn, hcase⟩ := rmFrom_inv v p hp k n level cur cur' cnt (by omega) h1 hval h
    rcases hcase with ⟨hn, _, hcur'⟩ | ⟨hn, c', cnt', hrec, hcur'⟩
    · refine ⟨Node_toString cur ++ '\n' :: Tree_dumpList v false false (cur.children.take i),
        Tree_dumpList v false false (cur.children.drop (i + 1)), cur.children[i], ?_, ?_,
        mem_preorder_of_child (List.getElem_mem hi) (mem_preorder_self _), ?_⟩
      · rw [dump_eq v hv cur, dumpList_split v cur.children i hi]
        simp
      · rw [hcur', dump_setChildren v hv, dumpList_eraseIdx]
        simp
      · rw [hcn]
        congr 1
        omega
    · obtain ⟨X, Y, R, d1, d2, hR, hRn⟩ :=
        ih (level + 1) cur.children[i] c' cnt' (by omega) (by omega)
          (hval.parts.2.2 _ (List.getElem_mem hi)) hrec
      refine ⟨Node_toString cur ++ '\n' ::
          (Tree_dumpList v false false (cur.children.take i) ++ X),
        Y ++ Tree_dumpList v false false (cur.children.drop (i + 1)),
        R, ?_, ?_, mem_preorder_of_child (List.getElem_mem hi) hR, hRn⟩
      · rw [dump_eq v hv cur, dumpList_split v cur.children i hi, d1]
        simp
      · rw [hcur', dump_setChildren v hv, dumpList_set v cur.children i hi, d2]
        simp

theorem exampleFile_insert (v : Variant) :
    Tree_insert v exampleEmpty "a/f".toList (some ⟨none, 0⟩) = some (SUCCESS, exampleFile) := by
  cases v <;> rfl

theorem exampleFile_reachable (v : Variant) : Reachable v exampleFile :=
  Reachable.insert exampleEmpty "a/f".toList (some ⟨none, 0⟩) SUCCESS exampleFile
    (exampleEmpty_reachable v) (by decide) (exampleFile_insert v)

theorem Reachable.rootInit {v : Variant} {t : Tree} (h : Reachable v t) :
    ∀ r, t.oNRoot = some r → t.bIsInitialized = true := by
  induction h with
  | start => intro r hr; simp [Tree.uninitialized] at hr
  | init t _ ih =>
    intro r hr
    unfold Tree_init at hr ⊢
    split
    · rename_i hi
      simp only [hi, if_true] at hr
      exact ih r hr
    · rfl
  | destroy t _ ih =>
    intro r hr
    unfold Tree_destroy at hr ⊢
    split
    · rename_i hi
      simp only [hi, if_true] at hr
      exact ih r hr
    · rename_i hi
      simp only [hi, if_false] at hr
      simp at hr
  | insert t s pl st t' hreach hs hins ih =>
    intro r hr
    by_cases hst : st = SUCCESS
    · subst hst
      exact (Tree_insert_spec v t s pl t' hs hreach.valid hins).2.1
    · have := Tree_insert_fail v t s pl st t' hins hst
      subst this
      exact ih r hr
  | rm t s k st t' hreach hs hrm ih =>
    intro r hr
    by_cases hst : st = SUCCESS
    · subst hst
      exact (Tree_rm_spec v t s k t' hs hreach.valid hrm).2.1
    · have := Tree_rm_fail v t s k st t' hrm hst
      subst this
      exact ih r hr

theorem Tree_toString_root (v : Variant) (t : Tree) (r : Node) (hinit : t.bIsInitialized = true)
    (hroot : t.oNRoot = some r) : Tree_toString v t = some (Tree_dump v r) := by
  simp [Tree_toString, hinit, hroot]

theorem Path_name_length (p : Path) (h : p.Inv) : p.name p.comps.length = p.pcPath := by
  rw [Path.name, List.take_length, h.2.2.2.2.1]

theorem Tree_insert_dump (t : Tree) (hv : Tree.Valid Variant.BDT t) (s : List Char)
    (hs : CStr s) (pl : Option Payload) (t' : Tree)
    (h : Tree_insert Variant.BDT t s pl = some (SUCCESS, t'))
    (r : Node) (hroot : t.oNRoot = some r) :
    ∃ (X Y : List Char) (P N : Node), P ∈ r.preorder ∧
      Tree_toString Variant.BDT t = some (X ++ Tree_dump Variant.BDT P ++ Y) ∧
      Tree_toString Variant.BDT t' =
        some (X ++ Tree_dump Variant.BDT P ++ Tree_dump Variant.BDT N ++ Y) ∧
      ∃ (p : Path) (j : Nat) (qP qN : Path), Path_new s = some (SUCCESS, some p) ∧
        Path_prefix p j = some (SUCCESS, some qP) ∧
        Path_prefix p (j + 1) = some (SUCCESS, some qN) ∧
        Node_toString P = Path_getPathname qP ∧ Node_toString N = Path_getPathname qN := by
  obtain ⟨hinit, p, hp, hpi, hcase⟩ := Tree_insert_inv Variant.BDT t s pl t' hs hv h
  have hdep := Path_depth_eq p hpi
  have hpos : 0 < p.comps.length := List.length_pos.mpr hpi.2.2.1
  rcases hcase with ⟨hnone, _⟩ | ⟨r0, r', cnt, hr0, hname, hins, ht'⟩
  · rw [hroot] at hnone; simp at hnone
  · rw [hroot] at hr0
    simp at hr0
    subst hr0
    obtain ⟨X, Y, P, N, j, d1, d2, hP, hj1, hj2, hPn, hNn⟩ :=
      insertFrom_dump p hpi pl (Path_getDepth p - 1) 1 r r' cnt (by omega) (le_refl _)
        (hv r hroot) hname hins
    obtain ⟨qP, hqP, _, _, hqPn⟩ := Path_prefix_name p hpi j hj1 (by omega)
    obtain ⟨qN, hqN, _, _, hqNn⟩ := Path_prefix_name p hpi (j + 1) (by omega) (by omega)
    refine ⟨X, Y, P, N, hP, ?_, ?_, p, j, qP, qN, hp, hqP, hqN, ?_, ?_⟩
    · rw [Tree_toString_root _ t r hinit hroot, d1]
    · rw [Tree_toString_root _ t' r' (by rw [ht']; exact hinit) (by rw [ht']), d2]
    · show P.name = qP.pcPath
      rw [hPn, hqPn]
    · show N.name = qN.pcPath
      rw [hNn, hqNn]

theorem Tree_rm_dump (v : Variant) (hne : v ≠ Variant.FT) (t : Tree) (hv : Tree.Valid v t)
    (s : List Char) (hs : CStr s) (k : Option Bool) (t' : Tree)
    (h : Tree_rm v t s k = some (SUCCESS, t')) :
    ∃ (r : Node) (X Y : List Char) (R : Node), t.oNRoot = some r ∧ R ∈ r.preorder ∧
      Node_toString R = s ∧
      Tree_toString v t = some (X ++ Tree_dump v R ++ Y) ∧
      Tree_toString v t' = some (X ++ Y) := by
  obtain ⟨hinit, p, r, hp, hpi, hroot, hname, hcase⟩ := Tree_rm_inv v t s k t' hs hv h
  obtain ⟨_, _, _, hps⟩ := Path_new_success s hs p hp
  have hdep := Path_depth_eq p hpi
  have hpos : 0 < p.comps.length := List.length_pos.mpr hpi.2.2.1
  rcases hcase with ⟨hd1, _, ht'⟩ | ⟨hd1, r', cnt, hrm, ht'⟩
  · refine ⟨r, [], [], r, hroot, mem_preorder_self r, ?_, ?_, ?_⟩
    · show r.name = s
      rw [hname, ← hps, ← Path_name_length p hpi, ← hdep, hd1]
    · rw [Tree_toString_root _ t r hinit hroot]; simp
    · rw [ht']; simp [Tree_toString, hinit]
  · obtain ⟨X, Y, R, d1, d2, hR, hRn⟩ :=
      rmFrom_dump v hne p hpi k (Path_getDepth p - 1) 1 r r' cnt (by omega) (le_refl _)
        (hv r hroot) hrm
    refine ⟨r, X, Y, R, hroot, hR, ?_, ?_, ?_⟩
    · show R.name = s
      rw [hRn, Path_name_length p hpi, hps]
    · rw [Tree_toString_root _ t r hinit hroot, d1]
    · rw [Tree_toString_root _ t' r' (by rw [ht']; exact hinit) (by rw [ht']), d2]

theorem Path.Inv.not_badPath {p : Path} (h : p.Inv) : ¬ badPath p.pcPath := by
  rw [← nil_mem_splitRef_iff, h.splitRef_eq]
  intro hm
  exact (h.2.2.2.1 [] hm).1 rfl

theorem shared_spec (a b : Path) (ha : a.Inv) (hb : b.Inv) :
    ∃ k, Path_getSharedPrefixDepth a b = some k ∧
      k ≤ a.comps.length ∧ k ≤ b.comps.length ∧
      (∀ j, j < k → a.comps[j]? = b.comps[j]?) ∧
      (k < a.comps.length → k < b.comps.length → a.comps[k]? ≠ b.comps[k]?) := by
  have hda := Path_depth_eq a ha
  have hdb := Path_depth_eq b hb
  have hmin : (if Path_getDepth a < Path_getDepth b then Path_getDepth a else Path_getDepth b) =
      min (Path_getDepth a) (Path_getDepth b) := by
    split <;> omega
  obtain ⟨k, hk1, _, hk3, hk4, hk5⟩ := sharedLoop_spec a b ha hb
    (min (Path_getDepth a) (Path_getDepth b)) (by omega) (by omega)
    (min (Path_getDepth a) (Path_getDepth b)) 0 (by omega)
  refine ⟨k, ?_, by omega, by omega, fun j hj => hk4 j (Nat.zero_le _) hj, ?_⟩
  · simp only [Path_getSharedPrefixDepth, hmin]; exact hk1
  · intro h1 h2
    exact hk5 (by omega)

theorem Path.Inv.wellFormed {p : Path} (hinv : p.Inv) : p.WellFormed := by
  have hnb := hinv.not_badPath
  simp only [badPath, not_or] at hnb
  refine ⟨hnb.1, hnb.2.1, hnb.2.2.1, hnb.2.2.2, ⟨p.comps, ?_, hinv.2.2.2.2.1⟩,
    hinv.2.2.2.2.2, hinv.depth_pos⟩
  rw [range_map_getComponent p hinv.1, hinv.2.1]

theorem getD_set {α : Type} (l : List α) (i k : Nat) (x d : α) :
    (l.set i x).getD k d = if k = i ∧ i < l.length then x else l.getD k d := by
  simp only [List.getD_eq_getElem?_getD, List.getElem?_set]
  by_cases h : i = k
  · subst h
    by_cases hl : i < l.length
    · simp [hl]
    · simp [hl, List.getElem?_eq_none (Nat.le_of_not_lt hl)]
  · have h' : ¬ k = i := fun e => h e.symm
    simp [h, h']

theorem addAt_shift_length {α : Type} [Inhabited α] :
    ∀ (n u : Nat) (l : List α), (DynArray_addAt.shift n u l).length = l.length := by
  intro n
  induction n with
  | zero => intro u l; rfl
  | succ n ih => intro u l; rw [DynArray_addAt.shift, ih]; simp

theorem addAt_shift_getD {α : Type} [Inhabited α] (d : α) :
    ∀ (n u : Nat) (l : List α), n ≤ u → u < l.length → ∀ k,
      (DynArray_addAt.shift n u l).getD k d =
        if u - n < k ∧ k ≤ u then l.getD (k - 1) d else l.getD k d := by
  intro n
  induction n with
  | zero =>
    intro u l _ _ k
    have : ¬ (u - 0 < k ∧ k ≤ u) := by omega
    rw [DynArray_addAt.shift, if_neg this]
  | succ n ih =>
    intro u l hn hu k
    rw [DynArray_addAt.shift, ih (u - 1) _ (by omega) (by simp; omega) k]
    simp only [getD_set]
    by_cases h1 : u - 1 - n < k ∧ k ≤ u - 1
    · have h2 : u - (n + 1) < k ∧ k ≤ u := by omega
      have h3 : ¬ (k - 1 = u ∧ u < l.length) := by omega
      rw [if_pos h1, if_pos h2, if_neg h3]
    · rw [if_neg h1]
      by_cases h4 : k = u
      · subst h4
        have h2 : k - (n + 1) < k ∧ k ≤ k := by omega
        rw [if_pos ⟨rfl, hu⟩, if_pos h2]
        simp only [List.getD_eq_getElem?_getD]
        rw [List.getElem?_eq_getElem (by omega)]
        simp
      · have h2 : ¬ (u - (n + 1) < k ∧ k ≤ u) := by omega
        have h3 : ¬ (k = u ∧ u < l.length) := by omega
        rw [if_neg h3, if_neg h2]

theorem ext_getD {α : Type} (d : α) (l1 l2 : List α) (hlen : l1.length = l2.length)
    (h : ∀ k, k < l1.length → l1.getD k d = l2.getD k d) : l1 = l2 := by
  apply List.ext_getElem hlen
  intro k h1 h2
  have := h k h1
  rwa [List.getD_eq_getElem _ _ h1, List.getD_eq_getElem _ _ h2] at this

theorem getD_insert {α : Type} (d e : α) (xs : List α) (i k : Nat) (hi : i ≤ xs.length) :
    (xs.take i ++ e :: xs.drop i).getD k d =
      if k < i then xs.getD k d else if k = i then e else xs.getD (k - 1) d := by
  simp only [List.getD_eq_getElem?_getD]
  have hl : (xs.take i).length = i := by simp; omega
  by_cases h1 : k < i
  · rw [if_pos h1, List.getElem?_append_left (by omega), List.getElem?_take_of_lt h1]
  · rw [if_neg h1, List.getElem?_append_right (by omega), hl]
    by_cases h2 : k = i
    · subst h2; simp
    · rw [if_neg h2]
      obtain ⟨m, hm⟩ : ∃ m, k - i = m + 1 := ⟨k - i - 1, by omega⟩
      rw [hm, List.getElem?_cons_succ, List.getElem?_drop]
      congr 2
      omega

theorem getD_take {α : Type} (d : α) (l : List α) (n k : Nat) (hk : k < n) :
    (l.take n).getD k d = l.getD k d := by
  simp only [List.getD_eq_getElem?_getD, List.getElem?_take_of_lt hk]

theorem getD_eraseIdx {α : Type} (d : α) (xs : List α) (i k : Nat) :
    (xs.eraseIdx i).getD k d = if k < i then xs.getD k d else xs.getD (k + 1) d := by
  simp only [List.getD_eq_getElem?_getD, List.getElem?_eraseIdx]
  split <;> rfl

theorem removeAt_shift_length {α : Type} [Inhabited α] :
    ∀ (n u : Nat) (l : List α), (DynArray_removeAt.shift n u l).length = l.length := by
  intro n
  induction n with
  | zero => intro u l; rfl
  | succ n ih => intro u l; rw [DynArray_removeAt.shift, ih]; simp

theorem removeAt_shift_getD {α : Type} [Inhabited α] (d : α) :
    ∀ (n u : Nat) (l : List α), u + n < l.length → ∀ k,
      (DynArray_removeAt.shift n u l).getD k d =
        if u ≤ k ∧ k < u + n then l.getD (k + 1) d else l.getD k d := by
  intro n
  induction n with
  | zero =>
    intro u l _ k
    have : ¬ (u ≤ k ∧ k < u + 0) := by omega
    rw [DynArray_removeAt.shift, if_neg this]
  | succ n ih =>
    intro u l hu k
    rw [DynArray_removeAt.shift, ih (u + 1) _ (by simp; omega) k]
    simp only [getD_set]
    by_cases h1 : u + 1 ≤ k ∧ k < u + 1 + n
    · have h2 : u ≤ k ∧ k < u + (n + 1) := by omega
      have h3 : ¬ (k + 1 = u ∧ u < l.length) := by omega
      rw [if_pos h1, if_pos h2, if_neg h3]
    · rw [if_neg h1]
      by_cases h4 : k = u
      · subst h4
        have h2 : k ≤ k ∧ k < k + (n + 1) := by omega
        rw [if_pos ⟨rfl, by omega⟩, if_pos h2]
        simp only [List.getD_eq_getElem?_getD]
        rw [List.getElem?_eq_getElem (by omega)]
        simp
      · have h2 : ¬ (u ≤ k ∧ k < u + (n + 1)) := by omega
        have h3 : ¬ (k = u ∧ u < l.length) := by omega
        rw [if_neg h3, if_neg h2]

theorem grow_spec {α : Type} [Inhabited α] (a : DynArray α)
    (hv : DynArray_isValid a = true) :
    DynArray_isValid (DynArray_grow a) = true ∧ (DynArray_grow a).uLength = a.uLength ∧
    (DynArray_grow a).uPhysLength = 2 * a.uPhysLength ∧
    (DynArray_grow a).ppvArray.take a.uPhysLength = a.ppvArray := by
  unfold DynArray_isValid at hv
  simp only [MIN_PHYS_LENGTH] at hv
  split at hv
  · simp at hv
  · split at hv
    · simp at hv
    · split at hv
      · simp at hv
      · rename_i h1 h2 h3
        have h3' : a.ppvArray.length = a.uPhysLength := by simpa using h3
        refine ⟨?_, rfl, rfl, ?_⟩
        · simp only [DynArray_isValid, DynArray_grow, MIN_PHYS_LENGTH, List.length_append,
            List.length_replicate]
          have e : a.ppvArray.length + (2 * a.uPhysLength - a.ppvArray.length) =
              2 * a.uPhysLength := by omega
          rw [e]
          simp
          omega
        · simp only [DynArray_grow]
          rw [← h3', List.take_left']
          rfl

theorem isValid_iff {α : Type} (a : DynArray α) :
    DynArray_isValid a = true ↔
      (2 ≤ a.uPhysLength ∧ a.uLength ≤ a.uPhysLength ∧ a.ppvArray.length = a.uPhysLength) := by
  unfold DynArray_isValid
  simp only [MIN_PHYS_LENGTH]
  constructor
  · intro hv
    split at hv
    · simp at hv
    · split at hv
      · simp at hv
      · split at hv
        · simp at hv
        · rename_i h1 h2 h3
          exact ⟨by omega, by omega, by simpa using h3⟩
  · rintro ⟨h1, h2, h3⟩
    rw [if_neg (by omega), if_neg (by omega), if_neg (by simpa using h3)]

theorem toList_getD {α : Type} [Inhabited α] (a : DynArray α) (k : Nat) (hk : k < a.uLength) :
    a.toList.getD k default = DynArray_get a k := by
  simp only [DynArray.toList, DynArray_get, getD_take default _ _ _ hk]

theorem toList_length {α : Type} (a : DynArray α) (hv : DynArray_isValid a = true) :
    a.toList.length = a.uLength := by
  obtain ⟨_, h2, h3⟩ := (isValid_iff a).mp hv
  simp only [DynArray.toList, List.length_take]
  omega

theorem room_spec {α : Type} [Inhabited α] (a : DynArray α)
    (hv : DynArray_isValid a = true) :
    DynArray_isValid (if a.uLength = a.uPhysLength then DynArray_grow a else a) = true ∧
    (if a.uLength = a.uPhysLength then DynArray_grow a else a).uLength = a.uLength ∧
    a.uLength < (if a.uLength = a.uPhysLength then DynArray_grow a else a).uPhysLength ∧
    ∀ k, k < a.uLength →
      (if a.uLength = a.uPhysLength then DynArray_grow a else a).ppvArray.getD k default =
        a.ppvArray.getD k default := by
  obtain ⟨h1, h2, h3⟩ := (isValid_iff a).mp hv
  by_cases hfull : a.uLength = a.uPhysLength
  · obtain ⟨g1, g2, g3, g4⟩ := grow_spec a hv
    rw [if_pos hfull]
    refine ⟨g1, g2, by rw [g3]; omega, ?_⟩
    intro k hk
    rw [← getD_take default (DynArray_grow a).ppvArray a.uPhysLength k (by omega), g4]
  · rw [if_neg hfull]
    exact ⟨hv, rfl, by omega, fun _ _ => rfl⟩

theorem DynArray_addAt_spec {α : Type} [Inhabited α] (a : DynArray α) (i : Nat) (e : α)
    (hv : DynArray_isValid a = true) (hi : i ≤ a.uLength) :
    (DynArray_addAt a i e).1 = 1 ∧
    DynArray_isValid (DynArray_addAt a i e).2 = true ∧
    (DynArray_addAt a i e).2.uLength = a.uLength + 1 ∧
    (DynArray_addAt a i e).2.toList = a.toList.take i ++ e :: a.toList.drop i := by
  obtain ⟨r1, r2, r3, r4⟩ := room_spec a hv
  obtain ⟨v1, v2, v3⟩ := (isValid_iff _).mp r1
  have hlen := toList_length a hv
  refine ⟨rfl, ?_, ?_, ?_⟩
  · rw [isValid_iff]
    simp only [DynArray_addAt, List.length_set, addAt_shift_length]
    exact ⟨v1, by omega, v3⟩
  · simp only [DynArray_addAt]; rw [r2]
  · apply ext_getD default
    · simp only [DynArray_addAt, DynArray.toList, List.length_take, List.length_set,
        addAt_shift_length, List.length_append, List.length_cons, List.length_drop]
      rw [r2, v3]
      have := (isValid_iff a).mp hv
      omega
    · intro k hk
      have hk' : k < a.uLength + 1 := by
        simp only [DynArray_addAt, DynArray.toList, List.length_take] at hk
        rw [r2] at hk
        omega
      rw [getD_insert default e a.toList i k (by omega)]
      simp only [DynArray_addAt, DynArray.toList]
      rw [r2, getD_take default _ _ _ hk', getD_set, addAt_shift_length,
        addAt_shift_getD default _ _ _ (by omega) (by omega)]
      by_cases h1 : k < i
      · rw [if_neg (by omega), if_neg (by omega), if_pos h1, r4 k (by omega),
          getD_take default _ _ _ (by omega)]
      · by_cases h2 : k = i
        · rw [if_pos ⟨h2, by omega⟩, if_neg h1, if_pos h2]
        · rw [if_neg (by omega), if_pos (by omega), if_neg h1, if_neg h2, r4 (k - 1) (by omega),
            getD_take default _ _ _ (by omega)]

theorem DynArray_removeAt_spec {α : Type} [Inhabited α] (a : DynArray α) (i : Nat)
    (hv : DynArray_isValid a = true) (hi : i < a.uLength) :
    (DynArray_removeAt a i).1 = DynArray_get a i ∧
    DynArray_isValid (DynArray_removeAt a i).2 = true ∧
    (DynArray_removeAt a i).2.uLength = a.uLength - 1 ∧
    (DynArray_removeAt a i).2.toList = a.toList.eraseIdx i := by
  obtain ⟨v1, v2, v3⟩ := (isValid_iff a).mp hv
  have hlen := toList_length a hv
  refine ⟨rfl, ?_, rfl, ?_⟩
  · rw [isValid_iff]
    simp only [DynArray_removeAt, removeAt_shift_length]
    exact ⟨v1, by omega, v3⟩
  · apply ext_getD default
    · simp only [DynArray_removeAt, DynArray.toList, List.length_take, removeAt_shift_length]
      rw [List.length_eraseIdx]
      simp only [List.length_take]
      split <;> omega
    · intro k hk
      have hk' : k < a.uLength - 1 := by
        simp only [DynArray_removeAt, DynArray.toList, List.length_take] at hk
        omega
      rw [getD_eraseIdx]
      simp only [DynArray_removeAt, DynArray.toList]
      rw [getD_take default _ _ _ hk', removeAt_shift_getD default _ _ _ (by omega)]
      by_cases h1 : k < i
      · rw [if_neg (by omega), if_pos h1, getD_take default _ _ _ (by omega)]
      · rw [if_pos (by omega), if_neg h1, getD_take default _ _ _ (by omega)]

theorem search_loop_spec {α β : Type} [Inhabited α] (l : List α) (e : β) (cmp : α → β → Int) :
    ∀ (n u : Nat),
      (∀ r, DynArray_search.loop l e cmp n u = some r →
        u ≤ r ∧ r < u + n ∧ cmp (l.getD r default) e = 0 ∧
        ∀ j, u ≤ j → j < r → cmp (l.getD j default) e ≠ 0) ∧
      (DynArray_search.loop l e cmp n u = none →
        ∀ j, u ≤ j → j < u + n → cmp (l.getD j default) e ≠ 0) := by
  intro n
  induction n with
  | zero =>
    intro u
    constructor
    · intro r h; simp [DynArray_search.loop] at h
    · intro _ j h1 h2; omega
  | succ n ih =>
    intro u
    rw [DynArray_search.loop]
    by_cases hc : cmp (l.getD u default) e = 0
    · simp only [hc, if_true]
      constructor
      · intro r h
        simp at h
        subst h
        exact ⟨le_refl _, by omega, hc, fun j h1 h2 => by omega⟩
      · intro h; simp at h
    · simp only [hc, if_false]
      obtain ⟨ih1, ih2⟩ := ih (u + 1)
      constructor
      · intro r h
        obtain ⟨a1, a2, a3, a4⟩ := ih1 r h
        refine ⟨by omega, by omega, a3, ?_⟩
        intro j h1 h2
        by_cases hj : j = u
        · subst hj; exact hc
        · exact a4 j (by omega) h2
      · intro h j h1 h2
        by_cases hj : j = u
        · subst hj; exact hc
        · exact ih2 h j (by omega) (by omega)

theorem CompareConsistent.self_eq {α : Type} {cmp : α → α → Int} (hc : CompareConsistent cmp)
    (x : α) : cmp x x = 0 := by
  have h1 := hc.1 x x
  omega

theorem StrictSortedBy.sorted {α : Type} [Inhabited α] {a : DynArray α} {cmp : α → α → Int}
    (hc : CompareConsistent cmp) (hs : a.StrictSortedBy cmp) : a.SortedBy cmp := by
  intro i j hij hj
  rcases Nat.eq_or_lt_of_le hij with h | h
  · subst h
    rw [hc.self_eq]
  · exact le_of_lt (hs i j h hj)

theorem exampleArray_strict : exampleArray.StrictSortedBy exampleCompare := by
  intro i j hij hj
  have hj3 : j < 3 := hj
  interval_cases j <;> interval_cases i <;> decide

theorem set_perm_cons {α : Type} (d h : α) :
    ∀ (t : List α) (j : Nat), j < t.length → List.Perm (t.getD j d :: t.set j h) (h :: t) := by
  intro t
  induction t with
  | nil => intro j hj; simp at hj
  | cons a t ih =>
    intro j hj
    cases j with
    | zero =>
      simp only [List.getD_cons_zero, List.set_cons_zero]
      exact List.Perm.swap _ _ _
    | succ j =>
      simp only [List.getD_cons_succ, List.set_cons_succ]
      have hj' : j < t.length := by simpa using hj
      exact ((List.Perm.swap _ _ _).trans ((ih j hj').cons a)).trans (List.Perm.swap _ _ _)

theorem swap_perm_list {α : Type} (d : α) :
    ∀ (l : List α) (i j : Nat), i < l.length → j < l.length →
      List.Perm ((l.set i (l.getD j d)).set j (l.getD i d)) l := by
  intro l
  induction l with
  | nil => intro i j hi; simp at hi
  | cons h t ih =>
    intro i j hi hj
    cases i with
    | zero =>
      cases j with
      | zero => simp
      | succ j =>
        simp only [List.getD_cons_succ, List.getD_cons_zero, List.set_cons_zero,
          List.set_cons_succ]
        exact set_perm_cons d h t j (by simpa using hj)
    | succ i =>
      cases j with
      | zero =>
        simp only [List.getD_cons_succ, List.getD_cons_zero, List.set_cons_zero,
          List.set_cons_succ]
        exact set_perm_cons d h t i (by simpa using hi)
      | succ j =>
        simp only [List.getD_cons_succ, List.set_cons_succ]
        exact (ih i j (by simpa using hi) (by simpa using hj)).cons h

theorem swap_getD {α : Type} (d : α) (l : List α) (i j k : Nat) (hi : i < l.length)
    (hj : j < l.length) :
    ((l.set i (l.getD j d)).set j (l.getD i d)).getD k d =
      if k = j then l.getD i d else if k = i then l.getD j d else l.getD k d := by
  rw [getD_set, getD_set, List.length_set]
  by_cases h1 : k = j
  · rw [if_pos ⟨h1, hj⟩, if_pos h1]
  · rw [if_neg (fun h => h1 h.1), if_neg h1]
    by_cases h2 : k = i
    · rw [if_pos ⟨h2, hi⟩, if_pos h2]
    · rw [if_neg (fun h => h2 h.1), if_neg h2]

theorem scanRight_spec {α : Type} [Inhabited α] (cmp : α → α → Int) (l : List α) (P : α)
    (s : Nat) (hs : s < l.length) (hsent : ¬ cmp (l.getD s default) P < 0) :
    ∀ (fuel : Nat) (i : Int), 0 ≤ i → i ≤ s → (s : Int) - i < fuel →
      ∃ i' : Int, DynArray_qsort.scanRight cmp l P fuel i = some i' ∧ i ≤ i' ∧ i' ≤ s ∧
        ¬ cmp (l.getD i'.toNat default) P < 0 ∧
        ∀ k : Nat, i ≤ k → (k : Int) < i' → cmp (l.getD k default) P < 0 := by
  intro fuel
  induction fuel with
  | zero => intro i _ _ h; omega
  | succ f ih =>
    intro i h0 his hf
    rw [DynArray_qsort.scanRight]
    have hb : 0 ≤ i ∧ i < l.length := ⟨h0, by omega⟩
    rw [if_pos hb]
    by_cases hc : cmp (l.getD i.toNat default) P < 0
    · rw [if_pos hc]
      have hne : i ≠ s := by
        intro h
        apply hsent
        have : i.toNat = s := by omega
        rw [← this]; exact hc
      obtain ⟨i', e1, e2, e3, e4, e5⟩ := ih (i + 1) (by omega) (by omega) (by omega)
      refine ⟨i', e1, by omega, e3, e4, ?_⟩
      intro k hk1 hk2
      by_cases hki : (k : Int) = i
      · have : i.toNat = k := by omega
        rw [← this]; exact hc
      · exact e5 k (by omega) hk2
    · rw [if_neg hc]
      exact ⟨i, rfl, le_refl _, his, hc, fun k h1 h2 => by omega⟩

theorem scanLeft_spec {α : Type} [Inhabited α] (cmp : α → α → Int) (l : List α) (P : α)
    (s : Nat) (hsent : ¬ cmp P (l.getD s default) < 0) :
    ∀ (fuel : Nat) (j : Int), j < l.length → s ≤ j → j - (s : Int) < fuel →
      ∃ j' : Int, DynArray_qsort.scanLeft cmp l P fuel j = some j' ∧ s ≤ j' ∧ j' ≤ j ∧
        ¬ cmp P (l.getD j'.toNat default) < 0 ∧
        ∀ k : Nat, j' < (k : Int) → (k : Int) ≤ j → cmp P (l.getD k default) < 0 := by
  intro fuel
  induction fuel with
  | zero => intro j _ _ h; omega
  | succ f ih =>
    intro j hjl hsj hf
    rw [DynArray_qsort.scanLeft]
    have hb : 0 ≤ j ∧ j < l.length := ⟨by omega, hjl⟩
    rw [if_pos hb]
    by_cases hc : cmp P (l.getD j.toNat default) < 0
    · rw [if_pos hc]
      have hne : j ≠ s := by
        intro h
        apply hsent
        have : j.toNat = s := by omega
        rw [← this]; exact hc
      obtain ⟨j', e1, e2, e3, e4, e5⟩ := ih (j - 1) (by omega) (by omega) (by omega)
      refine ⟨j', e1, e2, by omega, e4, ?_⟩
      intro k hk1 hk2
      by_cases hkj : (k : Int) = j
      · have : j.toNat = k := by omega
        rw [← this]; exact hc
      · exact e5 k hk1 (by omega)
    · rw [if_neg hc]
      exact ⟨j, rfl, hsj, le_refl _, hc, fun k h1 h2 => by omega⟩

theorem Rearranged.same {α : Type} [Inhabited α] (lo hi : Int) (l : List α) :
    Rearranged lo hi l l :=
  ⟨rfl, List.Perm.refl _, fun _ _ => rfl, fun k h1 h2 => ⟨k, h1, h2, rfl⟩⟩

theorem Rearranged.comp {α : Type} [Inhabited α] {lo hi : Int} {l1 l2 l3 : List α}
    (h12 : Rearranged lo hi l1 l2) (h23 : Rearranged lo hi l2 l3) : Rearranged lo hi l1 l3 := by
  obtain ⟨a1, a2, a3, a4⟩ := h12
  obtain ⟨b1, b2, b3, b4⟩ := h23
  refine ⟨by rw [b1, a1], b2.trans a2, ?_, ?_⟩
  · intro k hk; rw [b3 k hk, a3 k hk]
  · intro k h1 h2
    obtain ⟨k', c1, c2, c3⟩ := b4 k h1 h2
    obtain ⟨k'', d1, d2, d3⟩ := a4 k' c1 c2
    exact ⟨k'', d1, d2, by rw [c3, d3]⟩

theorem Rearranged.widen {α : Type} [Inhabited α] {lo hi lo' hi' : Int} {l l' : List α}
    (h : Rearranged lo' hi' l l') (h1 : lo ≤ lo') (h2 : hi' ≤ hi) : Rearranged lo hi l l' := by
  obtain ⟨a1, a2, a3, a4⟩ := h
  refine ⟨a1, a2, ?_, ?_⟩
  · intro k hk
    exact a3 k (by omega)
  · intro k hk1 hk2
    by_cases hin : lo' ≤ (k : Int) ∧ (k : Int) ≤ hi'
    · obtain ⟨k', c1, c2, c3⟩ := a4 k hin.1 hin.2
      exact ⟨k', by omega, by omega, c3⟩
    · exact ⟨k, hk1, hk2, a3 k (by omega)⟩

theorem Rearranged.swap {α : Type} [Inhabited α] (lo hi : Int) (l : List α) (a b : Nat)
    (ha1 : lo ≤ (a : Int)) (ha2 : (a : Int) ≤ hi) (hb1 : lo ≤ (b : Int)) (hb2 : (b : Int) ≤ hi)
    (hal : a < l.length) (hbl : b < l.length) :
    Rearranged lo hi l ((l.set a (l.getD b default)).set b (l.getD a default)) := by
  refine ⟨by simp, swap_perm_list default l a b hal hbl, ?_, ?_⟩
  · intro k hk
    rw [swap_getD default l a b k hal hbl, if_neg (by omega), if_neg (by omega)]
  · intro k hk1 hk2
    rw [swap_getD default l a b k hal hbl]
    by_cases h1 : k = b
    · rw [if_pos h1]; exact ⟨a, ha1, ha2, rfl⟩
    · rw [if_neg h1]
      by_cases h2 : k = a
      · rw [if_pos h2]; exact ⟨b, hb1, hb2, rfl⟩
      · rw [if_neg h2]; exact ⟨k, hk1, hk2, rfl⟩

theorem Rearranged.forall {α : Type} [Inhabited α] {lo hi x y : Int} {l l' : List α}
    (h : Rearranged lo hi l l') (Q : α → Prop)
    (hr : (x ≤ lo ∧ hi ≤ y) ∨ hi < x ∨ y < lo)
    (hq : ∀ k : Nat, x ≤ (k : Int) → (k : Int) ≤ y → Q (l.getD k default)) :
    ∀ k : Nat, x ≤ (k : Int) → (k : Int) ≤ y → Q (l'.getD k default) := by
  obtain ⟨a1, a2, a3, a4⟩ := h
  intro k hk1 hk2
  by_cases hin : lo ≤ (k : Int) ∧ (k : Int) ≤ hi
  · obtain ⟨k', c1, c2, c3⟩ := a4 k hin.1 hin.2
    rw [c3]
    exact hq k' (by omega) (by omega)
  · rw [a3 k (by omega)]
    exact hq k hk1 hk2

theorem CompareConsistent.not_lt_left {α : Type} {cmp : α → α → Int}
    (hc : CompareConsistent cmp) (x y : α) : ¬ cmp x y < 0 ↔ cmp y x ≤ 0 := by
  have := hc.1 x y
  omega

theorem qsort_loop_spec {α : Type} [Inhabited α] (cmp : α → α → Int)
    (hc : CompareConsistent cmp) (P : α) (l0 : List α) (lo hi : Int) (hlo : 0 ≤ lo)
    (hhi : hi < l0.length) (hlh : lo ≤ hi) :
    ∀ (fuel : Nat) (l : List α) (i j : Int), Rearranged lo hi l0 l → lo ≤ i → j ≤ hi →
      0 < fuel → j - i + 2 < fuel →
      (∀ k : Nat, lo ≤ (k : Int) → (k : Int) < i → cmp (l.getD k default) P ≤ 0) →
      (∀ k : Nat, j < (k : Int) → (k : Int) ≤ hi → cmp P (l.getD k default) ≤ 0) →
      (i ≤ j → ∃ s1 s2 : Nat, i ≤ (s1 : Int) ∧ (s1 : Int) ≤ hi ∧
        cmp P (l.getD s1 default) ≤ 0 ∧ lo ≤ (s2 : Int) ∧ (s2 : Int) ≤ j ∧
        cmp (l.getD s2 default) P ≤ 0 ∧ ((i = lo ∧ j = hi) → s1 ≤ s2)) →
      ((lo < i ∧ j < hi) ∨ (i = lo ∧ j = hi)) →
      ∃ (l' : List α) (i' j' : Int),
        DynArray_qsort.loop cmp P fuel l i j = some (l', i', j') ∧ Rearranged lo hi l0 l' ∧
        j' < i' ∧ lo < i' ∧ j' < hi ∧
        (∀ k : Nat, lo ≤ (k : Int) → (k : Int) < i' → cmp (l'.getD k default) P ≤ 0) ∧
        (∀ k : Nat, j' < (k : Int) → (k : Int) ≤ hi → cmp P (l'.getD k default) ≤ 0) := by
  intro fuel
  induction fuel with
  | zero =>
    intro l i j _ _ _ hf0 _ _ _ _ _
    omega
  | succ f ih =>
    intro l i j hR hi1 hj1 hf0 hf hA hB hC hE
    have hlen : l.length = l0.length := hR.1
    rw [DynArray_qsort.loop]
    by_cases hij : i ≤ j
    · rw [if_pos hij]
      obtain ⟨s1, s2, c1, c2, c3, c4, c5, c6, c7⟩ := hC hij
      obtain ⟨i', e1, e2, e3, e4, e5⟩ := scanRight_spec cmp l P s1 (by omega)
        ((hc.not_lt_left _ _).mpr c3) (l.length + 1) i (by omega) c1 (by omega)
      have hs2 : ¬ cmp P (l.getD s2 default) < 0 := by
        have := hc.1 P (l.getD s2 default)
        omega
      obtain ⟨j', g1, g2, g3, g4, g5⟩ := scanLeft_spec cmp l P s2 hs2 (l.length + 1) j
        (by omega) c5 (by omega)
      simp only [e1, g1]
      obtain ⟨a, ha⟩ : ∃ a : Nat, (a : Int) = i' := ⟨i'.toNat, by omega⟩
      obtain ⟨b, hb⟩ : ∃ b : Nat, (b : Int) = j' := ⟨j'.toNat, by omega⟩
      have hat : i'.toNat = a := by omega
      have hbt : j'.toNat = b := by omega
      rw [hat] at e4
      rw [hbt] at g4
      have ea : cmp P (l.getD a default) ≤ 0 := (hc.not_lt_left _ _).mp e4
      have eb : cmp (l.getD b default) P ≤ 0 := by
        have := hc.1 P (l.getD b default)
        omega
      have hA' : ∀ k : Nat, lo ≤ (k : Int) → (k : Int) < i' → cmp (l.getD k default) P ≤ 0 := by
        intro k h1 h2
        by_cases hk : (k : Int) < i
        · exact hA k h1 hk
        · exact le_of_lt (e5 k (by omega) h2)
      have hB' : ∀ k : Nat, j' < (k : Int) → (k : Int) ≤ hi → cmp P (l.getD k default) ≤ 0 := by
        intro k h1 h2
        by_cases hk : j < (k : Int)
        · exact hB k hk h2
        · exact le_of_lt (g5 k h1 (by omega))
      by_cases hsw : i' ≤ j'
      · rw [if_pos hsw, hat, hbt]
        have hal : a < l.length := by omega
        have hbl : b < l.length := by omega
        have hsg := swap_getD default l a b
        apply ih _ (i' + 1) (j' - 1)
          (hR.comp (Rearranged.swap lo hi l a b (by omega) (by omega) (by omega) (by omega)
            hal hbl)) (by omega) (by omega) (by omega) (by omega)
        · intro k h1 h2
          rw [hsg k hal hbl]
          by_cases k1 : k = b
          · rw [if_pos k1]
            have : a = b := by omega
            rw [this]; exact eb
          · rw [if_neg k1]
            by_cases k2 : k = a
            · rw [if_pos k2]; exact eb
            · rw [if_neg k2]; exact hA' k h1 (by omega)
        · intro k h1 h2
          rw [hsg k hal hbl]
          by_cases k1 : k = b
          · rw [if_pos k1]; exact ea
          · rw [if_neg k1]
            by_cases k2 : k = a
            · have : a = b := by omega
              exact absurd (k2.trans this) k1
            · rw [if_neg k2]; exact hB' k (by omega) h2
        · intro hlt
          refine ⟨b, a, by omega, by omega, ?_, by omega, by omega, ?_, fun h => by omega⟩
          · rw [hsg b hal hbl, if_pos rfl]; exact ea
          · rw [hsg a hal hbl, if_neg (by omega), if_pos rfl]; exact eb
        · left; omega
      · rw [if_neg hsw]
        apply ih l i' j' hR (by omega) (by omega) (by omega) (by omega) hA' hB'
        · intro h; omega
        · left
          rcases hE with h | h
          · omega
          · have := c7 h
            omega
    · rw [if_neg hij]
      refine ⟨l, i, j, rfl, hR, by omega, ?_, ?_, hA, hB⟩
      · rcases hE with h | h <;> omega
      · rcases hE with h | h <;> omega

theorem qsort_spec {α : Type} [Inhabited α] (cmp : α → α → Int) (hc : CompareConsistent cmp) :
    ∀ (fuel : Nat) (l : List α) (lo hi : Int), 0 ≤ lo → lo ≤ hi → hi < l.length →
      hi - lo < fuel →
      ∃ l' : List α, DynArray_qsort cmp fuel l lo hi = some l' ∧ Rearranged lo hi l l' ∧
        ∀ a b : Nat, lo ≤ (a : Int) → a ≤ b → (b : Int) ≤ hi →
          cmp (l'.getD a default) (l'.getD b default) ≤ 0 := by
  intro fuel
  induction fuel with
  | zero => intro l lo hi _ _ _ h; omega
  | succ f ih =>
    intro l lo hi hlo hlh hhi hf
    obtain ⟨m, hm⟩ : ∃ m : Nat, (m : Int) = lo + (hi - lo) / 2 :=
      ⟨(lo + (hi - lo) / 2).toNat, by omega⟩
    have hmt : (lo + (hi - lo) / 2).toNat = m := by omega
    have hmb : 0 ≤ lo + (hi - lo) / 2 ∧ lo + (hi - lo) / 2 < l.length := by omega
    obtain ⟨l1, i', j', e1, R1, p1, p2, p3, A1, B1⟩ :=
      qsort_loop_spec cmp hc (l.getD m default) l lo hi hlo hhi hlh (l.length + 2) l lo hi
        (Rearranged.same lo hi l) (le_refl _) (le_refl _) (by omega) (by omega)
        (fun k h1 h2 => by omega) (fun k h1 h2 => by omega)
        (fun _ => ⟨m, m, by omega, by omega, by rw [hc.self_eq], by omega, by omega,
          by rw [hc.self_eq], fun _ => le_refl _⟩)
        (Or.inr ⟨rfl, rfl⟩)
    have hlen1 : l1.length = l.length := R1.1
    obtain ⟨l2, e2, R2, S2⟩ : ∃ l2 : List α,
        (if lo < j' then DynArray_qsort cmp f l1 lo j' else some l1) = some l2 ∧
        Rearranged lo j' l1 l2 ∧
        ∀ a b : Nat, lo ≤ (a : Int) → a ≤ b → (b : Int) ≤ j' →
          cmp (l2.getD a default) (l2.getD b default) ≤ 0 := by
      by_cases h : lo < j'
      · rw [if_pos h]
        exact ih l1 lo j' hlo (by omega) (by omega) (by omega)
      · rw [if_neg h]
        refine ⟨l1, rfl, Rearranged.same _ _ _, ?_⟩
        intro a b h1 h2 h3
        have : a = b := by omega
        rw [this, hc.self_eq]
    have hlen2 : l2.length = l.length := by rw [R2.1, hlen1]
    obtain ⟨l3, e3, R3, S3⟩ : ∃ l3 : List α,
        (if i' < hi then DynArray_qsort cmp f l2 i' hi else some l2) = some l3 ∧
        Rearranged i' hi l2 l3 ∧
        ∀ a b : Nat, i' ≤ (a : Int) → a ≤ b → (b : Int) ≤ hi →
          cmp (l3.getD a default) (l3.getD b default) ≤ 0 := by
      by_cases h : i' < hi
      · rw [if_pos h]
        exact ih l2 i' hi (by omega) (by omega) (by omega) (by omega)
      · rw [if_neg h]
        refine ⟨l2, rfl, Rearranged.same _ _ _, ?_⟩
        intro a b h1 h2 h3
        have : a = b := by omega
        rw [this, hc.self_eq]
    have A3 : ∀ k : Nat, lo ≤ (k : Int) → (k : Int) ≤ i' - 1 →
        cmp (l3.getD k default) (l.getD m default) ≤ 0 := by
      apply R3.forall (fun x => cmp x (l.getD m default) ≤ 0) (Or.inr (Or.inr (by omega)))
      apply R2.forall (fun x => cmp x (l.getD m default) ≤ 0) (Or.inl ⟨le_refl _, by omega⟩)
      intro k h1 h2
      exact A1 k h1 (by omega)
    have B3 : ∀ k : Nat, j' + 1 ≤ (k : Int) → (k : Int) ≤ hi →
        cmp (l.getD m default) (l3.getD k default) ≤ 0 := by
      apply R3.forall (fun x => cmp (l.getD m default) x ≤ 0) (Or.inl ⟨by omega, le_refl _⟩)
      apply R2.forall (fun x => cmp (l.getD m default) x ≤ 0) (Or.inr (Or.inl (by omega)))
      intro k h1 h2
      exact B1 k (by omega) h2
    refine ⟨l3, ?_, (R1.comp (R2.widen (le_refl _) (by omega))).comp
      (R3.widen (by omega) (le_refl _)), ?_⟩
    · rw [DynArray_qsort]
      simp only [hmt, hmb, and_self, if_true, e1, e2, e3]
    · intro a b h1 h2 h3
      by_cases c1 : (b : Int) ≤ j'
      · rw [R3.2.2.1 a (Or.inl (by omega)), R3.2.2.1 b (Or.inl (by omega))]
        exact S2 a b h1 h2 c1
      · by_cases c2 : i' ≤ (a : Int)
        · exact S3 a b c2 h2 h3
        · exact hc.2 _ _ _ (A3 a h1 (by omega)) (B3 b (by omega) h3)

theorem drop_eq_of_getD {α : Type} (d : α) (l l' : List α) (n : Nat)
    (hlen : l'.length = l.length) (h : ∀ k, n ≤ k → l'.getD k d = l.getD k d) :
    l'.drop n = l.drop n := by
  apply ext_getD d
  · simp [hlen]
  · intro k _
    simp only [List.getD_eq_getElem?_getD, List.getElem?_drop]
    have := h (n + k) (by omega)
    simpa only [List.getD_eq_getElem?_getD] using this

theorem DynArray_sort_spec {α : Type} [Inhabited α] (a : DynArray α) (cmp : α → α → Int)
    (hv : DynArray_isValid a = true) (hc : CompareConsistent cmp) :
    ∃ a' : DynArray α, DynArray_sort a cmp = some a' ∧
      a'.uLength = a.uLength ∧ a'.uPhysLength = a.uPhysLength ∧
      DynArray_isValid a' = true ∧ List.Perm a'.toList a.toList ∧ a'.SortedBy cmp := by
  obtain ⟨v1, v2, v3⟩ := (isValid_iff a).mp hv
  unfold DynArray_sort
  by_cases hsmall : a.uLength < 2
  · rw [if_pos hsmall]
    refine ⟨a, rfl, rfl, rfl, hv, List.Perm.refl _, ?_⟩
    intro i j hij hj
    simp only [DynArray_getLength] at hj
    have : i = j := by omega
    rw [this, hc.self_eq]
  · rw [if_neg hsmall]
    obtain ⟨l', e, R, S⟩ := qsort_spec cmp hc a.uLength a.ppvArray 0 ((a.uLength : Int) - 1)
      (le_refl _) (by omega) (by omega) (by omega)
    rw [e]
    refine ⟨{ a with ppvArray := l' }, rfl, rfl, rfl, ?_, ?_, ?_⟩
    · rw [isValid_iff]
      exact ⟨v1, v2, by rw [← v3]; exact R.1⟩
    · have hd : l'.drop a.uLength = a.ppvArray.drop a.uLength :=
        drop_eq_of_getD default _ _ _ R.1 (fun k hk => R.2.2.1 k (Or.inr (by omega)))
      have hp : List.Perm (l'.take a.uLength ++ l'.drop a.uLength)
          (a.ppvArray.take a.uLength ++ a.ppvArray.drop a.uLength) := by
        rw [List.take_append_drop, List.take_append_drop]
        exact R.2.1
      rw [hd] at hp
      exact (List.perm_append_right_iff _).mp hp
    · intro i j hij hj
      simp only [DynArray_getLength] at hj
      exact S i j (by omega) hij (by omega)

theorem intercalate_append (l1 l2 : List (List Char)) (h1 : l1 ≠ []) (h2 : l2 ≠ []) :
    [SLASH].intercalate (l1 ++ l2) =
      [SLASH].intercalate l1 ++ SLASH :: [SLASH].intercalate l2 := by
  have h12 : l1 ++ l2 ≠ [] := by simp [h1]
  have e := joinSl_append l1 l2
  rw [joinSl_eq_intercalate _ h12, joinSl_eq_intercalate _ h1, joinSl_eq_intercalate _ h2] at e
  have e' : [SLASH].intercalate (l1 ++ l2) ++ [SLASH] =
      ([SLASH].intercalate l1 ++ SLASH :: [SLASH].intercalate l2) ++ [SLASH] := by
    rw [e]; simp
  exact List.append_cancel_right e'

theorem lexLt_append_cons (x : List Char) (c : Char) (r : List Char) :
    lexLt x (x ++ c :: r) := by
  induction x with
  | nil => exact lexLt_nil_cons c r
  | cons a x ih =>
    rw [List.cons_append, lexLt_cons_iff]
    exact Or.inr ⟨rfl, ih⟩

theorem strcmp_append (w u v : List Char) (hw : CStr w) :
    strcmp (w ++ u) (w ++ v) = strcmp u v := by
  induction w with
  | nil => rfl
  | cons a w ih =>
    have ha : a ≠ NUL := fun h => hw (by rw [h]; exact List.mem_cons_self _ _)
    have hw' : CStr w := fun h => hw (List.mem_cons_of_mem _ h)
    rw [List.cons_append, List.cons_append, strcmp]
    simp only [if_true, ha, if_false]
    exact ih hw'

theorem search_found_iff {α β : Type} [Inhabited α] (a : DynArray α) (e : β) (u0 : Nat)
    (cmp : α → β → Int) :
    ((∃ i, i < a.uLength ∧ cmp (a.ppvArray.getD i default) e = 0) →
      ∃ u, DynArray_search a e u0 cmp = (1, u) ∧ u < a.uLength ∧
        cmp (a.ppvArray.getD u default) e = 0 ∧
        ∀ j, j < u → cmp (a.ppvArray.getD j default) e ≠ 0) ∧
    ((∀ i, i < a.uLength → cmp (a.ppvArray.getD i default) e ≠ 0) →
      DynArray_search a e u0 cmp = (0, u0)) := by
  obtain ⟨s1, s2⟩ := search_loop_spec a.ppvArray e cmp a.uLength 0
  simp only [DynArray_search]
  cases hl : DynArray_search.loop a.ppvArray e cmp a.uLength 0 with
  | none =>
    have hnone := s2 hl
    constructor
    · rintro ⟨i, hi, heq⟩
      exact absurd heq (hnone i (Nat.zero_le _) (by omega))
    · intro _; rfl
  | some r =>
    obtain ⟨_, r2, r3, r4⟩ := s1 r hl
    constructor
    · intro _
      exact ⟨r, rfl, by omega, r3, fun j hj => r4 j (Nat.zero_le _) hj⟩
    · intro hall
      exact absurd r3 (hall r (by omega))

theorem CompareConsistent.eq_of_both {α : Type} {cmp : α → α → Int}
    (hc : CompareConsistent cmp) (x y e : α) (hx : cmp x e = 0) (hy : cmp y e = 0) :
    cmp x y = 0 := by
  have h1 := hc.1 x e
  have h2 := hc.1 e x
  have h3 := hc.1 y e
  have h4 := hc.1 e y
  have hex : cmp e x = 0 := by omega
  have hey : cmp e y = 0 := by omega
  have a1 := hc.2 x e y (by omega) (by omega)
  have a2 := hc.2 y e x (by omega) (by omega)
  have h5 := hc.1 x y
  have h6 := hc.1 y x
  omega

/-! ## The claims -/

/-- C1: for every C string `s`, `Path_new s` returns `BAD_PATH` with a `NULL`
result exactly when `s` is empty, begins with the delimiter, ends with it or
holds two consecutive delimiters, and returns `SUCCESS` with a path for every
other string. -/
theorem Path_new_bad_path_iff (s : List Char) (hs : CStr s) :
    (Path_new s = some (BAD_PATH, none) ↔
      (s = [] ∨ s.head? = some SLASH ∨ s.getLast? = some SLASH ∨ [SLASH, SLASH] <:+: s)) ∧
    (¬ (s = [] ∨ s.head? = some SLASH ∨ s.getLast? = some SLASH ∨ [SLASH, SLASH] <:+: s) →
      ∃ p, Path_new s = some (SUCCESS, some p)) := by
  have hspec := Path_new_spec s hs
  unfold badPath at hspec
  refine ⟨⟨?_, hspec.1⟩, ?_⟩
  · intro h
    by_contra hb
    obtain ⟨p, hp, _⟩ := hspec.2 hb
    rw [hp] at h
    simp at h
  · intro hb
    obtain ⟨p, hp, _⟩ := hspec.2 hb
    exact ⟨p, hp⟩

theorem Path_new_bad_path_iff_witness :
    (Path_new "1root//2child".toList = some (BAD_PATH, none) ↔
      ("1root//2child".toList = [] ∨ "1root//2child".toList.head? = some SLASH ∨
        "1root//2child".toList.getLast? = some SLASH ∨
        [SLASH, SLASH] <:+: "1root//2child".toList)) ∧
    (∃ p, Path_new "1root/2child".toList = some (SUCCESS, some p)) :=
  ⟨(Path_new_bad_path_iff "1root//2child".toList (by decide)).1,
   (Path_new_bad_path_iff "1root/2child".toList (by decide)).2 (by decide)⟩

/-- C2: for every C string `s` on which `Path_new` succeeds, the components of
the resulting path at the levels `0 .. depth-1` are strings which, joined in
order with a single delimiter between consecutive ones, give back `s`. -/
theorem Path_new_roundtrip (s : List Char) (hs : CStr s) (p : Path)
    (h : Path_new s = some (SUCCESS, some p)) :
    ∃ comps : List (List Char),
      (List.range (Path_getDepth p)).map (Path_getComponent p) = comps.map some ∧
      [SLASH].intercalate comps = s := by
  obtain ⟨_, hinv, hc, _⟩ := Path_new_success s hs p h
  refine ⟨splitRef s, ?_, intercalate_splitRef s⟩
  rw [range_map_getComponent p hinv.1, hinv.2.1, hc]

theorem Path_new_roundtrip_witness :
    ∃ comps : List (List Char),
      (List.range (Path_getDepth ⟨"a/bc".toList, 4, ⟨2, 2, [some ['a'], some ['b', 'c']]⟩⟩)).map
        (Path_getComponent ⟨"a/bc".toList, 4, ⟨2, 2, [some ['a'], some ['b', 'c']]⟩⟩) =
          comps.map some ∧
      [SLASH].intercalate comps = "a/bc".toList :=
  Path_new_roundtrip "a/bc".toList (by decide) _ (by decide)

/-- C3: in a reachable tree of any variant (it is initialized, as the
insertion succeeds), after an insertion of the path `s` has returned
`SUCCESS`, the tree contains `s` and every prefix of `s` (the
pathnames of the results of ` Path_prefix` on the path of `s`): `contains`
without a kind is true for each of them, and so is `contains` with the kind
the node has, which is a directory for a strict prefix and the inserted kind
for `s` itself. -/
theorem Tree_insert_contains (v : Variant) (t : Tree) (hr : Reachable v t)
    (s : List Char) (hs : CStr s)
    (pl : Option Payload) (t' : Tree) (h : Tree_insert v t s pl = some (SUCCESS, t')) :
    Tree_contains v t' s none = some true ∧
    Tree_contains v t' s (some pl.isSome) = some true ∧
    ∀ p, Path_new s = some (SUCCESS, some p) →
      ∀ d q, Path_prefix p d = some (SUCCESS, some q) →
        Tree_contains v t' (Path_getPathname q) none = some true ∧
        Tree_contains v t' (Path_getPathname q)
          (some (decide (d = Path_getDepth p) && pl.isSome)) = some true := by
  obtain ⟨_, hinit', hv', p, hp, hpi, r', hr', hrn, hrv, hpres⟩ :=
    Tree_insert_spec v t s pl t' hs hr.valid h
  have hdep := Path_depth_eq p hpi
  have key : ∀ d q, Path_prefix p d = some (SUCCESS, some q) →
      Tree_contains v t' (Path_getPathname q) none = some true ∧
      Tree_contains v t' (Path_getPathname q)
        (some (decide (d = Path_getDepth p) && pl.isSome)) = some true := by
    intro d q hq
    obtain ⟨hd1, hd2, hqi, hqc⟩ := Path_prefix_success p hpi d q hq
    obtain ⟨Q, hQ, hQi, hQc, hQn⟩ := Path_new_of_Inv q hqi
    have hQc' : Q.comps = p.comps.take d := by rw [hQc, hqc]
    have hQl : Q.comps.length = d := by rw [hQc', List.length_take]; omega
    obtain ⟨⟨node, hfind, hkind⟩, _⟩ := hpres d Q hd1 (by omega) hQi hQc'
    have hfn : Tree_findNode v t' Q = some (SUCCESS, some node) := by
      rw [Tree_findNode_root v t' r' Q hr' hrv hQi
        (by rw [hrn, Path_name_take p d 1 hd1 Q hQc']), hQl]
      exact hfind
    refine ⟨Tree_contains_of_find v t' q Q hinit' hQ node hfn none (by simp),
      Tree_contains_of_find v t' q Q hinit' hQ node hfn _ ?_⟩
    intro b hb
    simp only [Option.some.injEq] at hb
    rw [hkind, ← hb, hdep]
  obtain ⟨q, hq, hqi, hqc⟩ := Path_prefix_spec p hpi (Path_getDepth p)
    (by rw [hdep]; exact List.length_pos.mpr hpi.2.2.1) (le_refl _)
  have hqs : Path_getPathname q = s := by
    show q.pcPath = s
    rw [hqi.2.2.2.2.1, hqc, hdep, List.take_length, ← hpi.2.2.2.2.1]
    exact (Path_new_success s hs p hp).2.2.2
  have := key _ q hq
  rw [hqs] at this
  simp only [decide_True, Bool.true_and] at this
  refine ⟨this.1, this.2, ?_⟩
  intro p2 hp2
  rw [hp] at hp2
  simp at hp2
  subst hp2
  exact key

theorem Tree_insert_contains_witness :
    Tree_contains Variant.DT exampleAB "a/b".toList none = some true ∧
    Tree_contains Variant.DT exampleAB "a/b".toList (some false) = some true ∧
    Tree_contains Variant.DT exampleAB "a".toList none = some true ∧
    Tree_contains Variant.DT exampleAB "a".toList (some false) = some true :=
  ⟨(Tree_insert_contains Variant.DT exampleEmpty (exampleEmpty_reachable _) "a/b".toList
      (by decide) none exampleAB (exampleAB_insert _)).1,
   (Tree_insert_contains Variant.DT exampleEmpty (exampleEmpty_reachable _) "a/b".toList
      (by decide) none exampleAB (exampleAB_insert _)).2.1,
   (Tree_insert_contains Variant.DT exampleEmpty (exampleEmpty_reachable _) "a/b".toList
      (by decide) none exampleAB (exampleAB_insert _)).2.2 examplePathAB (by decide) 1
      examplePathA (by decide)⟩

/-- C4: in a reachable tree of any variant (it is initialized, as the
insertion succeeds), after an insertion of the path `s` has returned
`SUCCESS`, a further insertion of `s`, or of a prefix of `s`
(a path that was there before or was created as an ancestor), with or without
a payload, returns `ALREADY_IN_TREE` and leaves the tree as it is; and in
every reachable state, as long as `contains` is true for a path, an insertion
of that path returns `ALREADY_IN_TREE`. -/
theorem Tree_insert_again (v : Variant) (t : Tree) (hr : Reachable v t)
    (s : List Char) (hs : CStr s)
    (pl : Option Payload) (t' : Tree) (h : Tree_insert v t s pl = some (SUCCESS, t')) :
    (∀ pl', Tree_insert v t' s pl' = some (ALREADY_IN_TREE, t')) ∧
    (∀ p, Path_new s = some (SUCCESS, some p) →
      ∀ d q, Path_prefix p d = some (SUCCESS, some q) →
        ∀ pl', Tree_insert v t' (Path_getPathname q) pl' = some (ALREADY_IN_TREE, t')) ∧
    ∀ t2 s2, Reachable v t2 → CStr s2 → Tree_contains v t2 s2 none = some true →
      ∀ pl', Tree_insert v t2 s2 pl' = some (ALREADY_IN_TREE, t2) := by
  obtain ⟨_, hinit', hv', p, hp, hpi, r', hr', hrn, hrv, hpres⟩ :=
    Tree_insert_spec v t s pl t' hs hr.valid h
  have hdep := Path_depth_eq p hpi
  have key : ∀ d q, Path_prefix p d = some (SUCCESS, some q) →
      ∀ pl', Tree_insert v t' (Path_getPathname q) pl' = some (ALREADY_IN_TREE, t') := by
    intro d q hq pl'
    obtain ⟨hd1, hd2, hqi, hqc⟩ := Path_prefix_success p hpi d q hq
    obtain ⟨Q, hQ, hQi, hQc, hQn⟩ := Path_new_of_Inv q hqi
    have hQc' : Q.comps = p.comps.take d := by rw [hQc, hqc]
    have hQl : Q.comps.length = d := by rw [hQc', List.length_take]; omega
    obtain ⟨_, hins⟩ := hpres d Q hd1 (by omega) hQi hQc'
    obtain ⟨q1, hq1, hq1i, _, hq1n⟩ := Path_prefix_name Q hQi 1 (le_refl _) (by omega)
    have hcmp : Path_comparePath (Node_getPath r') q1 = 0 :=
      (comparePath_root r' q1 hrv.nameCStr hq1i.pathCStr).mpr
        (by rw [hrn, hq1n, Path_name_take p d 1 hd1 Q hQc'])
    simp only [Tree_insert, hinit', Path_getPathname, hQ, hr', hq1, hcmp,
      Path_depth_eq Q hQi, hQl, hins pl']
    simp
  obtain ⟨q, hq, hqi, hqc⟩ := Path_prefix_spec p hpi (Path_getDepth p)
    (by rw [hdep]; exact List.length_pos.mpr hpi.2.2.1) (le_refl _)
  have hqs : Path_getPathname q = s := by
    show q.pcPath = s
    rw [hqi.2.2.2.2.1, hqc, hdep, List.take_length, ← hpi.2.2.2.2.1]
    exact (Path_new_success s hs p hp).2.2.2
  refine ⟨?_, ?_, ?_⟩
  · intro pl'
    have := key _ q hq pl'
    rw [hqs] at this
    exact this
  · intro p2 hp2
    rw [hp] at hp2
    simp at hp2
    subst hp2
    exact key
  · intro t2 s2 ht2 hs2 hc pl'
    exact Tree_insert_of_contains v t2 ht2.valid s2 hs2 hc pl'

theorem Tree_insert_again_witness :
    (∀ pl', Tree_insert Variant.BDT exampleAB "a/b".toList pl' =
      some (ALREADY_IN_TREE, exampleAB)) ∧
    (∀ pl', Tree_insert Variant.BDT exampleAB "a".toList pl' =
      some (ALREADY_IN_TREE, exampleAB)) ∧
    (∀ pl', Tree_insert Variant.FT exampleAB "a/b".toList pl' =
      some (ALREADY_IN_TREE, exampleAB)) :=
  ⟨(Tree_insert_again Variant.BDT exampleEmpty (exampleEmpty_reachable _) "a/b".toList
      (by decide) none exampleAB (exampleAB_insert _)).1,
   (Tree_insert_again Variant.BDT exampleEmpty (exampleEmpty_reachable _) "a/b".toList
      (by decide) none exampleAB (exampleAB_insert _)).2.1 examplePathAB (by decide) 1
      examplePathA (by decide),
   (Tree_insert_again Variant.FT exampleEmpty (exampleEmpty_reachable _) "a/b".toList
      (by decide) none exampleAB (exampleAB_insert _)).2.2 exampleAB "a/b".toList
      (exampleAB_reachable _) (by decide) (by decide)⟩

/-- C5: in a reachable tree of any variant (it is initialized, as the removal
succeeds), after a removal of the path `s` has returned `SUCCESS`, `contains`
is false for `s` and for every path string that has `s` as a strict prefix,
whatever the kind asked for. -/
theorem Tree_rm_contains (v : Variant) (t : Tree) (hr : Reachable v t)
    (s : List Char) (hs : CStr s) (k : Option Bool) (t' : Tree)
    (h : Tree_rm v t s k = some (SUCCESS, t')) :
    (∀ k', Tree_contains v t' s k' = some false) ∧
    ∀ sq, CStr sq → ∀ pq, Path_new sq = some (SUCCESS, some pq) →
      ∀ d pp, d < Path_getDepth pq → Path_prefix pq d = some (SUCCESS, some pp) →
        Path_getPathname pp = s →
        ∀ k', Tree_contains v t' sq k' = some false := by
  obtain ⟨_, hinit', _, p, hp, hpi, hgone⟩ := Tree_rm_spec v t s k t' hs hr.valid h
  have hps := (Path_new_success s hs p hp).2.2.1
  constructor
  · intro k'
    have := hgone p hpi (le_refl _) (List.take_length _)
    simp [Tree_contains, hinit', hp, this]
  · intro sq hsq pq hpq d pp hd hpp hname k'
    obtain ⟨_, hpqi, _, _⟩ := Path_new_success sq hsq pq hpq
    obtain ⟨_, hd2, hppi, hppc⟩ := Path_prefix_success pq hpqi d pp hpp
    have hdq := Path_depth_eq pq hpqi
    have hpc : p.comps = pq.comps.take d := by
      rw [hps, ← hname, ← hppc]
      exact hppi.splitRef_eq
    have hpl : p.comps.length = d := by
      rw [hpc, List.length_take]; omega
    have := hgone pq hpqi (by omega) (by rw [hpl, hpc])
    simp [Tree_contains, hinit', hpq, this]

theorem Tree_rm_contains_witness :
    (∀ k', Tree_contains Variant.FT exampleEmpty "a".toList k' = some false) ∧
    (∀ k', Tree_contains Variant.FT exampleEmpty "a/b".toList k' = some false) :=
  ⟨(Tree_rm_contains Variant.FT exampleAB (exampleAB_reachable _) "a".toList (by decide) none
      exampleEmpty (exampleEmpty_rm _)).1,
   (Tree_rm_contains Variant.FT exampleAB (exampleAB_reachable _) "a".toList (by decide) none
      exampleEmpty (exampleEmpty_rm _)).2 "a/b".toList (by decide) examplePathAB (by decide) 1
      examplePathA (by decide) (by decide) (by decide)⟩

/-- C6: while the tree is not initialized, as before the first `init` and
after a successful `destroy`, for every path string `insert` and `rm` and also
`destroy` return `INITIALIZATION_ERROR` and leave the state as it is,
`contains` returns false and `toString` returns `NULL`; `init` on an
initialized tree returns `INITIALIZATION_ERROR`.  The state is given by its
fields: the flag, the root and the count. -/
theorem Tree_uninitialized (v : Variant) (oNRoot : Option Node) (ulCount : Nat)
    (s : List Char) (pl : Option Payload) (k : Option Bool) :
    Tree_insert v ⟨false, oNRoot, ulCount⟩ s pl =
      some (INITIALIZATION_ERROR, ⟨false, oNRoot, ulCount⟩) ∧
    Tree_rm v ⟨false, oNRoot, ulCount⟩ s k =
      some (INITIALIZATION_ERROR, ⟨false, oNRoot, ulCount⟩) ∧
    Tree_destroy ⟨false, oNRoot, ulCount⟩ = (INITIALIZATION_ERROR, ⟨false, oNRoot, ulCount⟩) ∧
    Tree_contains v ⟨false, oNRoot, ulCount⟩ s k = some false ∧
    Tree_toString v ⟨false, oNRoot, ulCount⟩ = none ∧
    Tree_init ⟨true, oNRoot, ulCount⟩ = (INITIALIZATION_ERROR, ⟨true, oNRoot, ulCount⟩) ∧
    Tree.uninitialized = ⟨false, none, 0⟩ ∧
    Tree_destroy ⟨true, oNRoot, ulCount⟩ = (SUCCESS, ⟨false, none, 0⟩) ∧
    Tree_init ⟨false, oNRoot, ulCount⟩ = (SUCCESS, ⟨true, none, 0⟩) := by
  refine ⟨?_, ?_, ?_, ?_, ?_, ?_, rfl, ?_, ?_⟩ <;>
    simp [Tree_insert, Tree_rm, Tree_destroy, Tree_contains, Tree_toString, Tree_init]

/-- C7: for every path `p` built by `Path_new` and every depth `d` from 1 to
the depth of `p`, ` Path_prefix p d` returns `SUCCESS` with a path of depth `d`
that has the components of `p` at the levels below `d`, whose pathname is these
components joined by the delimiter, and whose stored length is the length of
that pathname. -/
theorem Path_prefix_correct (s : List Char) (hs : CStr s) (p : Path)
    (hp : Path_new s = some (SUCCESS, some p)) (d : Nat) (h1 : 1 ≤ d)
    (h2 : d ≤ Path_getDepth p) :
    ∃ q, Path_prefix p d = some (SUCCESS, some q) ∧
      Path_getDepth q = d ∧
      (∀ i, i < d → Path_getComponent q i = Path_getComponent p i) ∧
      (∃ comps : List (List Char),
        (List.range d).map (Path_getComponent p) = comps.map some ∧
        Path_getPathname q = [SLASH].intercalate comps) ∧
      Path_getStrLength q = (Path_getPathname q).length := by
  have hinv := (Path_new_success s hs p hp).2.1
  obtain ⟨q, hq, hqi, hqc⟩ := Path_prefix_spec p hinv d h1 h2
  have hdp := Path_depth_eq p hinv
  refine ⟨q, hq, ?_, ?_, ⟨p.comps.take d, ?_, ?_⟩, hqi.2.2.2.2.2⟩
  · rw [Path_depth_eq q hqi, hqc, List.length_take]; omega
  · intro i hi
    rw [Path_getComponent_eq q hqi, Path_getComponent_eq p hinv, hqc, List.getElem?_take]
    simp [hi]
  · apply List.ext_getElem?
    intro i
    by_cases hi : i < d
    · simp [List.getElem?_range hi, Path_getComponent_eq p hinv, List.getElem?_take, hi]
      have : i < p.comps.length := by omega
      simp [List.getElem?_eq_getElem this]
    · simp [List.getElem?_take, hi]
      omega
  · show q.pcPath = _
    rw [hqi.2.2.2.2.1, hqc]

theorem Path_prefix_correct_witness :
    ∃ q, Path_prefix ⟨"a/bc/d".toList, 6,
        ⟨3, 4, [some ['a'], some ['b', 'c'], some ['d'], none]⟩⟩ 2 = some (SUCCESS, some q) ∧
      Path_getDepth q = 2 ∧
      (∀ i, i < 2 → Path_getComponent q i = Path_getComponent ⟨"a/bc/d".toList, 6,
        ⟨3, 4, [some ['a'], some ['b', 'c'], some ['d'], none]⟩⟩ i) ∧
      (∃ comps : List (List Char),
        (List.range 2).map (Path_getComponent ⟨"a/bc/d".toList, 6,
          ⟨3, 4, [some ['a'], some ['b', 'c'], some ['d'], none]⟩⟩) = comps.map some ∧
        Path_getPathname q = [SLASH].intercalate comps) ∧
      Path_getStrLength q = (Path_getPathname q).length :=
  Path_prefix_correct "a/bc/d".toList (by decide) _ (by decide) 2 (by decide) (by decide)

/-- C8: for every path `p` a client can hold and every `ulDepth`,
` Path_prefix p ulDepth` returns `NO_SUCH_PATH` with a `NULL` result exactly
when `ulDepth` is 0 or greater than the depth of `p`, and `SUCCESS` with a
path for every other `ulDepth`. -/
theorem Path_prefix_no_such_path_iff (p : Path) (hp : p.Built) (ulDepth : Nat) :
    ( Path_prefix p ulDepth = some (NO_SUCH_PATH, none) ↔
      (ulDepth = 0 ∨ ulDepth > Path_getDepth p)) ∧
    (¬ (ulDepth = 0 ∨ ulDepth > Path_getDepth p) →
      ∃ q, Path_prefix p ulDepth = some (SUCCESS, some q)) := by
  have hinv := hp.toInv
  have hsucc : ¬ (ulDepth = 0 ∨ ulDepth > Path_getDepth p) →
      ∃ q, Path_prefix p ulDepth = some (SUCCESS, some q) := by
    intro h
    obtain ⟨q, hq, _⟩ := Path_prefix_spec p hinv ulDepth (by omega) (by omega)
    exact ⟨q, hq⟩
  refine ⟨⟨?_, ?_⟩, hsucc⟩
  · intro h
    by_contra hc
    obtain ⟨q, hq⟩ := hsucc hc
    rw [hq] at h
    simp at h
  · intro h
    rcases h with h | h
    · simp [ Path_prefix, h]
    · by_cases h0 : ulDepth = 0
      · simp [ Path_prefix, h0]
      · have : Path_getDepth p < ulDepth := h
        simp [ Path_prefix, h0, this]

theorem Path_prefix_no_such_path_iff_witness :
    ( Path_prefix examplePathAB 3 = some (NO_SUCH_PATH, none) ↔
      (3 = 0 ∨ 3 > Path_getDepth examplePathAB)) ∧
    (∃ q, Path_prefix examplePathAB 1 = some (SUCCESS, some q)) :=
  ⟨(Path_prefix_no_such_path_iff examplePathAB
      (Path.Built.new "a/b".toList _ (by decide) (by decide)) 3).1,
   (Path_prefix_no_such_path_iff examplePathAB
      (Path.Built.new "a/b".toList _ (by decide) (by decide)) 1).2 (by decide)⟩

/-- C9: for all paths `a` and `b` a client can hold,
`Path_getSharedPrefixDepth a b` is the largest `k` not above the depths of `a`
and `b` such that `a` and `b` have equal components at every level below `k`;
it is 1 for "Charles/William/George" and "Charles/Harry/Archie" and 2 for
"Charles/William/George" and "Charles/William/Charlotte". -/
theorem Path_getSharedPrefixDepth_correct (a b : Path) (ha : a.Built) (hb : b.Built) :
    (∃ k, Path_getSharedPrefixDepth a b = some k ∧
      k ≤ min (Path_getDepth a) (Path_getDepth b) ∧
      (∀ i, i < k → Path_getComponent a i = Path_getComponent b i) ∧
      (∀ k', k' ≤ min (Path_getDepth a) (Path_getDepth b) →
        (∀ i, i < k' → Path_getComponent a i = Path_getComponent b i) → k' ≤ k)) ∧
    sharedPrefixDepthOfStrings "Charles/William/George".toList
      "Charles/Harry/Archie".toList = some 1 ∧
    sharedPrefixDepthOfStrings "Charles/William/George".toList
      "Charles/William/Charlotte".toList = some 2 := by
  refine ⟨?_, by decide, by decide⟩
  have hai := ha.toInv
  have hbi := hb.toInv
  have hda := Path_depth_eq a hai
  have hdb := Path_depth_eq b hbi
  have hmin : (if Path_getDepth a < Path_getDepth b then Path_getDepth a else Path_getDepth b) =
      min (Path_getDepth a) (Path_getDepth b) := by
    split <;> omega
  obtain ⟨k, hk1, _, hk3, hk4, hk5⟩ := sharedLoop_spec a b hai hbi
    (min (Path_getDepth a) (Path_getDepth b)) (by omega) (by omega)
    (min (Path_getDepth a) (Path_getDepth b)) 0 (by omega)
  refine ⟨k, ?_, hk3, ?_, ?_⟩
  · simp only [Path_getSharedPrefixDepth, hmin]; exact hk1
  · intro i hi
    rw [Path_getComponent_eq a hai, Path_getComponent_eq b hbi]
    exact hk4 i (Nat.zero_le _) hi
  · intro k' hk' hall
    by_contra hc
    have hlt : k < k' := by omega
    have := hall k hlt
    rw [Path_getComponent_eq a hai, Path_getComponent_eq b hbi] at this
    exact hk5 (by omega) this

theorem Path_getSharedPrefixDepth_correct_witness :
    (∃ k, Path_getSharedPrefixDepth
        ⟨"a/bc".toList, 4, ⟨2, 2, [some ['a'], some ['b', 'c']]⟩⟩
        ⟨"a/d".toList, 3, ⟨2, 2, [some ['a'], some ['d']]⟩⟩ = some k ∧
      k ≤ min (Path_getDepth ⟨"a/bc".toList, 4, ⟨2, 2, [some ['a'], some ['b', 'c']]⟩⟩)
        (Path_getDepth ⟨"a/d".toList, 3, ⟨2, 2, [some ['a'], some ['d']]⟩⟩) ∧
      (∀ i, i < k →
        Path_getComponent ⟨"a/bc".toList, 4, ⟨2, 2, [some ['a'], some ['b', 'c']]⟩⟩ i =
        Path_getComponent ⟨"a/d".toList, 3, ⟨2, 2, [some ['a'], some ['d']]⟩⟩ i) ∧
      (∀ k', k' ≤ min (Path_getDepth ⟨"a/bc".toList, 4, ⟨2, 2, [some ['a'], some ['b', 'c']]⟩⟩)
          (Path_getDepth ⟨"a/d".toList, 3, ⟨2, 2, [some ['a'], some ['d']]⟩⟩) →
        (∀ i, i < k' →
          Path_getComponent ⟨"a/bc".toList, 4, ⟨2, 2, [some ['a'], some ['b', 'c']]⟩⟩ i =
          Path_getComponent ⟨"a/d".toList, 3, ⟨2, 2, [some ['a'], some ['d']]⟩⟩ i) → k' ≤ k)) ∧
    sharedPrefixDepthOfStrings "Charles/William/George".toList
      "Charles/Harry/Archie".toList = some 1 ∧
    sharedPrefixDepthOfStrings "Charles/William/George".toList
      "Charles/William/Charlotte".toList = some 2 :=
  Path_getSharedPrefixDepth_correct _ _
    (Path.Built.new "a/bc".toList _ (by decide) (by decide))
    (Path.Built.new "a/d".toList _ (by decide) (by decide))

/-- C10: for all paths `a` and `b` a client can hold and every C string `s`,
`Path_comparePath a b` is negative, zero or positive exactly when the pathname
of `a` is byte-wise lexicographically less than, equal to or greater than the
pathname of `b`; `Path_compareString a s` relates the pathname of `a` and `s`
in the same way; and `Path_compareString` of the path built from `s` with `s`
itself is 0. -/
theorem Path_compare_lexicographic (a b : Path) (ha : a.Built) (hb : b.Built)
    (s : List Char) (hs : CStr s) :
    (Path_comparePath a b < 0 ↔ lexLt (Path_getPathname a) (Path_getPathname b)) ∧
    (Path_comparePath a b = 0 ↔ Path_getPathname a = Path_getPathname b) ∧
    (0 < Path_comparePath a b ↔ lexLt (Path_getPathname b) (Path_getPathname a)) ∧
    (Path_compareString a s < 0 ↔ lexLt (Path_getPathname a) s) ∧
    (Path_compareString a s = 0 ↔ Path_getPathname a = s) ∧
    (0 < Path_compareString a s ↔ lexLt s (Path_getPathname a)) ∧
    (∀ p, Path_new s = some (SUCCESS, some p) → Path_compareString p s = 0) := by
  have hca : CStr a.pcPath := by
    have hi := ha.toInv
    rw [hi.2.2.2.2.1]
    exact CStr_intercalate _ (fun c hc => (hi.2.2.2.1 c hc).2.2)
  have hcb : CStr b.pcPath := by
    have hi := hb.toInv
    rw [hi.2.2.2.2.1]
    exact CStr_intercalate _ (fun c hc => (hi.2.2.2.1 c hc).2.2)
  obtain ⟨h1, h2, h3⟩ := strcmp_sign _ _ hca hcb
  obtain ⟨h4, h5, h6⟩ := strcmp_sign _ _ hca hs
  refine ⟨h1, h2, h3, h4, h5, h6, ?_⟩
  intro p hp
  have := (Path_new_success s hs p hp).2.2.2
  exact (strcmp_sign _ _ (this ▸ hs) hs).2.1.mpr this

theorem Path_compare_lexicographic_witness :
    (Path_comparePath ⟨"a/bc".toList, 4, ⟨2, 2, [some ['a'], some ['b', 'c']]⟩⟩
        ⟨"a/d".toList, 3, ⟨2, 2, [some ['a'], some ['d']]⟩⟩ < 0 ↔
      lexLt (Path_getPathname ⟨"a/bc".toList, 4, ⟨2, 2, [some ['a'], some ['b', 'c']]⟩⟩)
        (Path_getPathname ⟨"a/d".toList, 3, ⟨2, 2, [some ['a'], some ['d']]⟩⟩)) ∧
    (Path_comparePath ⟨"a/bc".toList, 4, ⟨2, 2, [some ['a'], some ['b', 'c']]⟩⟩
        ⟨"a/d".toList, 3, ⟨2, 2, [some ['a'], some ['d']]⟩⟩ = 0 ↔
      Path_getPathname ⟨"a/bc".toList, 4, ⟨2, 2, [some ['a'], some ['b', 'c']]⟩⟩ =
        Path_getPathname ⟨"a/d".toList, 3, ⟨2, 2, [some ['a'], some ['d']]⟩⟩) ∧
    (0 < Path_comparePath ⟨"a/bc".toList, 4, ⟨2, 2, [some ['a'], some ['b', 'c']]⟩⟩
        ⟨"a/d".toList, 3, ⟨2, 2, [some ['a'], some ['d']]⟩⟩ ↔
      lexLt (Path_getPathname ⟨"a/d".toList, 3, ⟨2, 2, [some ['a'], some ['d']]⟩⟩)
        (Path_getPathname ⟨"a/bc".toList, 4, ⟨2, 2, [some ['a'], some ['b', 'c']]⟩⟩)) ∧
    (Path_compareString ⟨"a/bc".toList, 4, ⟨2, 2, [some ['a'], some ['b', 'c']]⟩⟩
        "a/b".toList < 0 ↔
      lexLt (Path_getPathname ⟨"a/bc".toList, 4, ⟨2, 2, [some ['a'], some ['b', 'c']]⟩⟩)
        "a/b".toList) ∧
    (Path_compareString ⟨"a/bc".toList, 4, ⟨2, 2, [some ['a'], some ['b', 'c']]⟩⟩
        "a/b".toList = 0 ↔
      Path_getPathname ⟨"a/bc".toList, 4, ⟨2, 2, [some ['a'], some ['b', 'c']]⟩⟩ =
        "a/b".toList) ∧
    (0 < Path_compareString ⟨"a/bc".toList, 4, ⟨2, 2, [some ['a'], some ['b', 'c']]⟩⟩
        "a/b".toList ↔
      lexLt "a/b".toList
        (Path_getPathname ⟨"a/bc".toList, 4, ⟨2, 2, [some ['a'], some ['b', 'c']]⟩⟩)) ∧
    (∀ p, Path_new "a/b".toList = some (SUCCESS, some p) →
      Path_compareString p "a/b".toList = 0) :=
  Path_compare_lexicographic _ _
    (Path.Built.new "a/bc".toList _ (by decide) (by decide))
    (Path.Built.new "a/d".toList _ (by decide) (by decide))
    "a/b".toList (by decide)

/-- C11: for every path `p` a client can hold (built by `Path_new`, or by
` Path_prefix` from such a path), `Path_dup p` is the call
` Path_prefix p (Path_getDepth p)`; it returns `SUCCESS`, never `NO_SUCH_PATH`,
with a path that has the pathname, the string length, the depth and the
components of `p`, and `Path_comparePath` of `p` and the copy is 0. -/
theorem Path_dup_correct (p : Path) (hp : p.Built) :
    ∃ q, Path_dup p = some (SUCCESS, some q) ∧
      Path_dup p = Path_prefix p (Path_getDepth p) ∧
      Path_dup p ≠ some (NO_SUCH_PATH, none) ∧
      Path_getPathname q = Path_getPathname p ∧
      Path_getStrLength q = Path_getStrLength p ∧
      Path_getDepth q = Path_getDepth p ∧
      (∀ k, Path_getComponent q k = Path_getComponent p k) ∧
      Path_comparePath p q = 0 := by
  have hinv := hp.toInv
  have hd := Path_depth_eq p hinv
  obtain ⟨q, hq, hqinv, hqc⟩ :=
    Path_prefix_spec p hinv (Path_getDepth p) hinv.depth_pos (le_refl _)
  have hqc' : q.comps = p.comps := by rw [hqc, hd, List.take_length]
  have hname : q.pcPath = p.pcPath := by rw [hqinv.2.2.2.2.1, hinv.2.2.2.2.1, hqc']
  have hdup : Path_dup p = some (SUCCESS, some q) := hq
  refine ⟨q, hdup, rfl, ?_, hname, ?_, ?_, ?_, ?_⟩
  · rw [hdup]; simp
  · simp only [Path_getStrLength]; rw [hqinv.2.2.2.2.2, hinv.2.2.2.2.2, hname]
  · rw [Path_depth_eq q hqinv, hd, hqc']
  · intro k; rw [Path_getComponent_eq q hqinv, Path_getComponent_eq p hinv, hqc']
  · exact (strcmp_sign _ _ hinv.pathCStr hqinv.pathCStr).2.1.mpr hname.symm

theorem Path_dup_correct_witness :
    ∃ q, Path_dup examplePathAB = some (SUCCESS, some q) ∧
      Path_dup examplePathAB = Path_prefix examplePathAB (Path_getDepth examplePathAB) ∧
      Path_dup examplePathAB ≠ some (NO_SUCH_PATH, none) ∧
      Path_getPathname q = Path_getPathname examplePathAB ∧
      Path_getStrLength q = Path_getStrLength examplePathAB ∧
      Path_getDepth q = Path_getDepth examplePathAB ∧
      (∀ k, Path_getComponent q k = Path_getComponent examplePathAB k) ∧
      Path_comparePath examplePathAB q = 0 :=
  Path_dup_correct examplePathAB (Path.Built.new "a/b".toList _ (by decide) (by decide))

/-- C12: for every path `p` a client can hold and every level `k`,
`Path_getComponent p k` is `NULL` exactly when `k` is at least the depth of
`p`; below the depth it is the `k`-th component of the pathname, counting
from 0, the components of the pathname being its tokens between the
delimiters; level 0 gives the root component. -/
theorem Path_getComponent_correct (p : Path) (hp : p.Built) (k : Nat) :
    (Path_getComponent p k = none ↔ k ≥ Path_getDepth p) ∧
    Path_getDepth p = (splitRef (Path_getPathname p)).length ∧
    Path_getComponent p k = (splitRef (Path_getPathname p))[k]? ∧
    Path_getComponent p 0 = (splitRef (Path_getPathname p)).head? := by
  have hinv := hp.toInv
  have hd := Path_depth_eq p hinv
  have hsp : splitRef (Path_getPathname p) = p.comps := hinv.splitRef_eq
  rw [hsp, Path_getComponent_eq p hinv, Path_getComponent_eq p hinv, hd]
  refine ⟨?_, rfl, rfl, ?_⟩
  · simp [List.getElem?_eq_none_iff]
  · cases p.comps <;> simp

theorem Path_getComponent_correct_witness :
    (Path_getComponent examplePathAB 1 = none ↔ 1 ≥ Path_getDepth examplePathAB) ∧
    Path_getDepth examplePathAB = (splitRef (Path_getPathname examplePathAB)).length ∧
    Path_getComponent examplePathAB 1 = (splitRef (Path_getPathname examplePathAB))[1]? ∧
    Path_getComponent examplePathAB 0 = (splitRef (Path_getPathname examplePathAB)).head? :=
  Path_getComponent_correct examplePathAB
    (Path.Built.new "a/b".toList _ (by decide) (by decide)) 1

/-- C13: for every C string `s` on which `Path_new` succeeds, the path has at
least one component, and the component of every level below the depth is a
non-empty string without the delimiter. -/
theorem Path_new_components (s : List Char) (hs : CStr s) (p : Path)
    (h : Path_new s = some (SUCCESS, some p)) :
    1 ≤ Path_getDepth p ∧
    ∀ k, k < Path_getDepth p →
      ∃ c, Path_getComponent p k = some c ∧ c ≠ [] ∧ SLASH ∉ c := by
  obtain ⟨_, hinv, _, _⟩ := Path_new_success s hs p h
  refine ⟨hinv.depth_pos, ?_⟩
  intro k hk
  rw [Path_depth_eq p hinv] at hk
  rw [Path_getComponent_eq p hinv]
  refine ⟨p.comps[k], ?_, ?_⟩
  · simp [hk]
  · have := hinv.2.2.2.1 p.comps[k] (List.getElem_mem hk)
    exact ⟨this.1, this.2.1⟩

theorem Path_new_components_witness :
    1 ≤ Path_getDepth examplePathAB ∧
    ∀ k, k < Path_getDepth examplePathAB →
      ∃ c, Path_getComponent examplePathAB k = some c ∧ c ≠ [] ∧ SLASH ∉ c :=
  Path_new_components "a/b".toList (by decide) examplePathAB (by decide)

/-- C14: for every C string `s` on which `Path_new` succeeds, the depth of the
path is one plus the number of delimiters in `s`; the path of "someRoot" has
depth 1 and the path of "someRoot/aChild/aGrandChild/aGreatGrandChild" has
depth 4. -/
theorem Path_new_depth (s : List Char) (hs : CStr s) (p : Path)
    (h : Path_new s = some (SUCCESS, some p)) :
    Path_getDepth p = s.count SLASH + 1 ∧
    (∃ a, Path_new "someRoot".toList = some (SUCCESS, some a) ∧ Path_getDepth a = 1) ∧
    (∃ b, Path_new "someRoot/aChild/aGrandChild/aGreatGrandChild".toList =
        some (SUCCESS, some b) ∧ Path_getDepth b = 4) := by
  obtain ⟨_, hinv, hc, _⟩ := Path_new_success s hs p h
  refine ⟨?_, ?_, ?_⟩
  · rw [Path_depth_eq p hinv, hc, splitRef_length]
  · exact ⟨_, rfl, rfl⟩
  · exact ⟨_, rfl, rfl⟩

theorem Path_new_depth_witness :
    Path_getDepth examplePathAB = "a/b".toList.count SLASH + 1 ∧
    (∃ a, Path_new "someRoot".toList = some (SUCCESS, some a) ∧ Path_getDepth a = 1) ∧
    (∃ b, Path_new "someRoot/aChild/aGrandChild/aGreatGrandChild".toList =
        some (SUCCESS, some b) ∧ Path_getDepth b = 4) :=
  Path_new_depth "a/b".toList (by decide) examplePathAB (by decide)

/-- C15: for every C string `s` on which `Path_new` succeeds, the pathname of
the path is `s` and its string length is the length of `s`, the terminator not
counted. -/
theorem Path_new_pathname (s : List Char) (hs : CStr s) (p : Path)
    (h : Path_new s = some (SUCCESS, some p)) :
    Path_getPathname p = s ∧ Path_getStrLength p = s.length ∧
    Path_getStrLength p = strlen s := by
  obtain ⟨_, hinv, _, hpath⟩ := Path_new_success s hs p h
  refine ⟨hpath, ?_, ?_⟩
  · simp only [Path_getStrLength]; rw [hinv.2.2.2.2.2, hpath]
  · simp only [Path_getStrLength]; rw [hinv.2.2.2.2.2, hpath, strlen_of_CStr s hs]

theorem Path_new_pathname_witness :
    Path_getPathname examplePathAB = "a/b".toList ∧
    Path_getStrLength examplePathAB = "a/b".toList.length ∧
    Path_getStrLength examplePathAB = strlen "a/b".toList :=
  Path_new_pathname "a/b".toList (by decide) examplePathAB (by decide)

/-- C16: in the general variant, in every reachable state with a root `r`,
`toString` is the list of the nodes of `r` in depth-first preorder written one
absolute path per line, and the children of every node are in strictly
ascending lexicographic order of their paths, whatever the order of the
insertions was.  From the empty tree, after insert "a/y" and insert "a/x" the
dump is "a\na/x\na/y\n", as it is after the insertions in the other order;
after the insertion of "1root/y", "1root/x" and "1root/x/C" the dump lists
"1root", "1root/x", "1root/x/C" and "1root/y" in this order. -/
theorem DT_toString_lexicographic (t : Tree) (hr : Reachable Variant.DT t)
    (r : Node) (hroot : t.oNRoot = some r) :
    Tree_toString Variant.DT t = some (linesOf r.preorder) ∧
    (∀ n, n ∈ r.preorder →
      n.children.Pairwise (fun a b => lexLt (Node_toString a) (Node_toString b))) ∧
    (∃ t1 t2, Tree_insert Variant.DT exampleEmpty "a/y".toList none = some (SUCCESS, t1) ∧
      Tree_insert Variant.DT t1 "a/x".toList none = some (SUCCESS, t2) ∧
      Tree_toString Variant.DT t2 = some "a\na/x\na/y\n".toList) ∧
    (∃ t1 t2, Tree_insert Variant.DT exampleEmpty "a/x".toList none = some (SUCCESS, t1) ∧
      Tree_insert Variant.DT t1 "a/y".toList none = some (SUCCESS, t2) ∧
      Tree_toString Variant.DT t2 = some "a\na/x\na/y\n".toList) ∧
    (∃ t1 t2 t3,
      Tree_insert Variant.DT exampleEmpty "1root/y".toList none = some (SUCCESS, t1) ∧
      Tree_insert Variant.DT t1 "1root/x".toList none = some (SUCCESS, t2) ∧
      Tree_insert Variant.DT t2 "1root/x/C".toList none = some (SUCCESS, t3) ∧
      Tree_toString Variant.DT t3 = some "1root\n1root/x\n1root/x/C\n1root/y\n".toList) := by
  have hinit := hr.rootInit r hroot
  have hval := hr.valid r hroot
  refine ⟨?_, ?_, ⟨_, _, rfl, rfl, rfl⟩, ⟨_, _, rfl, rfl, rfl⟩, ⟨_, _, _, rfl, rfl, rfl, rfl⟩⟩
  · rw [Tree_toString_root _ t r hinit hroot, dump_preorder _ (by decide)]
  · intro n hn
    exact (Node.Valid.ofPreorder r hval n hn).parts.2.1

theorem DT_toString_lexicographic_witness :
    Tree_toString Variant.DT exampleAB = some (linesOf exampleRoot.preorder) ∧
    (∀ n, n ∈ exampleRoot.preorder →
      n.children.Pairwise (fun a b => lexLt (Node_toString a) (Node_toString b))) ∧
    (∃ t1 t2, Tree_insert Variant.DT exampleEmpty "a/y".toList none = some (SUCCESS, t1) ∧
      Tree_insert Variant.DT t1 "a/x".toList none = some (SUCCESS, t2) ∧
      Tree_toString Variant.DT t2 = some "a\na/x\na/y\n".toList) ∧
    (∃ t1 t2, Tree_insert Variant.DT exampleEmpty "a/x".toList none = some (SUCCESS, t1) ∧
      Tree_insert Variant.DT t1 "a/y".toList none = some (SUCCESS, t2) ∧
      Tree_toString Variant.DT t2 = some "a\na/x\na/y\n".toList) ∧
    (∃ t1 t2 t3,
      Tree_insert Variant.DT exampleEmpty "1root/y".toList none = some (SUCCESS, t1) ∧
      Tree_insert Variant.DT t1 "1root/x".toList none = some (SUCCESS, t2) ∧
      Tree_insert Variant.DT t2 "1root/x/C".toList none = some (SUCCESS, t3) ∧
      Tree_toString Variant.DT t3 = some "1root\n1root/x\n1root/x/C\n1root/y\n".toList) :=
  DT_toString_lexicographic exampleAB (exampleAB_reachable Variant.DT) exampleRoot rfl

/-- C17: in the binary variant the dump lists the children of every node in
the order in which the node holds them, which is the order of insertion with
promotion.  In every reachable state with a root `r`: `toString` is the
preorder of `r`, one path per line; a successful `insert` adds the dump of the
new child `N` directly behind the dump of the subtree of its parent `P`, an
existing node, that is behind the existing children of `P`, and leaves the
text before and behind unchanged; a successful `rm` deletes the dump of the
subtree of the removed node `R` and leaves the text before and behind
unchanged, so that the later child moves up.  From the empty tree, after
insert "a/y" and insert "a/x" the dump is "a\na/y\na/x\n", after rm "a/y" it
is "a\na/x\n", and after a further insert "a/y2" it is "a\na/x\na/y2\n". -/
theorem BDT_toString_insertion_order (t : Tree) (hr : Reachable Variant.BDT t)
    (s : List Char) (hs : CStr s) (r : Node) (hroot : t.oNRoot = some r) :
    Tree_toString Variant.BDT t = some (linesOf r.preorder) ∧
    (∀ pl t', Tree_insert Variant.BDT t s pl = some (SUCCESS, t') →
      ∃ (X Y : List Char) (P N : Node), P ∈ r.preorder ∧
        Tree_toString Variant.BDT t = some (X ++ Tree_dump Variant.BDT P ++ Y) ∧
        Tree_toString Variant.BDT t' =
          some (X ++ Tree_dump Variant.BDT P ++ Tree_dump Variant.BDT N ++ Y) ∧
        ∃ (p : Path) (j : Nat) (qP qN : Path), Path_new s = some (SUCCESS, some p) ∧
          Path_prefix p j = some (SUCCESS, some qP) ∧
          Path_prefix p (j + 1) = some (SUCCESS, some qN) ∧
          Node_toString P = Path_getPathname qP ∧ Node_toString N = Path_getPathname qN) ∧
    (∀ t', Tree_rm Variant.BDT t s none = some (SUCCESS, t') →
      ∃ (X Y : List Char) (R : Node), R ∈ r.preorder ∧ Node_toString R = s ∧
        Tree_toString Variant.BDT t = some (X ++ Tree_dump Variant.BDT R ++ Y) ∧
        Tree_toString Variant.BDT t' = some (X ++ Y)) ∧
    (∃ t1 t2 t3 t4,
      Tree_insert Variant.BDT exampleEmpty "a/y".toList none = some (SUCCESS, t1) ∧
      Tree_insert Variant.BDT t1 "a/x".toList none = some (SUCCESS, t2) ∧
      Tree_toString Variant.BDT t2 = some "a\na/y\na/x\n".toList ∧
      Tree_rm Variant.BDT t2 "a/y".toList none = some (SUCCESS, t3) ∧
      Tree_toString Variant.BDT t3 = some "a\na/x\n".toList ∧
      Tree_insert Variant.BDT t3 "a/y2".toList none = some (SUCCESS, t4) ∧
      Tree_toString Variant.BDT t4 = some "a\na/x\na/y2\n".toList) := by
  have hinit := hr.rootInit r hroot
  have hval := hr.valid
  refine ⟨?_, ?_, ?_, ⟨_, _, _, _, rfl, rfl, rfl, rfl, rfl, rfl, rfl⟩⟩
  · rw [Tree_toString_root _ t r hinit hroot, dump_preorder _ (by decide)]
  · intro pl t' h
    exact Tree_insert_dump t hval s hs pl t' h r hroot
  · intro t' h
    obtain ⟨r0, X, Y, R, hr0, hR, hRn, d1, d2⟩ :=
      Tree_rm_dump Variant.BDT (by decide) t hval s hs none t' h
    rw [hroot] at hr0
    simp at hr0
    subst hr0
    exact ⟨X, Y, R, hR, hRn, d1, d2⟩

theorem BDT_toString_insertion_order_witness :
    Tree_toString Variant.BDT exampleAB = some (linesOf exampleRoot.preorder) ∧
    (∀ pl t', Tree_insert Variant.BDT exampleAB "a/c".toList pl = some (SUCCESS, t') →
      ∃ (X Y : List Char) (P N : Node), P ∈ exampleRoot.preorder ∧
        Tree_toString Variant.BDT exampleAB = some (X ++ Tree_dump Variant.BDT P ++ Y) ∧
        Tree_toString Variant.BDT t' =
          some (X ++ Tree_dump Variant.BDT P ++ Tree_dump Variant.BDT N ++ Y) ∧
        ∃ (p : Path) (j : Nat) (qP qN : Path),
          Path_new "a/c".toList = some (SUCCESS, some p) ∧
          Path_prefix p j = some (SUCCESS, some qP) ∧
          Path_prefix p (j + 1) = some (SUCCESS, some qN) ∧
          Node_toString P = Path_getPathname qP ∧ Node_toString N = Path_getPathname qN) ∧
    (∀ t', Tree_rm Variant.BDT exampleAB "a/c".toList none = some (SUCCESS, t') →
      ∃ (X Y : List Char) (R : Node), R ∈ exampleRoot.preorder ∧
        Node_toString R = "a/c".toList ∧
        Tree_toString Variant.BDT exampleAB = some (X ++ Tree_dump Variant.BDT R ++ Y) ∧
        Tree_toString Variant.BDT t' = some (X ++ Y)) ∧
    (∃ t1 t2 t3 t4,
      Tree_insert Variant.BDT exampleEmpty "a/y".toList none = some (SUCCESS, t1) ∧
      Tree_insert Variant.BDT t1 "a/x".toList none = some (SUCCESS, t2) ∧
      Tree_toString Variant.BDT t2 = some "a\na/y\na/x\n".toList ∧
      Tree_rm Variant.BDT t2 "a/y".toList none = some (SUCCESS, t3) ∧
      Tree_toString Variant.BDT t3 = some "a\na/x\n".toList ∧
      Tree_insert Variant.BDT t3 "a/y2".toList none = some (SUCCESS, t4) ∧
      Tree_toString Variant.BDT t4 = some "a\na/x\na/y2\n".toList) :=
  BDT_toString_insertion_order exampleAB (exampleAB_reachable Variant.BDT) "a/c".toList
    (by decide) exampleRoot rfl

/-- C18: in the typed variant, in every reachable state, for every C string
`s` with the path `p` such that a proper prefix `q` of `p` is in the tree as a
file: the insertion of `s` as a directory and the insertion of `s` as a file
with any contents both return `NOT_A_DIRECTORY` and leave the tree as it was,
so that afterwards neither `containsDir` nor `containsFile` holds of `s`. -/
theorem FT_insert_under_file (t : Tree) (hr : Reachable Variant.FT t)
    (s : List Char) (hs : CStr s) (p : Path) (hp : Path_new s = some (SUCCESS, some p))
    (d : Nat) (hd : d < Path_getDepth p) (q : Path)
    (hq : Path_prefix p d = some (SUCCESS, some q))
    (hfile : Tree_contains Variant.FT t (Path_getPathname q) (some true) = some true)
    (oPayload : Payload) :
    Tree_insert Variant.FT t s none = some (NOT_A_DIRECTORY, t) ∧
    Tree_insert Variant.FT t s (some oPayload) = some (NOT_A_DIRECTORY, t) ∧
    Tree_contains Variant.FT t s (some false) = some false ∧
    Tree_contains Variant.FT t s (some true) = some false := by
  obtain ⟨h1, h2⟩ := Tree_insert_under_file Variant.FT t hr.valid s hs p hp d hd q hq hfile
  exact ⟨h1 none, h1 (some oPayload), h2 (some false), h2 (some true)⟩

theorem FT_insert_under_file_witness :
    Tree_insert Variant.FT exampleFile "a/f/g".toList none =
      some (NOT_A_DIRECTORY, exampleFile) ∧
    Tree_insert Variant.FT exampleFile "a/f/g".toList (some ⟨some [1, 2], 2⟩) =
      some (NOT_A_DIRECTORY, exampleFile) ∧
    Tree_contains Variant.FT exampleFile "a/f/g".toList (some false) = some false ∧
    Tree_contains Variant.FT exampleFile "a/f/g".toList (some true) = some false :=
  FT_insert_under_file exampleFile (exampleFile_reachable Variant.FT) "a/f/g".toList
    (by decide) ⟨"a/f/g".toList, 5, ⟨3, 4, [some ['a'], some ['f'], some ['g'], none]⟩⟩
    (by decide) 2 (by decide) ⟨"a/f".toList, 3, ⟨2, 2, [some ['a'], some ['f']]⟩⟩
    (by decide) (by decide) ⟨some [1, 2], 2⟩

/-- C19: for every DynArray that is sorted ascending under `pfCompare`, a
consistent total preorder, and every sought element that no element of the
array compares equal to, `DynArray_bsearch` returns 0 and stores an index `k`
that is at most the length, such that every element at an index below `k`
compares less than the sought element and every element at an index from `k`
on compares greater; for an empty array the index stored is 0. -/
theorem DynArray_bsearch_absent {α : Type} [Inhabited α] (oDynArray : DynArray α)
    (pvSoughtElement : α) (pfCompare : α → α → Int)
    (hcmp : CompareConsistent pfCompare) (hsorted : oDynArray.SortedBy pfCompare)
    (habs : ∀ i, i < DynArray_getLength oDynArray →
      pfCompare (DynArray_get oDynArray i) pvSoughtElement ≠ 0) :
    ∃ k, DynArray_bsearch oDynArray pvSoughtElement pfCompare = some (0, k) ∧
      k ≤ DynArray_getLength oDynArray ∧
      (∀ i, i < k → pfCompare (DynArray_get oDynArray i) pvSoughtElement < 0) ∧
      (∀ i, k ≤ i → i < DynArray_getLength oDynArray →
        0 < pfCompare (DynArray_get oDynArray i) pvSoughtElement) ∧
      (DynArray_getLength oDynArray = 0 → k = 0) := by
  obtain ⟨m1, m2⟩ := hcmp.signMono hsorted pvSoughtElement
  rcases DynArray_bsearch_spec oDynArray pvSoughtElement pfCompare m1 m2 with
    ⟨mid, _, hlt, heq⟩ | ⟨k, hk, hle, hlo, hhi⟩
  · exact absurd heq (habs mid hlt)
  · exact ⟨k, hk, hle, hlo, hhi, fun h0 => by simp only [DynArray_getLength] at h0; omega⟩

theorem DynArray_bsearch_absent_witness :
    ∃ k, DynArray_bsearch exampleArray 4 exampleCompare = some (0, k) ∧
      k ≤ DynArray_getLength exampleArray ∧
      (∀ i, i < k → exampleCompare (DynArray_get exampleArray i) 4 < 0) ∧
      (∀ i, k ≤ i → i < DynArray_getLength exampleArray →
        0 < exampleCompare (DynArray_get exampleArray i) 4) ∧
      (DynArray_getLength exampleArray = 0 → k = 0) :=
  DynArray_bsearch_absent exampleArray 4 exampleCompare exampleCompare_consistent
    exampleArray_sorted (by
      intro i hi
      have hi3 : i < 3 := hi
      interval_cases i <;> decide)

/-- C20: for every DynArray that is sorted ascending under `pfCompare`, a
consistent total preorder, and every sought element, `DynArray_bsearch`
returns 0 or 1; it returns 1 exactly when some element of the array compares
equal to the sought element, and then the index stored is below the length
and the element at that index compares equal to the sought element. -/
theorem DynArray_bsearch_found_iff {α : Type} [Inhabited α] (oDynArray : DynArray α)
    (pvSoughtElement : α) (pfCompare : α → α → Int)
    (hcmp : CompareConsistent pfCompare) (hsorted : oDynArray.SortedBy pfCompare) :
    ∃ iFound uIndex,
      DynArray_bsearch oDynArray pvSoughtElement pfCompare = some (iFound, uIndex) ∧
      (iFound = 0 ∨ iFound = 1) ∧
      (iFound = 1 ↔ ∃ i, i < DynArray_getLength oDynArray ∧
        pfCompare (DynArray_get oDynArray i) pvSoughtElement = 0) ∧
      (iFound = 1 → uIndex < DynArray_getLength oDynArray ∧
        pfCompare (DynArray_get oDynArray uIndex) pvSoughtElement = 0) := by
  obtain ⟨m1, m2⟩ := hcmp.signMono hsorted pvSoughtElement
  rcases DynArray_bsearch_spec oDynArray pvSoughtElement pfCompare m1 m2 with
    ⟨mid, hm, hlt, heq⟩ | ⟨k, hk, hle, hlo, hhi⟩
  · exact ⟨1, mid, hm, Or.inr rfl, ⟨fun _ => ⟨mid, hlt, heq⟩, fun _ => rfl⟩, fun _ => ⟨hlt, heq⟩⟩
  · refine ⟨0, k, hk, Or.inl rfl, ⟨fun h => absurd h (by decide), ?_⟩,
      fun h => absurd h (by decide)⟩
    rintro ⟨i, hi, heq⟩
    exfalso
    by_cases hik : i < k
    · have := hlo i hik
      simp only [DynArray_get] at heq
      omega
    · have := hhi i (by omega) hi
      simp only [DynArray_get] at heq
      omega

theorem DynArray_bsearch_found_iff_witness :
    ∃ iFound uIndex,
      DynArray_bsearch exampleArray 3 exampleCompare = some (iFound, uIndex) ∧
      (iFound = 0 ∨ iFound = 1) ∧
      (iFound = 1 ↔ ∃ i, i < DynArray_getLength exampleArray ∧
        exampleCompare (DynArray_get exampleArray i) 3 = 0) ∧
      (iFound = 1 → uIndex < DynArray_getLength exampleArray ∧
        exampleCompare (DynArray_get exampleArray uIndex) 3 = 0) :=
  DynArray_bsearch_found_iff exampleArray 3 exampleCompare exampleCompare_consistent
    exampleArray_sorted

/-- C21: for every valid DynArray and every comparator that is a consistent
total preorder, `DynArray_sort` returns, and afterwards the elements are in
ascending order: the comparator applied to the elements at `i` and `i + 1` is
at most 0 for every `i` with `i + 1` below the length, and so is the
comparator applied to the elements at any two indices `i <= j` below the
length. -/
theorem DynArray_sort_sorted {α : Type} [Inhabited α] (oDynArray : DynArray α)
    (pfCompare : α → α → Int) (hv : DynArray_isValid oDynArray = true)
    (hcmp : CompareConsistent pfCompare) :
    ∃ a' : DynArray α, DynArray_sort oDynArray pfCompare = some a' ∧
      (∀ i, i + 1 < DynArray_getLength a' →
        pfCompare (DynArray_get a' i) (DynArray_get a' (i + 1)) ≤ 0) ∧
      (∀ i j, i ≤ j → j < DynArray_getLength a' →
        pfCompare (DynArray_get a' i) (DynArray_get a' j) ≤ 0) := by
  obtain ⟨a', h1, _, _, _, _, h6⟩ := DynArray_sort_spec oDynArray pfCompare hv hcmp
  exact ⟨a', h1, fun i hi => h6 i (i + 1) (Nat.le_succ i) hi, h6⟩

theorem DynArray_sort_sorted_witness :
    ∃ a' : DynArray Nat, DynArray_sort exampleUnsorted exampleCompare = some a' ∧
      (∀ i, i + 1 < DynArray_getLength a' →
        exampleCompare (DynArray_get a' i) (DynArray_get a' (i + 1)) ≤ 0) ∧
      (∀ i j, i ≤ j → j < DynArray_getLength a' →
        exampleCompare (DynArray_get a' i) (DynArray_get a' j) ≤ 0) :=
  DynArray_sort_sorted exampleUnsorted exampleCompare (by decide) exampleCompare_consistent

/-- C22: for every valid DynArray and every comparator that is a consistent
total preorder (its "less than" is a strict weak ordering), `DynArray_sort`
returns and works in place: the length and the physical length are unchanged,
the cells from the length on are unchanged, and the sequence of the elements
after the call is a permutation of the sequence before the call. -/
theorem DynArray_sort_perm {α : Type} [Inhabited α] (oDynArray : DynArray α)
    (pfCompare : α → α → Int) (hv : DynArray_isValid oDynArray = true)
    (hcmp : CompareConsistent pfCompare) :
    ∃ a' : DynArray α, DynArray_sort oDynArray pfCompare = some a' ∧
      DynArray_getLength a' = DynArray_getLength oDynArray ∧
      a'.uPhysLength = oDynArray.uPhysLength ∧
      a'.ppvArray.drop a'.uLength = oDynArray.ppvArray.drop oDynArray.uLength ∧
      List.Perm a'.toList oDynArray.toList := by
  obtain ⟨a', h1, h2, h3, h4, h5, _⟩ := DynArray_sort_spec oDynArray pfCompare hv hcmp
  refine ⟨a', h1, h2, h3, ?_, h5⟩
  unfold DynArray_sort at h1
  by_cases hsmall : oDynArray.uLength < 2
  · rw [if_pos hsmall] at h1
    simp at h1
    rw [← h1]
  · rw [if_neg hsmall] at h1
    obtain ⟨l', e, R, _⟩ := qsort_spec pfCompare hcmp oDynArray.uLength oDynArray.ppvArray 0
      ((oDynArray.uLength : Int) - 1) (le_refl _)
      (by omega) (by have := (isValid_iff oDynArray).mp hv; omega) (by omega)
    rw [e] at h1
    simp at h1
    rw [← h1]
    show l'.drop oDynArray.uLength = oDynArray.ppvArray.drop oDynArray.uLength
    exact drop_eq_of_getD default _ _ _ R.1 (fun k hk => R.2.2.1 k (Or.inr (by omega)))

theorem DynArray_sort_perm_witness :
    ∃ a' : DynArray Nat, DynArray_sort exampleUnsorted exampleCompare = some a' ∧
      DynArray_getLength a' = DynArray_getLength exampleUnsorted ∧
      a'.uPhysLength = exampleUnsorted.uPhysLength ∧
      a'.ppvArray.drop a'.uLength = exampleUnsorted.ppvArray.drop exampleUnsorted.uLength ∧
      List.Perm a'.toList exampleUnsorted.toList :=
  DynArray_sort_perm exampleUnsorted exampleCompare (by decide) exampleCompare_consistent

/-- C23: for every valid DynArray, every index `uIndex` up to its length and
every element, `DynArray_addAt` (growth succeeding) returns 1 and leaves a
valid array that holds the former sequence with the element inserted at
`uIndex`: the length grows by one, the elements at indices below `uIndex` are
unchanged, the element is at `uIndex`, and each element formerly at an index
`j` from `uIndex` on is at `j + 1`. -/
theorem DynArray_addAt_correct {α : Type} [Inhabited α] (oDynArray : DynArray α)
    (uIndex : Nat) (pvElement : α) (hv : DynArray_isValid oDynArray = true)
    (hi : uIndex ≤ DynArray_getLength oDynArray) :
    (DynArray_addAt oDynArray uIndex pvElement).1 = 1 ∧
    DynArray_isValid (DynArray_addAt oDynArray uIndex pvElement).2 = true ∧
    (DynArray_addAt oDynArray uIndex pvElement).2.toList =
      oDynArray.toList.take uIndex ++ pvElement :: oDynArray.toList.drop uIndex ∧
    DynArray_getLength (DynArray_addAt oDynArray uIndex pvElement).2 =
      DynArray_getLength oDynArray + 1 ∧
    (∀ j, j < uIndex →
      DynArray_get (DynArray_addAt oDynArray uIndex pvElement).2 j = DynArray_get oDynArray j) ∧
    DynArray_get (DynArray_addAt oDynArray uIndex pvElement).2 uIndex = pvElement ∧
    (∀ j, uIndex ≤ j → j < DynArray_getLength oDynArray →
      DynArray_get (DynArray_addAt oDynArray uIndex pvElement).2 (j + 1) =
        DynArray_get oDynArray j) := by
  obtain ⟨h1, h2, h3, h4⟩ := DynArray_addAt_spec oDynArray uIndex pvElement hv hi
  have hlen := toList_length oDynArray hv
  simp only [DynArray_getLength] at hi ⊢
  have hget : ∀ k, k < oDynArray.uLength + 1 →
      DynArray_get (DynArray_addAt oDynArray uIndex pvElement).2 k =
        if k < uIndex then DynArray_get oDynArray k
        else if k = uIndex then pvElement else DynArray_get oDynArray (k - 1) := by
    intro k hk
    rw [← toList_getD _ k (by rw [h3]; exact hk), h4,
      getD_insert default pvElement _ uIndex k (by omega)]
    by_cases c1 : k < uIndex
    · rw [if_pos c1, if_pos c1, toList_getD _ k (by omega)]
    · rw [if_neg c1, if_neg c1]
      by_cases c2 : k = uIndex
      · rw [if_pos c2, if_pos c2]
      · rw [if_neg c2, if_neg c2, toList_getD _ (k - 1) (by omega)]
  refine ⟨h1, h2, h4, h3, ?_, ?_, ?_⟩
  · intro j hj
    rw [hget j (by omega), if_pos hj]
  · rw [hget uIndex (by omega), if_neg (by omega), if_pos rfl]
  · intro j hj1 hj2
    rw [hget (j + 1) (by omega), if_neg (by omega), if_neg (by omega)]
    rfl

theorem DynArray_addAt_correct_witness :
    (DynArray_addAt exampleArray 1 2).1 = 1 ∧
    DynArray_isValid (DynArray_addAt exampleArray 1 2).2 = true ∧
    (DynArray_addAt exampleArray 1 2).2.toList =
      exampleArray.toList.take 1 ++ 2 :: exampleArray.toList.drop 1 ∧
    DynArray_getLength (DynArray_addAt exampleArray 1 2).2 =
      DynArray_getLength exampleArray + 1 ∧
    (∀ j, j < 1 →
      DynArray_get (DynArray_addAt exampleArray 1 2).2 j = DynArray_get exampleArray j) ∧
    DynArray_get (DynArray_addAt exampleArray 1 2).2 1 = 2 ∧
    (∀ j, 1 ≤ j → j < DynArray_getLength exampleArray →
      DynArray_get (DynArray_addAt exampleArray 1 2).2 (j + 1) =
        DynArray_get exampleArray j) :=
  DynArray_addAt_correct exampleArray 1 2 (by decide) (by decide)

/-- C24: for every valid DynArray and every index `uIndex` below its length,
`DynArray_removeAt` returns the element formerly at `uIndex` and leaves a
valid array that holds the former sequence with exactly that position
removed: the length shrinks by one, the elements at indices below `uIndex`
are unchanged, and each element formerly at an index `j` above `uIndex` is at
`j - 1`. -/
theorem DynArray_removeAt_correct {α : Type} [Inhabited α] (oDynArray : DynArray α)
    (uIndex : Nat) (hv : DynArray_isValid oDynArray = true)
    (hi : uIndex < DynArray_getLength oDynArray) :
    (DynArray_removeAt oDynArray uIndex).1 = DynArray_get oDynArray uIndex ∧
    DynArray_isValid (DynArray_removeAt oDynArray uIndex).2 = true ∧
    (DynArray_removeAt oDynArray uIndex).2.toList = oDynArray.toList.eraseIdx uIndex ∧
    DynArray_getLength (DynArray_removeAt oDynArray uIndex).2 + 1 =
      DynArray_getLength oDynArray ∧
    (∀ j, j < uIndex →
      DynArray_get (DynArray_removeAt oDynArray uIndex).2 j = DynArray_get oDynArray j) ∧
    (∀ j, uIndex < j → j < DynArray_getLength oDynArray →
      DynArray_get (DynArray_removeAt oDynArray uIndex).2 (j - 1) =
        DynArray_get oDynArray j) := by
  obtain ⟨h1, h2, h3, h4⟩ := DynArray_removeAt_spec oDynArray uIndex hv hi
  simp only [DynArray_getLength] at hi ⊢
  have hget : ∀ k, k < oDynArray.uLength - 1 →
      DynArray_get (DynArray_removeAt oDynArray uIndex).2 k =
        if k < uIndex then DynArray_get oDynArray k else DynArray_get oDynArray (k + 1) := by
    intro k hk
    rw [← toList_getD _ k (by rw [h3]; exact hk), h4, getD_eraseIdx]
    by_cases c1 : k < uIndex
    · rw [if_pos c1, if_pos c1, toList_getD _ k (by omega)]
    · rw [if_neg c1, if_neg c1, toList_getD _ (k + 1) (by omega)]
  refine ⟨h1, h2, h4, by rw [h3]; omega, ?_, ?_⟩
  · intro j hj
    rw [hget j (by omega), if_pos hj]
  · intro j hj1 hj2
    rw [hget (j - 1) (by omega), if_neg (by omega)]
    congr 1
    omega

theorem DynArray_removeAt_correct_witness :
    (DynArray_removeAt exampleArray 1).1 = DynArray_get exampleArray 1 ∧
    DynArray_isValid (DynArray_removeAt exampleArray 1).2 = true ∧
    (DynArray_removeAt exampleArray 1).2.toList = exampleArray.toList.eraseIdx 1 ∧
    DynArray_getLength (DynArray_removeAt exampleArray 1).2 + 1 =
      DynArray_getLength exampleArray ∧
    (∀ j, j < 1 →
      DynArray_get (DynArray_removeAt exampleArray 1).2 j = DynArray_get exampleArray j) ∧
    (∀ j, 1 < j → j < DynArray_getLength exampleArray →
      DynArray_get (DynArray_removeAt exampleArray 1).2 (j - 1) =
        DynArray_get exampleArray j) :=
  DynArray_removeAt_correct exampleArray 1 (by decide) (by decide)

/-- C25: for every valid DynArray and every element, `DynArray_add` (growth
succeeding) returns 1 and leaves a valid array that holds the former sequence
followed by the element: the length grows by exactly one, `DynArray_get` at
the old length gives the element and every earlier element keeps its index;
this holds when the array was full, in which case the physical length
doubles, and when it was not, in which case the physical length stays. -/
theorem DynArray_add_correct {α : Type} [Inhabited α] (oDynArray : DynArray α)
    (pvElement : α) (hv : DynArray_isValid oDynArray = true) :
    (DynArray_add oDynArray pvElement).1 = 1 ∧
    DynArray_isValid (DynArray_add oDynArray pvElement).2 = true ∧
    (DynArray_add oDynArray pvElement).2.toList = oDynArray.toList ++ [pvElement] ∧
    DynArray_getLength (DynArray_add oDynArray pvElement).2 =
      DynArray_getLength oDynArray + 1 ∧
    DynArray_get (DynArray_add oDynArray pvElement).2 (DynArray_getLength oDynArray) =
      pvElement ∧
    (∀ j, j < DynArray_getLength oDynArray →
      DynArray_get (DynArray_add oDynArray pvElement).2 j = DynArray_get oDynArray j) ∧
    (oDynArray.uLength = oDynArray.uPhysLength →
      (DynArray_add oDynArray pvElement).2.uPhysLength = 2 * oDynArray.uPhysLength) ∧
    (oDynArray.uLength ≠ oDynArray.uPhysLength →
      (DynArray_add oDynArray pvElement).2.uPhysLength = oDynArray.uPhysLength) := by
  obtain ⟨h1, h2, h3⟩ := DynArray_add_spec oDynArray pvElement hv
  have hlen := toList_length oDynArray hv
  simp only [DynArray_getLength]
  refine ⟨rfl, h1, h2, h3, ?_, ?_, ?_, ?_⟩
  · rw [← toList_getD _ _ (by rw [h3]; omega), h2]
    simp only [List.getD_eq_getElem?_getD]
    rw [List.getElem?_append_right (by omega), hlen]
    simp
  · intro j hj
    rw [← toList_getD _ j (by rw [h3]; omega), h2, ← toList_getD _ j hj]
    simp only [List.getD_eq_getElem?_getD]
    rw [List.getElem?_append_left (by omega)]
  · intro hfull
    simp [DynArray_add, hfull, DynArray_grow]
  · intro hfull
    simp [DynArray_add, hfull]

theorem DynArray_add_correct_witness :
    (DynArray_add exampleArray 7).1 = 1 ∧
    DynArray_isValid (DynArray_add exampleArray 7).2 = true ∧
    (DynArray_add exampleArray 7).2.toList = exampleArray.toList ++ [7] ∧
    DynArray_getLength (DynArray_add exampleArray 7).2 = DynArray_getLength exampleArray + 1 ∧
    DynArray_get (DynArray_add exampleArray 7).2 (DynArray_getLength exampleArray) = 7 ∧
    (∀ j, j < DynArray_getLength exampleArray →
      DynArray_get (DynArray_add exampleArray 7).2 j = DynArray_get exampleArray j) ∧
    (exampleArray.uLength = exampleArray.uPhysLength →
      (DynArray_add exampleArray 7).2.uPhysLength = 2 * exampleArray.uPhysLength) ∧
    (exampleArray.uLength ≠ exampleArray.uPhysLength →
      (DynArray_add exampleArray 7).2.uPhysLength = exampleArray.uPhysLength) :=
  DynArray_add_correct exampleArray 7 (by decide)

/-- C26: for every DynArray, sought element and comparator, and every value
`uIndex` of `*puIndex` before the call: when some element of the array
compares equal to the sought element, `DynArray_search` returns 1 and stores
the smallest index whose element compares equal; when no element compares
equal, it returns 0 and `*puIndex` keeps its value. -/
theorem DynArray_search_correct {α β : Type} [Inhabited α] (oDynArray : DynArray α)
    (pvSoughtElement : β) (uIndex : Nat) (pfCompare : α → β → Int) :
    ((∃ i, i < DynArray_getLength oDynArray ∧
        pfCompare (DynArray_get oDynArray i) pvSoughtElement = 0) →
      ∃ u, DynArray_search oDynArray pvSoughtElement uIndex pfCompare = (1, u) ∧
        u < DynArray_getLength oDynArray ∧
        pfCompare (DynArray_get oDynArray u) pvSoughtElement = 0 ∧
        ∀ j, j < u → pfCompare (DynArray_get oDynArray j) pvSoughtElement ≠ 0) ∧
    ((∀ i, i < DynArray_getLength oDynArray →
        pfCompare (DynArray_get oDynArray i) pvSoughtElement ≠ 0) →
      DynArray_search oDynArray pvSoughtElement uIndex pfCompare = (0, uIndex)) := by
  obtain ⟨s1, s2⟩ := search_loop_spec oDynArray.ppvArray pvSoughtElement pfCompare
    oDynArray.uLength 0
  simp only [DynArray_getLength, DynArray_get, DynArray_search]
  cases hl : DynArray_search.loop oDynArray.ppvArray pvSoughtElement pfCompare
      oDynArray.uLength 0 with
  | none =>
    have hnone := s2 hl
    constructor
    · rintro ⟨i, hi, heq⟩
      exact absurd heq (hnone i (Nat.zero_le _) (by omega))
    · intro _; rfl
  | some r =>
    obtain ⟨_, r2, r3, r4⟩ := s1 r hl
    constructor
    · intro _
      exact ⟨r, rfl, by omega, r3, fun j hj => r4 j (Nat.zero_le _) hj⟩
    · intro hall
      exact absurd r3 (hall r (by omega))

theorem DynArray_search_correct_witness :
    ((∃ i, i < DynArray_getLength exampleArray ∧
        exampleCompare (DynArray_get exampleArray i) 3 = 0) →
      ∃ u, DynArray_search exampleArray 3 9 exampleCompare = (1, u) ∧
        u < DynArray_getLength exampleArray ∧
        exampleCompare (DynArray_get exampleArray u) 3 = 0 ∧
        ∀ j, j < u → exampleCompare (DynArray_get exampleArray j) 3 ≠ 0) ∧
    ((∀ i, i < DynArray_getLength exampleArray →
        exampleCompare (DynArray_get exampleArray i) 3 ≠ 0) →
      DynArray_search exampleArray 3 9 exampleCompare = (0, 9)) :=
  DynArray_search_correct exampleArray 3 9 exampleCompare

/-- C27: every path obtained from a successful `Path_new` on a C string by any
number of successful calls of ` Path_prefix` and `Path_dup` satisfies the
representation invariant: the pathname is not empty, neither begins nor ends
with the delimiter, holds no two consecutive delimiters and is the components
joined by the delimiter; the stored length is the length of the pathname; the
depth is at least 1.  The paths a client can hold are those obtained in this
way; the invariant holds of each of them and of the result of one more
successful ` Path_prefix` or `Path_dup`. -/
theorem Path_invariant (p : Path) (hp : p.Built) :
    p.WellFormed ∧
    (∀ d q, Path_prefix p d = some (SUCCESS, some q) → q.WellFormed) ∧
    (∀ q, Path_dup p = some (SUCCESS, some q) → q.WellFormed) ∧
    (∀ s q, CStr s → Path_new s = some (SUCCESS, some q) → q.WellFormed) :=
  ⟨hp.toInv.wellFormed,
   fun d q h => (Path.Built.pre p d q hp h).toInv.wellFormed,
   fun q h => (Path.Built.pre p (Path_getDepth p) q hp h).toInv.wellFormed,
   fun s q hs h => (Path.Built.new s q hs h).toInv.wellFormed⟩

theorem Path_invariant_witness :
    examplePathA.WellFormed ∧
    (∀ d q, Path_prefix examplePathA d = some (SUCCESS, some q) → q.WellFormed) ∧
    (∀ q, Path_dup examplePathA = some (SUCCESS, some q) → q.WellFormed) ∧
    (∀ s q, CStr s → Path_new s = some (SUCCESS, some q) → q.WellFormed) :=
  Path_invariant examplePathA
    (Path.Built.pre examplePathAB 1 examplePathA
      (Path.Built.new "a/b".toList _ (by decide) (by decide)) (by decide))

/-- C28: for every valid DynArray that is sorted strictly ascending under
`pfCompare`, a consistent comparator as `dynarray.h` requires, and every
element for which `DynArray_bsearch` returns 0 with the index `k` stored,
`k` is at most the length and `DynArray_addAt` of the element at `k` leaves
the array sorted strictly ascending under `pfCompare`. -/
theorem DynArray_bsearch_addAt_sorted {α : Type} [Inhabited α] (oDynArray : DynArray α)
    (pvElement : α) (pfCompare : α → α → Int) (k : Nat)
    (hv : DynArray_isValid oDynArray = true) (hcmp : CompareConsistent pfCompare)
    (hsorted : oDynArray.StrictSortedBy pfCompare)
    (hsearch : DynArray_bsearch oDynArray pvElement pfCompare = some (0, k)) :
    k ≤ DynArray_getLength oDynArray ∧
    (DynArray_addAt oDynArray k pvElement).2.StrictSortedBy pfCompare := by
  obtain ⟨m1, m2⟩ := hcmp.signMono (StrictSortedBy.sorted hcmp hsorted) pvElement
  rcases DynArray_bsearch_spec oDynArray pvElement pfCompare m1 m2 with
    ⟨mid, hm, _, _⟩ | ⟨k', hk, hle, hlo, hhi⟩
  · rw [hm] at hsearch
    simp at hsearch
  · rw [hk] at hsearch
    simp at hsearch
    subst hsearch
    refine ⟨hle, ?_⟩
    obtain ⟨_, _, h3, h4⟩ := DynArray_addAt_spec oDynArray k' pvElement hv hle
    have hget : ∀ t, t < oDynArray.uLength + 1 →
        DynArray_get (DynArray_addAt oDynArray k' pvElement).2 t =
          if t < k' then DynArray_get oDynArray t
          else if t = k' then pvElement else DynArray_get oDynArray (t - 1) := by
      intro t ht
      rw [← toList_getD _ t (by rw [h3]; exact ht), h4,
        getD_insert default pvElement _ k' t (by rw [toList_length _ hv]; exact hle)]
      by_cases c1 : t < k'
      · rw [if_pos c1, if_pos c1, toList_getD _ t (by omega)]
      · rw [if_neg c1, if_neg c1]
        by_cases c2 : t = k'
        · rw [if_pos c2, if_pos c2]
        · rw [if_neg c2, if_neg c2, toList_getD _ (t - 1) (by omega)]
    intro i j hij hj
    simp only [DynArray_getLength] at hj
    rw [h3] at hj
    rw [hget i (by omega), hget j hj]
    by_cases ci : i < k'
    · rw [if_pos ci]
      by_cases cj : j < k'
      · rw [if_pos cj]
        exact hsorted i j hij (by simp only [DynArray_getLength]; omega)
      · rw [if_neg cj]
        by_cases cj2 : j = k'
        · rw [if_pos cj2]
          exact hlo i ci
        · rw [if_neg cj2]
          exact hsorted i (j - 1) (by omega) (by simp only [DynArray_getLength]; omega)
    · rw [if_neg ci]
      by_cases ci2 : i = k'
      · rw [if_pos ci2, if_neg (by omega), if_neg (by omega)]
        exact (hcmp.1 _ _).mpr (hhi (j - 1) (by omega) (by omega))
      · rw [if_neg ci2, if_neg (by omega), if_neg (by omega)]
        exact hsorted (i - 1) (j - 1) (by omega) (by simp only [DynArray_getLength]; omega)

theorem DynArray_bsearch_addAt_sorted_witness :
    2 ≤ DynArray_getLength exampleArray ∧
    (DynArray_addAt exampleArray 2 4).2.StrictSortedBy exampleCompare :=
  DynArray_bsearch_addAt_sorted exampleArray 4 exampleCompare 2 (by decide)
    exampleCompare_consistent exampleArray_strict (by decide)

/-- C29: for all paths `a` and `b` a client can hold, `Path_comparePath a b`
is 0 exactly when `a` and `b` have the same depth and
`Path_getSharedPrefixDepth a b` is that depth: the pathnames are equal exactly
when the paths are equal component by component. -/
theorem Path_compare_zero_iff (a b : Path) (ha : a.Built) (hb : b.Built) :
    Path_comparePath a b = 0 ↔
      (Path_getDepth a = Path_getDepth b ∧
        Path_getSharedPrefixDepth a b = some (Path_getDepth a)) := by
  have hai := ha.toInv
  have hbi := hb.toInv
  have hda := Path_depth_eq a hai
  have hdb := Path_depth_eq b hbi
  obtain ⟨k, hk, hka, hkb, hagree, hdiff⟩ := shared_spec a b hai hbi
  have hz : Path_comparePath a b = 0 ↔ a.pcPath = b.pcPath :=
    (strcmp_sign _ _ hai.pathCStr hbi.pathCStr).2.1
  rw [hz, hk, hda, hdb]
  constructor
  · intro heq
    have hc : a.comps = b.comps := by rw [← hai.splitRef_eq, ← hbi.splitRef_eq, heq]
    refine ⟨by rw [hc], ?_⟩
    congr 1
    by_contra hne
    have hlt : k < a.comps.length := by omega
    exact hdiff hlt (by rw [← hc]; exact hlt) (by rw [hc])
  · rintro ⟨hlen, hsome⟩
    have hkeq : k = a.comps.length := by simpa using hsome
    have hc : a.comps = b.comps := by
      apply List.ext_getElem? 
      intro j
      by_cases hj : j < k
      · exact hagree j hj
      · rw [List.getElem?_eq_none (by omega), List.getElem?_eq_none (by omega)]
    rw [hai.2.2.2.2.1, hbi.2.2.2.2.1, hc]

theorem Path_compare_zero_iff_witness :
    Path_comparePath examplePathAB examplePathA = 0 ↔
      (Path_getDepth examplePathAB = Path_getDepth examplePathA ∧
        Path_getSharedPrefixDepth examplePathAB examplePathA =
          some (Path_getDepth examplePathAB)) :=
  Path_compare_zero_iff examplePathAB examplePathA
    (Path.Built.new "a/b".toList _ (by decide) (by decide))
    (Path.Built.new "a".toList _ (by decide) (by decide))

/-- C30: for every path `p` a client can hold and every depth `d` from 1 to
the depth of `p`, ` Path_prefix p d` succeeds with a path whose shared prefix
depth with `p` is `d`; the shared prefix depth of `p` with itself is its
depth. -/
theorem Path_prefix_shared_depth (p : Path) (hp : p.Built) (d : Nat) (h1 : 1 ≤ d)
    (h2 : d ≤ Path_getDepth p) :
    (∃ q, Path_prefix p d = some (SUCCESS, some q) ∧
      Path_getSharedPrefixDepth q p = some d ∧ Path_getSharedPrefixDepth p q = some d) ∧
    Path_getSharedPrefixDepth p p = some (Path_getDepth p) := by
  have hinv := hp.toInv
  have hd := Path_depth_eq p hinv
  obtain ⟨q, hq, hqi, hqc⟩ := Path_prefix_spec p hinv d h1 h2
  have hql : q.comps.length = d := by rw [hqc, List.length_take]; omega
  have hget : ∀ j, j < d → q.comps[j]? = p.comps[j]? := by
    intro j hj
    rw [hqc, List.getElem?_take_of_lt hj]
  refine ⟨⟨q, hq, ?_, ?_⟩, ?_⟩
  · obtain ⟨k, hk, hka, hkb, _, hdiff⟩ := shared_spec q p hqi hinv
    rw [hk]
    congr 1
    by_contra hne
    have hlt : k < d := by omega
    exact hdiff (by omega) (by omega) (hget k hlt)
  · obtain ⟨k, hk, hka, hkb, _, hdiff⟩ := shared_spec p q hinv hqi
    rw [hk]
    congr 1
    by_contra hne
    have hlt : k < d := by omega
    exact hdiff (by omega) (by omega) (hget k hlt).symm
  · obtain ⟨k, hk, hka, _, _, hdiff⟩ := shared_spec p p hinv hinv
    rw [hk, hd]
    congr 1
    by_contra hne
    exact hdiff (by omega) (by omega) rfl

theorem Path_prefix_shared_depth_witness :
    (∃ q, Path_prefix examplePathAB 1 = some (SUCCESS, some q) ∧
      Path_getSharedPrefixDepth q examplePathAB = some 1 ∧
      Path_getSharedPrefixDepth examplePathAB q = some 1) ∧
    Path_getSharedPrefixDepth examplePathAB examplePathAB =
      some (Path_getDepth examplePathAB) :=
  Path_prefix_shared_depth examplePathAB
    (Path.Built.new "a/b".toList _ (by decide) (by decide)) 1 (by decide) (by decide)

/-- C31: for every path `p` a client can hold and every depth `d` from 1 to
below the depth of `p`, ` Path_prefix p d` succeeds with a path `q` such that
`Path_comparePath q p` is negative (and `Path_comparePath p q` is positive):
the pathname of a strict ancestor orders before the pathname of its
descendant. -/
theorem Path_compare_prefix_negative (p : Path) (hp : p.Built) (d : Nat) (h1 : 1 ≤ d)
    (h2 : d < Path_getDepth p) :
    ∃ q, Path_prefix p d = some (SUCCESS, some q) ∧ Path_comparePath q p < 0 ∧
      0 < Path_comparePath p q ∧
      lexLt (Path_getPathname q) (Path_getPathname p) := by
  have hinv := hp.toInv
  have hd := Path_depth_eq p hinv
  obtain ⟨q, hq, hqi, hqc, hqn⟩ := Path_prefix_name p hinv d h1 (by omega)
  have hsplit : p.pcPath = q.pcPath ++ SLASH :: [SLASH].intercalate (p.comps.drop d) := by
    rw [hqn, Path.name, hinv.2.2.2.2.1]
    conv_lhs => rw [← List.take_append_drop d p.comps]
    apply intercalate_append
    · intro h
      have hl : (p.comps.take d).length = d := by rw [List.length_take]; omega
      rw [h] at hl
      simp at hl
      omega
    · intro h
      have hl : (p.comps.drop d).length = p.comps.length - d := List.length_drop _ _
      rw [h] at hl
      simp at hl
      omega
  have hlt : lexLt q.pcPath p.pcPath := by
    rw [hsplit]; exact lexLt_append_cons _ _ _
  refine ⟨q, hq, ?_, ?_, hlt⟩
  · exact (strcmp_sign _ _ hqi.pathCStr hinv.pathCStr).1.mpr hlt
  · exact (strcmp_sign _ _ hinv.pathCStr hqi.pathCStr).2.2.mpr hlt

theorem Path_compare_prefix_negative_witness :
    ∃ q, Path_prefix examplePathAB 1 = some (SUCCESS, some q) ∧
      Path_comparePath q examplePathAB < 0 ∧ 0 < Path_comparePath examplePathAB q ∧
      lexLt (Path_getPathname q) (Path_getPathname examplePathAB) :=
  Path_compare_prefix_negative examplePathAB
    (Path.Built.new "a/b".toList _ (by decide) (by decide)) 1 (by decide) (by decide)

/-- C32: for all paths `a` and `b` a client can hold that have the same depth
`d`, at least 2, and the same components at the levels below `d - 1`, the
components `x` of `a` and `y` of `b` at the level `d - 1` exist and
`Path_comparePath a b` is negative, zero or positive exactly when
`strcmp x y`, the byte-wise comparison of the last components, is. -/
theorem Path_compare_siblings (a b : Path) (ha : a.Built) (hb : b.Built) (d : Nat)
    (hd : 2 ≤ d) (hda : Path_getDepth a = d) (hdb : Path_getDepth b = d)
    (hagree : ∀ i, i + 1 < d → Path_getComponent a i = Path_getComponent b i) :
    ∃ x y, Path_getComponent a (d - 1) = some x ∧ Path_getComponent b (d - 1) = some y ∧
      (Path_comparePath a b < 0 ↔ strcmp x y < 0) ∧
      (Path_comparePath a b = 0 ↔ strcmp x y = 0) ∧
      (0 < Path_comparePath a b ↔ 0 < strcmp x y) := by
  have hai := ha.toInv
  have hbi := hb.toInv
  have hla : a.comps.length = d := by rw [← Path_depth_eq a hai, hda]
  have hlb : b.comps.length = d := by rw [← Path_depth_eq b hbi, hdb]
  have hxa : d - 1 < a.comps.length := by omega
  have hxb : d - 1 < b.comps.length := by omega
  obtain ⟨x, hx⟩ : ∃ x, a.comps[d - 1] = x := ⟨_, rfl⟩
  obtain ⟨y, hy⟩ : ∃ y, b.comps[d - 1] = y := ⟨_, rfl⟩
  have hta : a.comps = a.comps.take (d - 1) ++ [x] := by
    conv_lhs => rw [← List.take_append_drop (d - 1) a.comps]
    congr 1
    rw [List.drop_eq_getElem_cons hxa, List.drop_of_length_le (by omega), hx]
  have htb : b.comps = b.comps.take (d - 1) ++ [y] := by
    conv_lhs => rw [← List.take_append_drop (d - 1) b.comps]
    congr 1
    rw [List.drop_eq_getElem_cons hxb, List.drop_of_length_le (by omega), hy]
  have hpre : a.comps.take (d - 1) = b.comps.take (d - 1) := by
    apply List.ext_getElem?
    intro i
    by_cases hi : i < d - 1
    · rw [List.getElem?_take_of_lt hi, List.getElem?_take_of_lt hi,
        ← Path_getComponent_eq a hai, ← Path_getComponent_eq b hbi]
      exact hagree i (by omega)
    · rw [List.getElem?_eq_none (by simp; omega), List.getElem?_eq_none (by simp; omega)]
  have hne : a.comps.take (d - 1) ≠ [] := by
    intro h
    have hl : (a.comps.take (d - 1)).length = d - 1 := by rw [List.length_take]; omega
    rw [h] at hl
    simp at hl
    omega
  have hpa : a.pcPath = ([SLASH].intercalate (a.comps.take (d - 1)) ++ [SLASH]) ++ x := by
    rw [hai.2.2.2.2.1]
    conv_lhs => rw [hta]
    rw [intercalate_append _ _ hne (by simp), intercalate_singleton]
    simp
  have hpb : b.pcPath = ([SLASH].intercalate (a.comps.take (d - 1)) ++ [SLASH]) ++ y := by
    rw [hbi.2.2.2.2.1]
    conv_lhs => rw [htb]
    rw [← hpre, intercalate_append _ _ hne (by simp), intercalate_singleton]
    simp
  have hw : CStr ([SLASH].intercalate (a.comps.take (d - 1)) ++ [SLASH]) := by
    have h1 : CStr ([SLASH].intercalate (a.comps.take (d - 1))) :=
      CStr_intercalate _ (fun c hc => (hai.2.2.2.1 c (List.mem_of_mem_take hc)).2.2)
    intro h
    rcases List.mem_append.mp h with h | h
    · exact h1 h
    · simp at h
      exact NUL_ne_SLASH h
  have hcmp : Path_comparePath a b = strcmp x y := by
    simp only [Path_comparePath]
    rw [hpa, hpb, strcmp_append _ _ _ hw]
  refine ⟨x, y, ?_, ?_, ?_⟩
  · rw [Path_getComponent_eq a hai, List.getElem?_eq_getElem hxa, hx]
  · rw [Path_getComponent_eq b hbi, List.getElem?_eq_getElem hxb, hy]
  · rw [hcmp]
    exact ⟨Iff.rfl, Iff.rfl, Iff.rfl⟩

theorem Path_compare_siblings_witness :
    ∃ x y, Path_getComponent examplePathAB (2 - 1) = some x ∧
      Path_getComponent ⟨"a/c".toList, 3, ⟨2, 2, [some ['a'], some ['c']]⟩⟩ (2 - 1) = some y ∧
      (Path_comparePath examplePathAB ⟨"a/c".toList, 3, ⟨2, 2, [some ['a'], some ['c']]⟩⟩ < 0 ↔
        strcmp x y < 0) ∧
      (Path_comparePath examplePathAB ⟨"a/c".toList, 3, ⟨2, 2, [some ['a'], some ['c']]⟩⟩ = 0 ↔
        strcmp x y = 0) ∧
      (0 < Path_comparePath examplePathAB ⟨"a/c".toList, 3, ⟨2, 2, [some ['a'], some ['c']]⟩⟩ ↔
        0 < strcmp x y) :=
  Path_compare_siblings examplePathAB ⟨"a/c".toList, 3, ⟨2, 2, [some ['a'], some ['c']]⟩⟩
    (Path.Built.new "a/b".toList _ (by decide) (by decide))
    (Path.Built.new "a/c".toList _ (by decide) (by decide)) 2 (by decide) (by decide)
    (by decide) (by
      intro i hi
      have : i = 0 := by omega
      subst this
      decide)

/-- C33: for every DynArray that is sorted ascending under `pfCompare`, a
consistent total preorder, every sought element and every value `uIndex` of
`*puIndex` before the call of `DynArray_search`: `DynArray_bsearch` and
`DynArray_search` return the same int, 0 or 1; and when no two elements of
the array compare equal and that int is 1, the two functions store the same
index. -/
theorem DynArray_bsearch_search_agree {α : Type} [Inhabited α] (oDynArray : DynArray α)
    (pvSoughtElement : α) (uIndex : Nat) (pfCompare : α → α → Int)
    (hcmp : CompareConsistent pfCompare) (hsorted : oDynArray.SortedBy pfCompare) :
    ∃ (iFound : Int) (uBsearch uSearch : Nat),
      DynArray_bsearch oDynArray pvSoughtElement pfCompare = some (iFound, uBsearch) ∧
      DynArray_search oDynArray pvSoughtElement uIndex pfCompare = (iFound, uSearch) ∧
      (iFound = 0 ∨ iFound = 1) ∧
      ((∀ i j, i < j → j < DynArray_getLength oDynArray →
          pfCompare (DynArray_get oDynArray i) (DynArray_get oDynArray j) ≠ 0) →
        iFound = 1 → uBsearch = uSearch) := by
  obtain ⟨m1, m2⟩ := hcmp.signMono hsorted pvSoughtElement
  obtain ⟨f1, f2⟩ := search_found_iff oDynArray pvSoughtElement uIndex pfCompare
  rcases DynArray_bsearch_spec oDynArray pvSoughtElement pfCompare m1 m2 with
    ⟨mid, hm, hlt, heq⟩ | ⟨k, hk, hle, hlo, hhi⟩
  · obtain ⟨u, hu, hul, hue, humin⟩ := f1 ⟨mid, hlt, heq⟩
    refine ⟨1, mid, u, hm, hu, Or.inr rfl, ?_⟩
    intro hdistinct _
    by_contra hne
    have hz := hcmp.eq_of_both _ _ _ heq hue
    have hz' := hcmp.eq_of_both _ _ _ hue heq
    rcases Nat.lt_or_gt_of_ne hne with h | h
    · exact hdistinct mid u h hul hz
    · exact hdistinct u mid h hlt hz'
  · have hnone : ∀ i, i < oDynArray.uLength →
        pfCompare (oDynArray.ppvArray.getD i default) pvSoughtElement ≠ 0 := by
      intro i hi
      by_cases hik : i < k
      · have := hlo i hik
        omega
      · have := hhi i (by omega) hi
        omega
    exact ⟨0, k, uIndex, hk, f2 hnone, Or.inl rfl, fun _ h => absurd h (by decide)⟩

theorem DynArray_bsearch_search_agree_witness :
    ∃ (iFound : Int) (uBsearch uSearch : Nat),
      DynArray_bsearch exampleArray 5 exampleCompare = some (iFound, uBsearch) ∧
      DynArray_search exampleArray 5 0 exampleCompare = (iFound, uSearch) ∧
      (iFound = 0 ∨ iFound = 1) ∧
      ((∀ i j, i < j → j < DynArray_getLength exampleArray →
          exampleCompare (DynArray_get exampleArray i) (DynArray_get exampleArray j) ≠ 0) →
        iFound = 1 → uBsearch = uSearch) :=
  DynArray_bsearch_search_agree exampleArray 5 0 exampleCompare exampleCompare_consistent
    exampleArray_sorted

end DFT
